import Mathlib

/-! # N-puzzle solver (`npuzzle.cpp`): shallow embedding and verified properties

Conventions of the embedding.

* `vector<vector<int>>` is `List (List Int)`; C++ `int` is modelled by `Int` (all the
  quantities computed by the program are bounded by a small polynomial in the board
  size, so no wrap-around is modelled).
* Loop counters that range over `0 .. size-1` are natural numbers; coordinates that
  may leave the board (`newRow`, `newCol`, the bounds of the spiral) are integers.
* `unordered_map<int, V>` is an association list in which a later binding shadows an
  earlier one; `unordered_set<string>` is a duplicate-free list.
* `std::string` is `List Char`.
* `shared_ptr<PuzzleState>` is the inductive type `PuzzleState`: either `nullptr` or a
  node carrying its fields and its `parent` pointer.
* `std::priority_queue` is a list of nodes; `top()` is a node that no other node beats
  under `CompareState`.  Which of several equally good nodes is on top is not fixed
  by the C++ standard; it is resolved by an explicit stream of choices `tie`.
* The `while` loops take a fuel argument; `none` means that the fuel ran out.
-/

namespace NPuzzle

/-! ## Boards -/

/-- A board, `vector<vector<int>>`. -/
abbrev Board := List (List Int)

/-- The cell `board[i][j]`. -/
def cell (board : Board) (i j : Nat) : Int := (board.getD i []).getD j 0

/-- The assignment `board[i][j] = v`. -/
def setCell (board : Board) (i j : Nat) (v : Int) : Board :=
  board.set i ((board.getD i []).set j v)

/-- The exchange `swap(board[r][c], board[r2][c2])`. -/
def swapCells (board : Board) (r c r2 c2 : Nat) : Board :=
  setCell (setCell board r c (cell board r2 c2)) r2 c2 (cell board r c)

/-- The integers `lo, lo+1, ..., hi` (empty when `hi < lo`). -/
def intRange (lo hi : Int) : List Int :=
  (List.range (hi + 1 - lo).toNat).map (fun k => lo + (k : Int))

/-! ## Strings -/

/-- The decimal digit `d` as a character. -/
def digitChar (d : Nat) : Char :=
  match d with
  | 0 => '0' | 1 => '1' | 2 => '2' | 3 => '3' | 4 => '4'
  | 5 => '5' | 6 => '6' | 7 => '7' | 8 => '8' | _ => '9'

/-- Decimal digits of a natural number, most significant first. -/
def natDigits : Nat → Nat → List Char
  | 0, _ => []
  | fuel + 1, n =>
    if n < 10 then [digitChar n] else natDigits fuel (n / 10) ++ [digitChar (n % 10)]

/-- The library function `std::to_string(int)`. -/
def to_string (val : Int) : List Char :=
  match val with
  | Int.ofNat n => natDigits (n + 1) n
  | Int.negSucc n => '-' :: natDigits (n + 2) (n + 1)

/-- The body of the method `PuzzleState::toString`, as a function of the board. -/
def boardToString (board : Board) : List Char :=
  board.foldl (fun result row =>
    row.foldl (fun result val => result ++ (to_string val ++ [','])) result) []

/-! ## Search nodes -/

/-- A `shared_ptr<PuzzleState>`: the null pointer, or a node with the fields of the
class `PuzzleState`. -/
inductive PuzzleState where
  | nullptr : PuzzleState
  | mk (board : Board) (size : Nat) (emptyPos : Int × Int) (g h : Int)
      (moves : List Char) (parent : PuzzleState) : PuzzleState

namespace PuzzleState

/-- The field `board`. -/
def board : PuzzleState → Board
  | nullptr => []
  | mk b _ _ _ _ _ _ => b

/-- The field `size`. -/
def size : PuzzleState → Nat
  | nullptr => 0
  | mk _ s _ _ _ _ _ => s

/-- The field `emptyPos`. -/
def emptyPos : PuzzleState → Int × Int
  | nullptr => (0, 0)
  | mk _ _ e _ _ _ _ => e

/-- The field `g`. -/
def g : PuzzleState → Int
  | nullptr => 0
  | mk _ _ _ g _ _ _ => g

/-- The field `h`. -/
def h : PuzzleState → Int
  | nullptr => 0
  | mk _ _ _ _ h _ _ => h

/-- The field `moves`. -/
def moves : PuzzleState → List Char
  | nullptr => []
  | mk _ _ _ _ _ m _ => m

/-- The field `parent`. -/
def parent : PuzzleState → PuzzleState
  | nullptr => nullptr
  | mk _ _ _ _ _ _ p => p

/-- Whether the pointer is null. -/
def isNull : PuzzleState → Bool
  | nullptr => true
  | mk _ _ _ _ _ _ _ => false

/-- The method `toString`. -/
def toString (s : PuzzleState) : List Char := boardToString s.board

/-- The method `getFScore`. -/
def getFScore (s : PuzzleState) : Int := s.g + s.h

/-- The method `isGoal`. -/
def isGoal (s : PuzzleState) (goal : Board) : Bool := decide (s.board = goal)

end PuzzleState

/-- The method `findEmptyPosition`: the first cell holding 0 in row-major order, and
`(0, 0)` (the value-initialised pair) when there is none. -/
def findEmptyPosition (board : Board) (size : Nat) : Int × Int :=
  let hits := (List.range size).flatMap (fun i =>
    (List.range size).filterMap (fun j =>
      if cell board i j = 0 then some ((i : Int), (j : Int)) else none))
  hits.headD (0, 0)

/-- The constructor `PuzzleState(b, s)`. -/
def PuzzleState.new (b : Board) (s : Nat) : PuzzleState :=
  PuzzleState.mk b s (findEmptyPosition b s) 0 0 [] PuzzleState.nullptr

/-- The comparator `CompareState`: `a` is ordered below `b` in the priority queue. -/
def CompareState (a b : PuzzleState) : Bool :=
  if a.getFScore = b.getFScore then decide (a.h > b.h)
  else decide (a.getFScore > b.getFScore)

/-! ## Goal generation -/

/-- The local variables of `generateGoal`. -/
structure GoalGen where
  goal : Board
  num : Int
  top : Int
  bottom : Int
  left : Int
  right : Int

/-- One `for` loop of `generateGoal`: write `num++` into the listed cells. -/
def fillCells (goal : Board) (num : Int) (cells : List (Int × Int)) : Board × Int :=
  cells.foldl (fun acc p => (setCell acc.1 p.1.toNat p.2.toNat acc.2, acc.2 + 1)) (goal, num)

/-- One iteration of the `while` loop of `generateGoal`. -/
def spiralStep (s : GoalGen) : GoalGen :=
  let r1 := fillCells s.goal s.num ((intRange s.left s.right).map (fun i => (s.top, i)))
  let top := s.top + 1
  let r2 := fillCells r1.1 r1.2 ((intRange top s.bottom).map (fun i => (i, s.right)))
  let right := s.right - 1
  let s3 : GoalGen :=
    if top ≤ s.bottom then
      let r3 := fillCells r2.1 r2.2 ((intRange s.left right).reverse.map (fun i => (s.bottom, i)))
      { goal := r3.1, num := r3.2, top := top, bottom := s.bottom - 1,
        left := s.left, right := right }
    else
      { goal := r2.1, num := r2.2, top := top, bottom := s.bottom,
        left := s.left, right := right }
  if s3.left ≤ s3.right then
    let r4 := fillCells s3.goal s3.num ((intRange s3.top s3.bottom).reverse.map (fun i => (i, s3.left)))
    { s3 with goal := r4.1, num := r4.2, left := s3.left + 1 }
  else s3

/-- The `while (top <= bottom && left <= right)` loop of `generateGoal`. -/
def spiralLoop : Nat → GoalGen → Option GoalGen
  | 0, _ => none
  | fuel + 1, s =>
    if s.top ≤ s.bottom ∧ s.left ≤ s.right then spiralLoop fuel (spiralStep s) else some s

/-- The function `generateGoal`; `top` grows by one in every iteration, so `size + 1`
units of fuel are enough. -/
def generateGoal (size : Nat) : Board :=
  let init : GoalGen :=
    { goal := List.replicate size (List.replicate size 0), num := 1,
      top := 0, bottom := (size : Int) - 1, left := 0, right := (size : Int) - 1 }
  match spiralLoop (size + 1) init with
  | some s => setCell s.goal (size / 2) (size / 2) 0
  | none => []

/-! ## Goal position map and heuristics -/

/-- The function `buildGoalPositions`. -/
def buildGoalPositions (goal : Board) : List (Int × (Nat × Nat)) :=
  let size := goal.length
  (List.range size).foldl (fun goalPos i =>
    (List.range size).foldl (fun goalPos j =>
      if cell goal i j ≠ 0 then (cell goal i j, (i, j)) :: goalPos else goalPos) goalPos) []

/-- The function `manhattanDistance`. -/
def manhattanDistance (board : Board) (goalPos : List (Int × (Nat × Nat))) : Int :=
  let size := board.length
  (List.range size).foldl (fun distance i =>
    (List.range size).foldl (fun distance j =>
      let tile := cell board i j
      if tile ≠ 0 then
        match goalPos.lookup tile with
        | some (goalRow, goalCol) =>
          distance + ((((i : Int) - goalRow).natAbs : Int) + (((j : Int) - goalCol).natAbs : Int))
        | none => distance
      else distance) distance) 0

/-- The row scan of `linearConflict`. -/
def rowConflicts (board : Board) (goalPos : List (Int × (Nat × Nat))) : Int :=
  let size := board.length
  (List.range size).foldl (fun conflict i =>
    (List.range (size - 1)).foldl (fun conflict j =>
      let tile1 := cell board i j
      if tile1 = 0 then conflict else
      match goalPos.lookup tile1 with
      | none => conflict
      | some (goalRow1, goalCol1) =>
        if goalRow1 = i then
          ((List.range size).filter (fun k => j + 1 ≤ k)).foldl (fun conflict k =>
            let tile2 := cell board i k
            if tile2 = 0 then conflict else
            match goalPos.lookup tile2 with
            | none => conflict
            | some (goalRow2, goalCol2) =>
              if goalRow2 = i ∧ goalCol1 > goalCol2 then conflict + 2 else conflict) conflict
        else conflict) conflict) 0

/-- The column scan of `linearConflict`, continuing from the row scan's count. -/
def colConflicts (board : Board) (goalPos : List (Int × (Nat × Nat))) (start : Int) : Int :=
  let size := board.length
  (List.range size).foldl (fun conflict j =>
    (List.range (size - 1)).foldl (fun conflict i =>
      let tile1 := cell board i j
      if tile1 = 0 then conflict else
      match goalPos.lookup tile1 with
      | none => conflict
      | some (goalRow1, goalCol1) =>
        if goalCol1 = j then
          ((List.range size).filter (fun k => i + 1 ≤ k)).foldl (fun conflict k =>
            let tile2 := cell board k j
            if tile2 = 0 then conflict else
            match goalPos.lookup tile2 with
            | none => conflict
            | some (goalRow2, goalCol2) =>
              if goalCol2 = j ∧ goalRow1 > goalRow2 then conflict + 2 else conflict) conflict
        else conflict) conflict) start

/-- The function `linearConflict`. -/
def linearConflict (board : Board) (goalPos : List (Int × (Nat × Nat))) : Int :=
  let conflict := colConflicts board goalPos (rowConflicts board goalPos)
  manhattanDistance board goalPos + conflict

/-- The function `hammingDistance`. -/
def hammingDistance (board goal : Board) : Int :=
  let size := board.length
  (List.range size).foldl (fun count i =>
    (List.range size).foldl (fun count j =>
      if cell board i j ≠ 0 ∧ cell board i j ≠ cell goal i j then count + 1 else count) count) 0

/-- The heuristic selected by `heuristicChoice` (the `if` chain that appears in
`generateNeighbors` and in `aStarSearch`). -/
def heuristic (heuristicChoice : Int) (board : Board) (goalPos : List (Int × (Nat × Nat)))
    (goal : Board) : Int :=
  if heuristicChoice = 1 then manhattanDistance board goalPos
  else if heuristicChoice = 2 then linearConflict board goalPos
  else hammingDistance board goal

/-! ## Solvability check -/

/-- The first loop nest of `isSolvable`: the triple
`(flatBoard, flatGoal, emptyRowFromBottom)`. -/
def solvableScan (board goal : Board) : List Int × List Int × Int :=
  let size := board.length
  (List.range size).foldl (fun acc i =>
    (List.range size).foldl (fun (acc : List Int × List Int × Int) j =>
      let acc1 : List Int × List Int × Int :=
        if cell board i j = 0 then (acc.1, acc.2.1, (size : Int) - (i : Int))
        else (acc.1 ++ [cell board i j], acc.2.1, acc.2.2)
      if cell goal i j ≠ 0 then (acc1.1, acc1.2.1 ++ [cell goal i j], acc1.2.2)
      else acc1) acc) ([], [], 0)

/-- The map `goalIndex` of `isSolvable`. -/
def buildGoalIndex (flatGoal : List Int) : List (Int × Int) :=
  (List.range flatGoal.length).foldl (fun goalIndex i =>
    (flatGoal.getD i 0, (i : Int)) :: goalIndex) []

/-- The vector `remapped` of `isSolvable`; `goalIndex[tile]` is 0 for an absent key. -/
def remap (goalIndex : List (Int × Int)) (flatBoard : List Int) : List Int :=
  flatBoard.foldl (fun remapped tile => remapped ++ [(goalIndex.lookup tile).getD 0]) []

/-- The inversion count of `isSolvable`. -/
def countInversions (remapped : List Int) : Int :=
  (List.range remapped.length).foldl (fun inversions i =>
    ((List.range remapped.length).filter (fun j => i + 1 ≤ j)).foldl (fun inversions j =>
      if remapped.getD i 0 > remapped.getD j 0 then inversions + 1 else inversions)
      inversions) 0

/-- The function `isSolvable`. -/
def isSolvable (board goal : Board) : Bool :=
  let size := board.length
  let scan := solvableScan board goal
  let flatBoard := scan.1
  let flatGoal := scan.2.1
  let emptyRowFromBottom := scan.2.2
  let goalIndex := buildGoalIndex flatGoal
  let remapped := remap goalIndex flatBoard
  let inversions := countInversions remapped
  if size % 2 = 1 then decide (inversions % 2 = 0)
  else decide ((inversions + emptyRowFromBottom) % 2 = 1)

/-! ## Neighbour generation -/

/-- The table `directions` paired with the table `moveNames`. -/
def directions : List ((Int × Int) × Char) :=
  [((-1, 0), 'U'), ((1, 0), 'D'), ((0, -1), 'L'), ((0, 1), 'R')]

/-- The function `generateNeighbors`. -/
def generateNeighbors (current : PuzzleState) (goalPos : List (Int × (Nat × Nat)))
    (goal : Board) (heuristicChoice : Int) : List PuzzleState :=
  let row := current.emptyPos.1
  let col := current.emptyPos.2
  let size := current.size
  directions.foldl (fun neighbors d =>
    let newRow := row + d.1.1
    let newCol := col + d.1.2
    if 0 ≤ newRow ∧ newRow < (size : Int) ∧ 0 ≤ newCol ∧ newCol < (size : Int) then
      let board := swapCells current.board row.toNat col.toNat newRow.toNat newCol.toNat
      neighbors ++ [PuzzleState.mk board size (newRow, newCol) (current.g + 1)
        (heuristic heuristicChoice board goalPos goal) (current.moves ++ [d.2]) current]
    else neighbors) []

/-! ## A* search -/

/-- The local variables of the search loop of `aStarSearch`. -/
structure SearchState where
  openSet : List PuzzleState
  closedSet : List (List Char)
  inOpenSet : List (List Char)
  totalOpened : Int
  maxInMemory : Int

/-- The operation `unordered_set::insert`. -/
def setInsert (s : List (List Char)) (k : List Char) : List (List Char) :=
  if k ∈ s then s else k :: s

/-- A node of the open queue that no node of the queue beats: the running maximum of
the queue under `CompareState`. -/
def bestOf (openSet : List PuzzleState) : PuzzleState :=
  openSet.foldl (fun best y => if CompareState best y then y else best)
    (openSet.headD PuzzleState.nullptr)

/-- The positions of the open queue that may be its `top()`: those whose node is not
ordered below the best node of the queue by `CompareState`. -/
def topCandidates (openSet : List PuzzleState) : List Nat :=
  let best := bestOf openSet
  (openSet.enum.filter (fun p => !CompareState p.2 best)).map (fun p => p.1)

/-- The position of `top()`, the choice among equally good nodes being `choice`. -/
def topIndex (openSet : List PuzzleState) (choice : Nat) : Nat :=
  let cands := topCandidates openSet
  cands.getD (choice % cands.length) 0

/-- The loop `for (auto& neighbor : neighbors)` of `aStarSearch`. -/
def pushNeighbors (st : SearchState) (neighbors : List PuzzleState) : SearchState :=
  neighbors.foldl (fun st neighbor =>
    let neighborStr := neighbor.toString
    if neighborStr ∈ st.closedSet then st
    else if neighborStr ∈ st.inOpenSet then st
    else { st with openSet := st.openSet ++ [neighbor],
                   inOpenSet := setInsert st.inOpenSet neighborStr }) st

/-- The body of the `while` loop of `aStarSearch`, for the popped node `current`. -/
def expandAt (goalPos : List (Int × (Nat × Nat))) (goal : Board) (heuristicChoice : Int)
    (st : SearchState) (idx : Nat) (current : PuzzleState) :
    (PuzzleState × Int × Int) ⊕ SearchState :=
  let currentMemory : Int := (st.openSet.length : Int) + (st.closedSet.length : Int)
  let maxInMemory := max st.maxInMemory currentMemory
  let openSet := st.openSet.eraseIdx idx
  let currentStr := current.toString
  let inOpenSet := st.inOpenSet.erase currentStr
  let totalOpened := st.totalOpened + 1
  if current.isGoal goal then Sum.inl (current, totalOpened, maxInMemory)
  else
    let closedSet := setInsert st.closedSet currentStr
    let neighbors := generateNeighbors current goalPos goal heuristicChoice
    Sum.inr (pushNeighbors
      { openSet := openSet, closedSet := closedSet, inOpenSet := inOpenSet,
        totalOpened := totalOpened, maxInMemory := maxInMemory } neighbors)

/-- The body of the `while` loop of `aStarSearch` when the node at position `idx` of the
open queue is its top: either the function returns, or the loop goes on. -/
def expand (goalPos : List (Int × (Nat × Nat))) (goal : Board) (heuristicChoice : Int)
    (st : SearchState) (idx : Nat) : (PuzzleState × Int × Int) ⊕ SearchState :=
  expandAt goalPos goal heuristicChoice st idx (st.openSet.getD idx PuzzleState.nullptr)

/-- The loop `while (!openSet.empty())` of `aStarSearch` and the `return` after it. -/
def aStarLoop (goalPos : List (Int × (Nat × Nat))) (goal : Board) (heuristicChoice : Int) :
    Nat → (Nat → Nat) → SearchState → Option (PuzzleState × Int × Int)
  | 0, _, _ => none
  | fuel + 1, tie, st =>
    if st.openSet.isEmpty then some (PuzzleState.nullptr, st.totalOpened, st.maxInMemory)
    else
      match expand goalPos goal heuristicChoice st (topIndex st.openSet (tie 0)) with
      | Sum.inl result => some result
      | Sum.inr st2 => aStarLoop goalPos goal heuristicChoice fuel (fun k => tie (k + 1)) st2

/-- The state of the search when the loop is entered. -/
def initialState (start goal : Board) (heuristicChoice : Int) : SearchState :=
  let size := start.length
  let goalPos := buildGoalPositions goal
  let startState := PuzzleState.mk start size (findEmptyPosition start size) 0
    (heuristic heuristicChoice start goalPos goal) [] PuzzleState.nullptr
  { openSet := [startState], closedSet := [], inOpenSet := setInsert [] startState.toString,
    totalOpened := 0, maxInMemory := 0 }

/-- The function `aStarSearch`: the triple `(node, totalOpened, maxInMemory)`. -/
def aStarSearch (fuel : Nat) (tie : Nat → Nat) (start goal : Board) (heuristicChoice : Int) :
    Option (PuzzleState × Int × Int) :=
  aStarLoop (buildGoalPositions goal) goal heuristicChoice fuel tie
    (initialState start goal heuristicChoice)

/-- The function `printSolutionPath`, first loop: the node, its parent, and so on up to
the root. -/
def ancestors : PuzzleState → List PuzzleState
  | PuzzleState.nullptr => []
  | PuzzleState.mk b s e g h m p => PuzzleState.mk b s e g h m p :: ancestors p

/-- The function `printSolutionPath`: the vector `path` after `reverse`. -/
def solutionPath (goalState : PuzzleState) : List PuzzleState :=
  (ancestors goalState).reverse

/-! ## Notions used to state the properties -/

/-- The board `b` has `n` rows of `n` cells. -/
def IsSquare (n : Nat) (b : Board) : Prop :=
  b.length = n ∧ ∀ row ∈ b, row.length = n

/-- The board `b` is `n × n`, its values are distinct and one of them is 0. -/
def ValidBoard (n : Nat) (b : Board) : Prop :=
  IsSquare n b ∧ b.flatten.Nodup ∧ (0 : Int) ∈ b.flatten

/-- The boards `a` and `b` hold the same values. -/
def SameValues (a b : Board) : Prop :=
  ∀ v : Int, v ∈ a.flatten ↔ v ∈ b.flatten

/-- The displacement of the blank that a move symbol stands for. -/
def moveDelta (m : Char) : Option (Int × Int) :=
  if m = 'U' then some (-1, 0)
  else if m = 'D' then some (1, 0)
  else if m = 'L' then some (0, -1)
  else if m = 'R' then some (0, 1)
  else none

/-- The board `b2` is `b` after the blank moved by `d`: some cell `(r, c)` of `b` holds
0, the cell `(r + d.1, c + d.2)` is on the board, and `b2` is `b` with the contents of the
two cells exchanged. -/
def SlideBy (n : Nat) (d : Int × Int) (b b2 : Board) : Prop :=
  ∃ r c : Nat, r < n ∧ c < n ∧ cell b r c = 0 ∧
    0 ≤ (r : Int) + d.1 ∧ (r : Int) + d.1 < n ∧ 0 ≤ (c : Int) + d.2 ∧ (c : Int) + d.2 < n ∧
    b2 = swapCells b r c ((r : Int) + d.1).toNat ((c : Int) + d.2).toNat

/-- A legal blank slide: the 0 is exchanged with an orthogonally adjacent cell. -/
def Slide (n : Nat) (b b2 : Board) : Prop :=
  ∃ m d, moveDelta m = some d ∧ SlideBy n d b b2

/-- A sequence of `k` legal blank slides turns `a` into `b`. -/
def SlidePath (n : Nat) : Nat → Board → Board → Prop
  | 0, a, b => a = b
  | k + 1, a, b => ∃ mid, Slide n a mid ∧ SlidePath n k mid b

/-- The board `b` is reachable from `a` by legal blank slides. -/
def Reachable (n : Nat) (a b : Board) : Prop :=
  ∃ k, SlidePath n k a b

/-- Replaying the move string `ms` (U, D, L, R: the blank moves to row-1, row+1, col-1,
col+1) from `a` is legal at every symbol and yields `b`. -/
def Replay (n : Nat) : List Char → Board → Board → Prop
  | [], a, b => a = b
  | m :: ms, a, b => ∃ d mid, moveDelta m = some d ∧ SlideBy n d a mid ∧ Replay n ms mid b

/-- Executable form of `SlideBy`: move the blank found by `findEmptyPosition`. -/
def slideBlank (n : Nat) (b : Board) (d : Int × Int) : Option Board :=
  let e := findEmptyPosition b n
  if cell b e.1.toNat e.2.toNat = 0 ∧ 0 ≤ e.1 + d.1 ∧ e.1 + d.1 < (n : Int) ∧
      0 ≤ e.2 + d.2 ∧ e.2 + d.2 < (n : Int) then
    some (swapCells b e.1.toNat e.2.toNat (e.1 + d.1).toNat (e.2 + d.2).toNat)
  else none

/-- Executable form of `Replay`. -/
def replay (n : Nat) : List Char → Board → Option Board
  | [], b => some b
  | m :: ms, b =>
    match moveDelta m with
    | none => none
    | some d =>
      match slideBlank n b d with
      | none => none
      | some b2 => replay n ms b2

/-! ## Invariants used in the proofs -/

/-- A node built by the search from `start`: it is the root, or it was produced by
`generateNeighbors` from a node that was built by the search. -/
def GoodNode (n : Nat) (start : Board) : PuzzleState → Prop
  | PuzzleState.nullptr => False
  | PuzzleState.mk b s e g _ m p =>
    s = n ∧
    (∃ r c : Nat, e = ((r : Int), (c : Int)) ∧ r < n ∧ c < n ∧ cell b r c = 0) ∧
    ((p = PuzzleState.nullptr ∧ b = start ∧ g = 0 ∧ m = []) ∨
     (GoodNode n start p ∧ g = p.g + 1 ∧
      ∃ d, (d ∈ directions) ∧ m = p.moves ++ [d.2] ∧
        e = (p.emptyPos.1 + d.1.1, p.emptyPos.2 + d.1.2) ∧
        b = swapCells p.board p.emptyPos.1.toNat p.emptyPos.2.toNat e.1.toNat e.2.toNat))

/-- The part of the loop invariant of `aStarSearch` that every push preserves. -/
structure OpenInv (n : Nat) (start goal : Board) (st : SearchState) : Prop where
  nodes : ∀ x ∈ st.openSet, GoodNode n start x
  keysOpen : ∀ k, k ∈ st.inOpenSet ↔ ∃ x ∈ st.openSet, x.toString = k
  nodupOpen : (st.openSet.map PuzzleState.toString).Nodup
  nodupIn : st.inOpenSet.Nodup
  nodupClosed : st.closedSet.Nodup
  disjoint : ∀ k, k ∈ st.closedSet → k ∉ st.inOpenSet
  closedReach : ∀ k ∈ st.closedSet, ∃ b, Reachable n start b ∧ boardToString b = k ∧ b ≠ goal
  startSeen : boardToString start ∈ st.closedSet ∨ boardToString start ∈ st.inOpenSet

/-- The loop invariant of `aStarSearch`. -/
structure Inv (n : Nat) (start goal : Board) (st : SearchState) : Prop where
  base : OpenInv n start goal st
  closure : ∀ b, Reachable n start b → boardToString b ∈ st.closedSet →
    ∀ b2, Slide n b b2 → boardToString b2 ∈ st.closedSet ∨ boardToString b2 ∈ st.inOpenSet

/-- The number of pairs `(a, b)`, `a` in the first list and `b` in the second, with
`a > b`. -/
def crossCount (A B : List Int) : Nat :=
  (A.map (fun a => B.countP (fun b => decide (a > b)))).sum

/-- The number of inversions of a list: pairs of positions `i < j` with
`l[i] > l[j]`. -/
def invCount : List Int → Nat
  | [] => 0
  | a :: l => l.countP (fun b => decide (a > b)) + invCount l

/-- The index that `isSolvable` gives a tile: its position among the non-blank cells of
the goal (0 for a value that is not in the goal). -/
def goalRank (goal : Board) (tile : Int) : Int :=
  ((buildGoalIndex (goal.flatten.filter (fun v => decide (v ≠ 0)))).lookup tile).getD 0

/-- The contribution of the tile `tile`, placed at `p`, to `manhattanDistance`. -/
def manhattanTerm (goalPos : List (Int × (Nat × Nat))) (tile : Int) (p : Nat × Nat) : Int :=
  if tile ≠ 0 then
    match goalPos.lookup tile with
    | some (goalRow, goalCol) =>
      ((((p.1 : Int) - goalRow).natAbs : Int) + (((p.2 : Int) - goalCol).natAbs : Int))
    | none => 0
  else 0

/-- The contribution of the tile `tile`, placed at `p`, to `hammingDistance`. -/
def hammingTerm (goal : Board) (tile : Int) (p : Nat × Nat) : Int :=
  if tile ≠ 0 ∧ tile ≠ cell goal p.1 p.2 then 1 else 0

/-- Ring `k` of the clockwise inward spiral walk of an `n × n` board, as the specification
words it: right along the top row of the ring, down its right column, left along its bottom
row and up its left column.  The ring lies between the rows and columns `k` and `n - 1 - k`. -/
def spiralRing (n k : Nat) : List (Nat × Nat) :=
  let m := n - 1 - k
  (List.range' k (m + 1 - k)).map (fun j => (k, j)) ++
  (List.range' (k + 1) (m - k)).map (fun i => (i, m)) ++
  (List.range' k (m - k)).reverse.map (fun j => (m, j)) ++
  (List.range' (k + 1) (m - k - 1)).reverse.map (fun i => (i, k))

/-- The clockwise inward spiral walk of an `n × n` board that starts at the top-left
corner, as the specification words it: the rings, from the outermost to the innermost. -/
def spiralWalk (n : Nat) : List (Nat × Nat) :=
  (List.range ((n + 1) / 2)).flatMap (spiralRing n)

/-- The state of the search when the loop over the neighbours of the popped node
`current` starts: `current` has left the open queue and entered `closedSet`. -/
def afterPop (st : SearchState) (idx : Nat) (current : PuzzleState) : SearchState :=
  { openSet := st.openSet.eraseIdx idx, closedSet := setInsert st.closedSet current.toString,
    inOpenSet := st.inOpenSet.erase current.toString, totalOpened := st.totalOpened + 1,
    maxInMemory := max st.maxInMemory ((st.openSet.length : Int) + (st.closedSet.length : Int)) }

/-- The state of the search at the top of iteration `k` of the loop of `aStarSearch`
(iterations are counted from 0), `none` when the function has returned before. -/
def loopState (goalPos : List (Int × (Nat × Nat))) (goal : Board) (heuristicChoice : Int) :
    Nat → (Nat → Nat) → SearchState → Option SearchState
  | 0, _, st => some st
  | k + 1, tie, st =>
    if st.openSet.isEmpty then none
    else
      match expand goalPos goal heuristicChoice st (topIndex st.openSet (tie 0)) with
      | Sum.inl _ => none
      | Sum.inr st2 => loopState goalPos goal heuristicChoice k (fun i => tie (i + 1)) st2

/-- The nodes that the loop of `aStarSearch` pops from the open queue in its first `k`
iterations, in the order of the pops. -/
def poppedNodes (goalPos : List (Int × (Nat × Nat))) (goal : Board) (heuristicChoice : Int) :
    Nat → (Nat → Nat) → SearchState → List PuzzleState
  | 0, _, _ => []
  | k + 1, tie, st =>
    if st.openSet.isEmpty then []
    else
      st.openSet.getD (topIndex st.openSet (tie 0)) PuzzleState.nullptr ::
        match expand goalPos goal heuristicChoice st (topIndex st.openSet (tie 0)) with
        | Sum.inl _ => []
        | Sum.inr st2 => poppedNodes goalPos goal heuristicChoice k (fun i => tie (i + 1)) st2

/-- The passes of the loop `for (auto& neighbor : neighbors)` in which the neighbour is
discarded because its key is in `inOpenSet`: each as the state of the search at that moment
and the neighbour. -/
def openDiscards (st : SearchState) : List PuzzleState → List (SearchState × PuzzleState)
  | [] => []
  | neighbor :: rest =>
    (if neighbor.toString ∉ st.closedSet ∧ neighbor.toString ∈ st.inOpenSet then [(st, neighbor)]
     else []) ++ openDiscards (pushNeighbors st [neighbor]) rest

/-- The discards because of `inOpenSet` in the first `k` iterations of the loop of
`aStarSearch`. -/
def runDiscards (goalPos : List (Int × (Nat × Nat))) (goal : Board) (heuristicChoice : Int) :
    Nat → (Nat → Nat) → SearchState → List (SearchState × PuzzleState)
  | 0, _, _ => []
  | k + 1, tie, st =>
    if st.openSet.isEmpty then []
    else
      match expand goalPos goal heuristicChoice st (topIndex st.openSet (tie 0)) with
      | Sum.inl _ => []
      | Sum.inr st2 =>
        openDiscards
            (afterPop st (topIndex st.openSet (tie 0))
              (st.openSet.getD (topIndex st.openSet (tie 0)) PuzzleState.nullptr))
            (generateNeighbors (st.openSet.getD (topIndex st.openSet (tie 0)) PuzzleState.nullptr)
              goalPos goal heuristicChoice) ++
          runDiscards goalPos goal heuristicChoice k (fun i => tie (i + 1)) st2

/-- A discard because of `inOpenSet` in which the discarded neighbour has a smaller `g`
than the node of the open queue that has its key. -/
def cheaperDiscard (e : SearchState × PuzzleState) : Bool :=
  e.1.openSet.any (fun x => decide (x.toString = e.2.toString ∧ e.2.g < x.g))

/-- Whether every run from the state `st`, however ties in the open queue are resolved,
meets within `fuel` iterations a discard because of `inOpenSet` in which the discarded
neighbour has the smaller `g`. -/
def allRunsCheaper (goalPos : List (Int × (Nat × Nat))) (goal : Board) (heuristicChoice : Int) :
    Nat → SearchState → Bool
  | 0, _ => false
  | fuel + 1, st =>
    if st.openSet.isEmpty then false
    else
      (topCandidates st.openSet).all (fun idx =>
        match st.openSet.getD idx PuzzleState.nullptr with
        | PuzzleState.nullptr => false
        | PuzzleState.mk b s e g h m p =>
          match expandAt goalPos goal heuristicChoice st idx (PuzzleState.mk b s e g h m p) with
          | Sum.inl _ => false
          | Sum.inr st2 =>
            (openDiscards (afterPop st idx (PuzzleState.mk b s e g h m p))
              (generateNeighbors (PuzzleState.mk b s e g h m p) goalPos goal
                heuristicChoice)).any cheaperDiscard ||
            allRunsCheaper goalPos goal heuristicChoice fuel st2)

/-- The value of `openSet.size() + closedSet.size()` in the state `st`. -/
def memorySize (st : SearchState) : Int :=
  (st.openSet.length : Int) + (st.closedSet.length : Int)

/-- The values of `openSet.size() + closedSet.size()` after each pass of the loop
`for (auto& neighbor : neighbors)`. -/
def pushSizes (st : SearchState) : List PuzzleState → List Int
  | [] => []
  | neighbor :: rest =>
    memorySize (pushNeighbors st [neighbor]) :: pushSizes (pushNeighbors st [neighbor]) rest

/-- The values that `openSet.size() + closedSet.size()` takes, in order, in the first `k`
iterations of the loop of `aStarSearch`: at the top of an iteration, after the pop, after the
insertion into `closedSet` and after each pass of the loop over the neighbours; then at the
top of the next iteration. -/
def loopSizes (goalPos : List (Int × (Nat × Nat))) (goal : Board) (heuristicChoice : Int) :
    Nat → (Nat → Nat) → SearchState → List Int
  | 0, _, st => [memorySize st]
  | k + 1, tie, st =>
    memorySize st ::
      (if st.openSet.isEmpty then []
       else
        (((st.openSet.eraseIdx (topIndex st.openSet (tie 0))).length : Int) +
            (st.closedSet.length : Int)) ::
          match expand goalPos goal heuristicChoice st (topIndex st.openSet (tie 0)) with
          | Sum.inl _ => []
          | Sum.inr st2 =>
            memorySize (afterPop st (topIndex st.openSet (tie 0))
                (st.openSet.getD (topIndex st.openSet (tie 0)) PuzzleState.nullptr)) ::
              (pushSizes
                (afterPop st (topIndex st.openSet (tie 0))
                  (st.openSet.getD (topIndex st.openSet (tie 0)) PuzzleState.nullptr))
                (generateNeighbors
                  (st.openSet.getD (topIndex st.openSet (tie 0)) PuzzleState.nullptr)
                  goalPos goal heuristicChoice) ++
               loopSizes goalPos goal heuristicChoice k (fun i => tie (i + 1)) st2))

/-- The number a string of decimal digits stands for. -/
def digitsValue (l : List Char) : Nat :=
  l.foldl (fun acc c => 10 * acc + (c.toNat - 48)) 0

/-- The `g` of a returned node, `none` for the null node. -/
def resultG (result : PuzzleState × Int × Int) : Option Int :=
  if result.1.isNull then none else some result.1.g

/-- The values of `g` that the search can return, over all ways of resolving ties in the
open queue (`none` stands for a run that is out of fuel, `some none` for the null
node). -/
def aStarRuns (goalPos : List (Int × (Nat × Nat))) (goal : Board) (heuristicChoice : Int) :
    Nat → SearchState → List (Option (Option Int))
  | 0, _ => [none]
  | fuel + 1, st =>
    if st.openSet.isEmpty then [some none]
    else
      (topCandidates st.openSet).flatMap (fun idx =>
        match st.openSet.getD idx PuzzleState.nullptr with
        | PuzzleState.nullptr =>
          match expandAt goalPos goal heuristicChoice st idx PuzzleState.nullptr with
          | Sum.inl result => [some (resultG result)]
          | Sum.inr st2 => aStarRuns goalPos goal heuristicChoice fuel st2
        | PuzzleState.mk b s e g h m p =>
          match expandAt goalPos goal heuristicChoice st idx (PuzzleState.mk b s e g h m p) with
          | Sum.inl result => [some (resultG result)]
          | Sum.inr st2 => aStarRuns goalPos goal heuristicChoice fuel st2)

/-! ## All runs of the search, states merged -/

/-- What the rest of a run reads of a node of the open queue: all its fields but `moves`
and `parent`. -/
def nodeKey (x : PuzzleState) : Bool × Board × Nat × (Int × Int) × Int × Int :=
  (x.isNull, x.board, x.size, x.emptyPos, x.g, x.h)

/-- Two states of the search that hold, in any order, the same nodes up to `moves` and
`parent`, the same keys in `closedSet` and the same keys in `inOpenSet`. -/
def StateEquiv (a b : SearchState) : Prop :=
  (a.openSet.map nodeKey).Perm (b.openSet.map nodeKey) ∧ a.closedSet.Perm b.closedSet ∧
    a.inOpenSet.Perm b.inOpenSet

/-- The list without the first occurrence of `k`, `none` when `k` does not occur. -/
def removeFirst {α : Type} [BEq α] (k : α) : List α → Option (List α)
  | [] => none
  | a :: l => if a == k then some l else (removeFirst k l).map (fun r => a :: r)

/-- Whether two lists hold the same elements with the same multiplicities. -/
def samePerm {α : Type} [BEq α] : List α → List α → Bool
  | [], l2 => l2.isEmpty
  | a :: l1, l2 =>
    match removeFirst a l2 with
    | none => false
    | some r => samePerm l1 r

/-- An executable check of `StateEquiv`. -/
def sameSearch (a b : SearchState) : Bool :=
  samePerm (a.openSet.map nodeKey) (b.openSet.map nodeKey) &&
    samePerm a.closedSet b.closedSet && samePerm a.inOpenSet b.inOpenSet

/-- The list of states `acc`, with `st` added unless a state of the list is equivalent to
it. -/
def addState (st : SearchState) : List SearchState → List SearchState
  | [] => [st]
  | r :: rest => if sameSearch st r then r :: rest else r :: addState st rest

/-- One iteration of the loop of `aStarSearch` from the state `st` when the node at position
`idx` of the open queue is its top: the `g` of the returned node (`none` for the null node),
or the next state. -/
def stepAt (goalPos : List (Int × (Nat × Nat))) (goal : Board) (heuristicChoice : Int)
    (st : SearchState) (idx : Nat) : Option Int ⊕ SearchState :=
  match st.openSet.getD idx PuzzleState.nullptr with
  | PuzzleState.nullptr =>
    match expandAt goalPos goal heuristicChoice st idx PuzzleState.nullptr with
    | Sum.inl result => Sum.inl (resultG result)
    | Sum.inr st2 => Sum.inr st2
  | PuzzleState.mk b s e g h m p =>
    match expandAt goalPos goal heuristicChoice st idx (PuzzleState.mk b s e g h m p) with
    | Sum.inl result => Sum.inl (resultG result)
    | Sum.inr st2 => Sum.inr st2

/-- One iteration of the loop of `aStarSearch` from each state of the list, over all nodes
that may be the top of the open queue. -/
def stepAll (goalPos : List (Int × (Nat × Nat))) (goal : Board) (heuristicChoice : Int)
    (sts : List SearchState) : List (Option Int ⊕ SearchState) :=
  sts.flatMap (fun st =>
    if st.openSet.isEmpty then [Sum.inl none]
    else (topCandidates st.openSet).map (stepAt goalPos goal heuristicChoice st))

/-- The values of `g` that the search can return from one of the states of the list, over
all ways of resolving ties in the open queue (`none` stands for a run that is out of fuel,
`some none` for the null node); equivalent states are followed once. -/
def levelRuns (goalPos : List (Int × (Nat × Nat))) (goal : Board) (heuristicChoice : Int) :
    Nat → List SearchState → List (Option (Option Int))
  | 0, sts => if sts.isEmpty then [] else [none]
  | fuel + 1, sts =>
    ((stepAll goalPos goal heuristicChoice sts).filterMap
        (fun o => match o with
          | Sum.inl r => some (some r)
          | Sum.inr _ => none)) ++
      levelRuns goalPos goal heuristicChoice fuel
        (((stepAll goalPos goal heuristicChoice sts).filterMap
          (fun o => match o with
            | Sum.inl _ => none
            | Sum.inr st2 => some st2)).foldl (fun acc s => addState s acc) [])

end NPuzzle

namespace NPuzzle

/-! ## Cells of square boards -/

theorem getD_row_length {n : Nat} {b : Board} (h : IsSquare n b) {i : Nat} (hi : i < n) :
    (b.getD i []).length = n := by
  have hlt : i < b.length := by rw [h.1]; exact hi
  rw [List.getD_eq_getElem _ _ hlt]
  exact h.2 _ (List.getElem_mem _)

theorem isSquare_setCell {n : Nat} {b : Board} (h : IsSquare n b) (i j : Nat) (v : Int) :
    IsSquare n (setCell b i j v) := by
  unfold setCell
  by_cases hi : i < b.length
  · refine ⟨by simp [h.1], ?_⟩
    intro row hrow
    rcases List.mem_or_eq_of_mem_set hrow with hmem | heq
    · exact h.2 row hmem
    · subst heq
      rw [List.length_set, List.getD_eq_getElem _ _ hi]
      exact h.2 _ (List.getElem_mem _)
  · rw [List.set_eq_of_length_le (Nat.le_of_not_lt hi)]
    exact h

theorem isSquare_swapCells {n : Nat} {b : Board} (h : IsSquare n b) (r c r2 c2 : Nat) :
    IsSquare n (swapCells b r c r2 c2) :=
  isSquare_setCell (isSquare_setCell h _ _ _) _ _ _

theorem cell_setCell {n : Nat} {b : Board} (h : IsSquare n b) {i j : Nat} (hi : i < n)
    (hj : j < n) (v : Int) (i2 j2 : Nat) :
    cell (setCell b i j v) i2 j2 = if i2 = i ∧ j2 = j then v else cell b i2 j2 := by
  have hlen : i < b.length := by rw [h.1]; exact hi
  have hrow : j < (b[i]).length := by rw [h.2 _ (List.getElem_mem _)]; exact hj
  unfold cell setCell
  simp only [List.getD_eq_getElem?_getD, List.getElem?_set]
  by_cases h1 : i = i2
  · subst h1
    simp only [hlen, if_true, true_and, List.getElem?_eq_getElem, Option.getD_some,
      List.getElem?_set]
    by_cases h2 : j = j2
    · subst h2
      simp [hrow]
    · have h2b : ¬ j2 = j := fun e => h2 e.symm
      simp [h2, h2b]
  · have h1b : ¬ i2 = i := fun e => h1 e.symm
    simp [h1, h1b]

theorem cell_swapCells {n : Nat} {b : Board} (h : IsSquare n b) {r c r2 c2 : Nat}
    (hr : r < n) (hc : c < n) (hr2 : r2 < n) (hc2 : c2 < n) (i j : Nat) :
    cell (swapCells b r c r2 c2) i j =
      if i = r2 ∧ j = c2 then cell b r c
      else if i = r ∧ j = c then cell b r2 c2 else cell b i j := by
  unfold swapCells
  rw [cell_setCell (isSquare_setCell h _ _ _) hr2 hc2, cell_setCell h hr hc]

/-- Two square boards with the same cells are equal. -/
theorem board_ext {n : Nat} {a b : Board} (ha : IsSquare n a) (hb : IsSquare n b)
    (h : ∀ i j, i < n → j < n → cell a i j = cell b i j) : a = b := by
  apply List.ext_getElem (by rw [ha.1, hb.1])
  intro i h1 h2
  have hi : i < n := by rw [← ha.1]; exact h1
  have hla : (a[i]).length = n := ha.2 _ (List.getElem_mem _)
  have hlb : (b[i]).length = n := hb.2 _ (List.getElem_mem _)
  apply List.ext_getElem (by rw [hla, hlb])
  intro j h3 h4
  have hj : j < n := by rw [← hla]; exact h3
  have := h i j hi hj
  unfold cell at this
  rw [List.getD_eq_getElem _ _ h1, List.getD_eq_getElem _ _ h2,
    List.getD_eq_getElem _ _ h3, List.getD_eq_getElem _ _ h4] at this
  exact this

/-- The positions of an `n × n` board in row-major order. -/
theorem mem_positions {n : Nat} {p : Nat × Nat} :
    p ∈ (List.range n).flatMap (fun i => (List.range n).map (fun j => (i, j))) ↔
      p.1 < n ∧ p.2 < n := by
  obtain ⟨i, j⟩ := p
  simp only [List.mem_flatMap, List.mem_map, List.mem_range, Prod.mk.injEq]
  constructor
  · rintro ⟨a, ha, c, hc, rfl, rfl⟩
    exact ⟨ha, hc⟩
  · rintro ⟨hi, hj⟩
    exact ⟨i, hi, j, hj, rfl, rfl⟩

theorem nodup_positions (n : Nat) :
    ((List.range n).flatMap (fun i => (List.range n).map (fun j => (i, j)))).Nodup :=
  (List.nodup_range n).product (List.nodup_range n)

/-- The cells of a square board, read row by row. -/
theorem flatten_eq_cells {n : Nat} {b : Board} (h : IsSquare n b) :
    b.flatten = ((List.range n).flatMap (fun i => (List.range n).map (fun j => (i, j)))).map
      (fun p => cell b p.1 p.2) := by
  have hb : b = (List.range n).map (fun i => (List.range n).map (fun j => cell b i j)) := by
    apply List.ext_getElem (by simp [h.1])
    intro i h1 h2
    have hi : i < n := by rw [← h.1]; exact h1
    have hl : (b[i]).length = n := h.2 _ (List.getElem_mem _)
    apply List.ext_getElem (by simp [hl])
    intro j h3 h4
    simp [cell, List.getElem?_eq_getElem h1, List.getElem?_eq_getElem h3]
  conv_lhs => rw [hb]
  simp only [List.flatMap, List.map_map, List.map_flatten]
  congr 1
  apply List.map_congr_left
  intro i _
  simp [Function.comp]

theorem mem_flatten_iff {n : Nat} {b : Board} (h : IsSquare n b) (v : Int) :
    v ∈ b.flatten ↔ ∃ i j, i < n ∧ j < n ∧ cell b i j = v := by
  rw [flatten_eq_cells h, List.mem_map]
  constructor
  · rintro ⟨⟨i, j⟩, hp, rfl⟩
    rw [mem_positions] at hp
    exact ⟨i, j, hp.1, hp.2, rfl⟩
  · rintro ⟨i, j, hi, hj, rfl⟩
    exact ⟨(i, j), mem_positions.2 ⟨hi, hj⟩, rfl⟩

theorem nodup_flatten_iff {n : Nat} {b : Board} (h : IsSquare n b) :
    b.flatten.Nodup ↔ ∀ i j i2 j2, i < n → j < n → i2 < n → j2 < n →
      cell b i j = cell b i2 j2 → i = i2 ∧ j = j2 := by
  rw [flatten_eq_cells h, List.nodup_map_iff_inj_on (nodup_positions n)]
  constructor
  · intro hinj i j i2 j2 hi hj hi2 hj2 heq
    have := hinj (i, j) (mem_positions.2 ⟨hi, hj⟩) (i2, j2) (mem_positions.2 ⟨hi2, hj2⟩) heq
    exact ⟨congrArg Prod.fst this, congrArg Prod.snd this⟩
  · rintro hinj ⟨i, j⟩ hp ⟨i2, j2⟩ hp2 heq
    rw [mem_positions] at hp hp2
    obtain ⟨h1, h2⟩ := hinj i j i2 j2 hp.1 hp.2 hp2.1 hp2.2 heq
    rw [h1, h2]

end NPuzzle

namespace NPuzzle

/-! ## The membership key `toString` -/

theorem digitChar_ne_sep (d : Nat) : digitChar d ≠ ',' ∧ digitChar d ≠ '-' := by
  unfold digitChar
  split <;> exact ⟨by decide, by decide⟩

theorem digitChar_value {d : Nat} (h : d < 10) : (digitChar d).toNat - 48 = d := by
  interval_cases d <;> rfl

theorem natDigits_ne_sep (fuel n : Nat) : ∀ c ∈ natDigits fuel n, c ≠ ',' ∧ c ≠ '-' := by
  induction fuel generalizing n with
  | zero => intro c hc; simp [natDigits] at hc
  | succ f ih =>
    intro c hc
    unfold natDigits at hc
    split at hc
    · rw [List.mem_singleton] at hc
      subst hc
      exact digitChar_ne_sep n
    · rw [List.mem_append, List.mem_singleton] at hc
      rcases hc with hc | hc
      · exact ih _ c hc
      · subst hc
        exact digitChar_ne_sep _

theorem digitsValue_append (l : List Char) (c : Char) :
    digitsValue (l ++ [c]) = 10 * digitsValue l + (c.toNat - 48) := by
  simp [digitsValue, List.foldl_append]

theorem digitsValue_natDigits (fuel n : Nat) (h : n < fuel) :
    digitsValue (natDigits fuel n) = n := by
  induction fuel generalizing n with
  | zero => omega
  | succ f ih =>
    unfold natDigits
    split
    · rename_i hlt
      simp [digitsValue, digitChar_value hlt]
    · rename_i hge
      rw [digitsValue_append, ih (n / 10) (by omega), digitChar_value (Nat.mod_lt _ (by omega))]
      omega

theorem natDigits_ne_nil (fuel n : Nat) : natDigits (fuel + 1) n ≠ [] := by
  unfold natDigits
  split <;> simp

theorem to_string_ne_sep (v : Int) : ',' ∉ to_string v := by
  intro hmem
  unfold to_string at hmem
  cases v with
  | ofNat n => exact (natDigits_ne_sep _ _ _ hmem).1 rfl
  | negSucc n =>
    simp only [List.mem_cons] at hmem
    rcases hmem with h | h
    · exact absurd h (by decide)
    · exact (natDigits_ne_sep _ _ _ h).1 rfl

theorem to_string_injective {a b : Int} (h : to_string a = to_string b) : a = b := by
  unfold to_string at h
  cases a with
  | ofNat n =>
    cases b with
    | ofNat m =>
      have := congrArg digitsValue h
      simp only [digitsValue_natDigits _ _ (Nat.lt_succ_self _)] at this
      rw [this]
    | negSucc m =>
      exfalso
      have hne := natDigits_ne_nil n n
      simp only at h
      have hmem : '-' ∈ natDigits (n + 1) n := by rw [h]; exact List.mem_cons_self _ _
      exact (natDigits_ne_sep _ _ _ hmem).2 rfl
  | negSucc n =>
    cases b with
    | ofNat m =>
      exfalso
      simp only at h
      have hmem : '-' ∈ natDigits (m + 1) m := by rw [← h]; exact List.mem_cons_self _ _
      exact (natDigits_ne_sep _ _ _ hmem).2 rfl
    | negSucc m =>
      simp only [List.cons.injEq, true_and] at h
      have := congrArg digitsValue h
      rw [digitsValue_natDigits _ _ (by omega), digitsValue_natDigits _ _ (by omega)] at this
      have hnm : n = m := by omega
      rw [hnm]

/-- A separator that occurs in neither prefix splits a string in one way only. -/
theorem split_at_sep {c : Char} : ∀ (x y r r2 : List Char), c ∉ x → c ∉ y →
    x ++ c :: r = y ++ c :: r2 → x = y ∧ r = r2
  | [], [], r, r2, _, _, h => by simpa using h
  | [], b :: y, r, r2, _, hy, h => by
    simp only [List.nil_append, List.cons_append, List.cons.injEq] at h
    exact absurd (h.1 ▸ List.mem_cons_self _ _) hy
  | a :: x, [], r, r2, hx, _, h => by
    simp only [List.nil_append, List.cons_append, List.cons.injEq] at h
    exact absurd (h.1 ▸ List.mem_cons_self _ _) hx
  | a :: x, b :: y, r, r2, hx, hy, h => by
    simp only [List.cons_append, List.cons.injEq] at h
    obtain ⟨h1, h2⟩ := split_at_sep x y r r2 (fun hm => hx (List.mem_cons_of_mem _ hm))
      (fun hm => hy (List.mem_cons_of_mem _ hm)) h.2
    exact ⟨by rw [h.1, h1], h2⟩

theorem encode_injective : ∀ (l l2 : List Int),
    l.flatMap (fun v => to_string v ++ [',']) = l2.flatMap (fun v => to_string v ++ [',']) →
    l = l2
  | [], [], _ => rfl
  | [], b :: l2, h => by simp at h
  | a :: l, [], h => by simp at h
  | a :: l, b :: l2, h => by
    simp only [List.flatMap_cons, List.append_assoc, List.singleton_append] at h
    obtain ⟨h1, h2⟩ := split_at_sep _ _ _ _ (to_string_ne_sep a) (to_string_ne_sep b) h
    rw [to_string_injective h1, encode_injective l l2 h2]

theorem foldl_append_tokens (f : Int → List Char) (row : List Int) (acc : List Char) :
    row.foldl (fun result val => result ++ f val) acc = acc ++ row.flatMap f := by
  induction row generalizing acc with
  | nil => simp
  | cons a row ih => simp [List.foldl_cons, ih, List.flatMap_cons, List.append_assoc]

theorem boardToString_eq (board : Board) :
    boardToString board = board.flatten.flatMap (fun v => to_string v ++ [',']) := by
  unfold boardToString
  have key : ∀ (rows : Board) (acc : List Char),
      rows.foldl (fun result row =>
        row.foldl (fun result val => result ++ (to_string val ++ [','])) result) acc =
      acc ++ rows.flatten.flatMap (fun v => to_string v ++ [',']) := by
    intro rows
    induction rows with
    | nil => intro acc; simp
    | cons row rows ih =>
      intro acc
      rw [List.foldl_cons, ih, foldl_append_tokens]
      simp [List.flatMap_append, List.append_assoc]
  rw [key]
  simp

/-- The key is collision-free on boards of one size. -/
theorem boardToString_injective {n : Nat} {a b : Board} (ha : IsSquare n a)
    (hb : IsSquare n b) (h : boardToString a = boardToString b) : a = b := by
  rw [boardToString_eq, boardToString_eq] at h
  have hflat := encode_injective _ _ h
  rw [flatten_eq_cells ha, flatten_eq_cells hb] at hflat
  apply board_ext ha hb
  intro i j hi hj
  have := (List.map_inj_left.1 hflat) (i, j) (mem_positions.2 ⟨hi, hj⟩)
  exact this

end NPuzzle

namespace NPuzzle

/-! ## Legal slides -/

theorem moveDelta_cases {m : Char} {d : Int × Int} (h : moveDelta m = some d) :
    d = (-1, 0) ∨ d = (1, 0) ∨ d = (0, -1) ∨ d = (0, 1) := by
  unfold moveDelta at h
  split_ifs at h <;> simp at h <;> simp [← h]

theorem moveDelta_of_mem_directions {d : (Int × Int) × Char} (h : d ∈ directions) :
    moveDelta d.2 = some d.1 := by
  simp only [directions, List.mem_cons, List.mem_singleton, List.not_mem_nil, or_false] at h
  rcases h with h | h | h | h <;> subst h <;> rfl

theorem mem_directions_of_moveDelta {m : Char} {d : Int × Int} (h : moveDelta m = some d) :
    (d, m) ∈ directions := by
  unfold moveDelta at h
  split_ifs at h with h1 h2 h3 h4 <;> simp at h <;> subst h
  · subst h1; simp [directions]
  · subst h2; simp [directions]
  · subst h3; simp [directions]
  · subst h4; simp [directions]

/-- The exchange of two cells as a permutation of the positions. -/
theorem swapCells_spec {n : Nat} {b : Board} (h : IsSquare n b) {r c r2 c2 : Nat}
    (hr : r < n) (hc : c < n) (hr2 : r2 < n) (hc2 : c2 < n) :
    ∃ σ : Nat × Nat → Nat × Nat, (∀ p, σ (σ p) = p) ∧
      (∀ p, (p.1 < n ∧ p.2 < n) → ((σ p).1 < n ∧ (σ p).2 < n)) ∧
      (∀ i j, cell (swapCells b r c r2 c2) i j = cell b (σ (i, j)).1 (σ (i, j)).2) := by
  refine ⟨fun p => if p = (r2, c2) then (r, c) else if p = (r, c) then (r2, c2) else p,
    ?_, ?_, ?_⟩
  · intro p
    by_cases h1 : p = (r2, c2)
    · by_cases h2 : (r, c) = (r2, c2)
      · simp [h1, h2]
      · simp [h1, h2]
    · by_cases h2 : p = (r, c)
      · simp [h1, h2]
      · simp [h1, h2]
  · rintro ⟨i, j⟩ ⟨hi, hj⟩
    by_cases h1 : (i, j) = (r2, c2)
    · simp [h1, hr, hc]
    · by_cases h2 : (i, j) = (r, c)
      · rw [h2] at h1
        simp only [h2, h1, if_false, if_true]
        exact ⟨hr2, hc2⟩
      · simp only [h1, h2, if_false]
        exact ⟨hi, hj⟩
  · intro i j
    rw [cell_swapCells h hr hc hr2 hc2]
    by_cases h1 : i = r2 ∧ j = c2
    · have : (i, j) = (r2, c2) := by rw [h1.1, h1.2]
      simp [h1, this]
    · have h1b : ¬ (i, j) = (r2, c2) := fun e => h1 ⟨congrArg Prod.fst e, congrArg Prod.snd e⟩
      by_cases h2 : i = r ∧ j = c
      · have : (i, j) = (r, c) := by rw [h2.1, h2.2]
        rw [this] at h1b
        have h3 : ¬ (r = r2 ∧ c = c2) := fun e => h1b (by rw [e.1, e.2])
        simp only [h1, h2, this, h1b, h3, if_false, if_true, and_self]
      · have h2b : ¬ (i, j) = (r, c) := fun e => h2 ⟨congrArg Prod.fst e, congrArg Prod.snd e⟩
        simp [h1, h2, h1b, h2b]

theorem validBoard_swapCells {n : Nat} {b : Board} (h : ValidBoard n b) {r c r2 c2 : Nat}
    (hr : r < n) (hc : c < n) (hr2 : r2 < n) (hc2 : c2 < n) :
    ValidBoard n (swapCells b r c r2 c2) ∧ SameValues (swapCells b r c r2 c2) b := by
  obtain ⟨hsq, hnd, hz⟩ := h
  have hsq2 : IsSquare n (swapCells b r c r2 c2) := isSquare_swapCells hsq _ _ _ _
  obtain ⟨σ, hinv, hrange, hcell⟩ := swapCells_spec hsq hr hc hr2 hc2
  have hsame : SameValues (swapCells b r c r2 c2) b := by
    intro v
    rw [mem_flatten_iff hsq2, mem_flatten_iff hsq]
    constructor
    · rintro ⟨i, j, hi, hj, rfl⟩
      exact ⟨(σ (i, j)).1, (σ (i, j)).2, (hrange (i, j) ⟨hi, hj⟩).1,
        (hrange (i, j) ⟨hi, hj⟩).2, (hcell i j).symm⟩
    · rintro ⟨i, j, hi, hj, rfl⟩
      refine ⟨(σ (i, j)).1, (σ (i, j)).2, (hrange (i, j) ⟨hi, hj⟩).1,
        (hrange (i, j) ⟨hi, hj⟩).2, ?_⟩
      rw [hcell]
      simp [hinv]
  refine ⟨⟨hsq2, ?_, (hsame 0).2 hz⟩, hsame⟩
  rw [nodup_flatten_iff hsq2]
  intro i j i2 j2 hi hj hi2 hj2 heq
  rw [hcell, hcell] at heq
  have h1 := hrange (i, j) ⟨hi, hj⟩
  have h2 := hrange (i2, j2) ⟨hi2, hj2⟩
  have := (nodup_flatten_iff hsq).1 hnd _ _ _ _ h1.1 h1.2 h2.1 h2.2 heq
  have hσ : σ (i, j) = σ (i2, j2) := Prod.ext this.1 this.2
  have := congrArg σ hσ
  rw [hinv, hinv] at this
  exact ⟨congrArg Prod.fst this, congrArg Prod.snd this⟩

theorem slideBy_valid {n : Nat} {d : Int × Int} {b b2 : Board} (h : ValidBoard n b)
    (hs : SlideBy n d b b2) : ValidBoard n b2 ∧ SameValues b2 b := by
  obtain ⟨r, c, hr, hc, _, h1, h2, h3, h4, rfl⟩ := hs
  exact validBoard_swapCells h hr hc (by omega) (by omega)

theorem slide_valid {n : Nat} {b b2 : Board} (h : ValidBoard n b) (hs : Slide n b b2) :
    ValidBoard n b2 ∧ SameValues b2 b := by
  obtain ⟨m, d, _, hs⟩ := hs
  exact slideBy_valid h hs

theorem slidePath_valid {n : Nat} : ∀ (k : Nat) {a b : Board}, ValidBoard n a →
    SlidePath n k a b → ValidBoard n b ∧ SameValues b a
  | 0, a, b, h, hp => by
    have : a = b := hp
    subst this
    exact ⟨h, fun _ => Iff.rfl⟩
  | k + 1, a, b, h, hp => by
    obtain ⟨mid, hs, hp⟩ := hp
    obtain ⟨hv, hsame⟩ := slide_valid h hs
    obtain ⟨hv2, hsame2⟩ := slidePath_valid k hv hp
    exact ⟨hv2, fun v => (hsame2 v).trans (hsame v)⟩

theorem reachable_valid {n : Nat} {a b : Board} (h : ValidBoard n a) (hr : Reachable n a b) :
    ValidBoard n b ∧ SameValues b a := by
  obtain ⟨k, hp⟩ := hr
  exact slidePath_valid k h hp

theorem slidePath_snoc {n : Nat} : ∀ (k : Nat) {a b c : Board}, SlidePath n k a b →
    Slide n b c → SlidePath n (k + 1) a c
  | 0, a, b, c, hp, hs => by
    have : a = b := hp
    subst this
    exact ⟨c, hs, rfl⟩
  | k + 1, a, b, c, hp, hs => by
    obtain ⟨mid, hs1, hp1⟩ := hp
    exact ⟨mid, hs1, slidePath_snoc k hp1 hs⟩

theorem slidePath_trans {n : Nat} : ∀ (k l : Nat) {a b c : Board}, SlidePath n k a b →
    SlidePath n l b c → SlidePath n (k + l) a c
  | 0, l, a, b, c, hp, hq => by
    have : a = b := hp
    subst this
    simpa using hq
  | k + 1, l, a, b, c, hp, hq => by
    obtain ⟨mid, hs1, hp1⟩ := hp
    have := slidePath_trans k l hp1 hq
    rw [show k + 1 + l = (k + l) + 1 by omega]
    exact ⟨mid, hs1, this⟩

theorem replay_snoc {n : Nat} : ∀ (ms : List Char) {a b c : Board} {m : Char} {d : Int × Int},
    Replay n ms a b → moveDelta m = some d → SlideBy n d b c → Replay n (ms ++ [m]) a c
  | [], a, b, c, m, d, hp, hm, hs => by
    have : a = b := hp
    subst this
    exact ⟨d, c, hm, hs, rfl⟩
  | m0 :: ms, a, b, c, m, d, hp, hm, hs => by
    obtain ⟨d0, mid, hm0, hs0, hp0⟩ := hp
    exact ⟨d0, mid, hm0, hs0, replay_snoc ms hp0 hm hs⟩

theorem replay_slidePath {n : Nat} : ∀ (ms : List Char) {a b : Board},
    Replay n ms a b → SlidePath n ms.length a b
  | [], a, b, hp => hp
  | m :: ms, a, b, hp => by
    obtain ⟨d, mid, hm, hs, hp⟩ := hp
    exact ⟨mid, ⟨m, d, hm, hs⟩, replay_slidePath ms hp⟩

/-- On a board with distinct values the blank is in one place only. -/
theorem blank_unique {n : Nat} {b : Board} (h : ValidBoard n b) {r c r2 c2 : Nat}
    (hr : r < n) (hc : c < n) (hr2 : r2 < n) (hc2 : c2 < n) (h1 : cell b r c = 0)
    (h2 : cell b r2 c2 = 0) : r = r2 ∧ c = c2 :=
  (nodup_flatten_iff h.1).1 h.2.1 _ _ _ _ hr hc hr2 hc2 (h1.trans h2.symm)

end NPuzzle

namespace NPuzzle

/-! ## Neighbour generation -/

theorem foldl_push {α β : Type} (P : α → Prop) [DecidablePred P] (f : α → β) (l : List α)
    (init : List β) :
    l.foldl (fun acc d => if P d then acc ++ [f d] else acc) init =
      init ++ (l.filter (fun d => decide (P d))).map f := by
  induction l generalizing init with
  | nil => simp
  | cons a l ih =>
    rw [List.foldl_cons, ih]
    by_cases h : P a
    · simp [h, List.filter_cons]
    · simp [h, List.filter_cons]

/-- The node that `generateNeighbors` builds for the direction `d`. -/
theorem mem_generateNeighbors (current : PuzzleState) (goalPos : List (Int × (Nat × Nat)))
    (goal : Board) (ch : Int) (x : PuzzleState) :
    x ∈ generateNeighbors current goalPos goal ch ↔
      ∃ d, d ∈ directions ∧
        (0 ≤ current.emptyPos.1 + d.1.1 ∧ current.emptyPos.1 + d.1.1 < (current.size : Int) ∧
         0 ≤ current.emptyPos.2 + d.1.2 ∧ current.emptyPos.2 + d.1.2 < (current.size : Int)) ∧
        x = PuzzleState.mk
          (swapCells current.board current.emptyPos.1.toNat current.emptyPos.2.toNat
            (current.emptyPos.1 + d.1.1).toNat (current.emptyPos.2 + d.1.2).toNat)
          current.size (current.emptyPos.1 + d.1.1, current.emptyPos.2 + d.1.2) (current.g + 1)
          (heuristic ch
            (swapCells current.board current.emptyPos.1.toNat current.emptyPos.2.toNat
              (current.emptyPos.1 + d.1.1).toNat (current.emptyPos.2 + d.1.2).toNat)
            goalPos goal)
          (current.moves ++ [d.2]) current := by
  unfold generateNeighbors
  simp only []
  rw [foldl_push (fun d : (Int × Int) × Char =>
    0 ≤ current.emptyPos.1 + d.1.1 ∧ current.emptyPos.1 + d.1.1 < (current.size : Int) ∧
    0 ≤ current.emptyPos.2 + d.1.2 ∧ current.emptyPos.2 + d.1.2 < (current.size : Int))]
  simp only [List.nil_append, List.mem_map, List.mem_filter, decide_eq_true_eq]
  constructor
  · rintro ⟨d, ⟨hd, hb⟩, rfl⟩
    exact ⟨d, hd, hb, rfl⟩
  · rintro ⟨d, hd, hb, rfl⟩
    exact ⟨d, ⟨hd, hb⟩, rfl⟩

theorem goodNode_ne_null {n : Nat} {start : Board} {x : PuzzleState} (h : GoodNode n start x) :
    x ≠ PuzzleState.nullptr := by
  intro e
  subst e
  exact h

theorem goodNode_size {n : Nat} {start : Board} {x : PuzzleState} (h : GoodNode n start x) :
    x.size = n := by
  cases x with
  | nullptr => exact absurd h (by simp [GoodNode])
  | mk b s e g hh m p => exact h.1

theorem goodNode_blank {n : Nat} {start : Board} {x : PuzzleState} (h : GoodNode n start x) :
    ∃ r c : Nat, x.emptyPos = ((r : Int), (c : Int)) ∧ r < n ∧ c < n ∧ cell x.board r c = 0 := by
  cases x with
  | nullptr => exact absurd h (by simp [GoodNode])
  | mk b s e g hh m p => exact h.2.1

/-- What the parent chain of a node says about it: `g` slides lead from `start` to its
board, and its move string replays them. -/
theorem goodNode_path {n : Nat} {start : Board} : ∀ (x : PuzzleState), GoodNode n start x →
    ∃ k : Nat, x.g = (k : Int) ∧ x.moves.length = k ∧ Replay n x.moves start x.board
  | PuzzleState.nullptr, h => absurd h (by simp [GoodNode])
  | PuzzleState.mk b s e g hh m p, h => by
    obtain ⟨_, ⟨r, c, he, hr, hc, hz⟩, hroot | ⟨hp, hg, d, hd, hm, he2, hb⟩⟩ := h
    · obtain ⟨_, rfl, rfl, rfl⟩ := hroot
      exact ⟨0, rfl, rfl, rfl⟩
    · obtain ⟨k, hk, hlen, hrep⟩ := goodNode_path p hp
      obtain ⟨r0, c0, he0, hr0, hc0, hz0⟩ := goodNode_blank hp
      refine ⟨k + 1, ?_, ?_, ?_⟩
      · show g = _
        rw [hg, hk]; push_cast; rfl
      · show m.length = _
        rw [hm, List.length_append, hlen]; rfl
      · show Replay n m start b
        rw [hm]
        refine replay_snoc _ hrep (moveDelta_of_mem_directions hd) ?_
        rw [he0] at he2 hb
        rw [he] at he2
        have h1 : (r : Int) = (r0 : Int) + d.1.1 := congrArg Prod.fst he2
        have h2 : (c : Int) = (c0 : Int) + d.1.2 := congrArg Prod.snd he2
        refine ⟨r0, c0, hr0, hc0, hz0, by omega, by omega, by omega, by omega, ?_⟩
        rw [hb, he]
        simp only [Int.toNat_ofNat]
        rw [← h1, ← h2]
        simp

theorem goodNode_reachable {n : Nat} {start : Board} {x : PuzzleState}
    (h : GoodNode n start x) : Reachable n start x.board := by
  obtain ⟨k, _, hlen, hrep⟩ := goodNode_path x h
  exact ⟨_, replay_slidePath _ hrep⟩

theorem goodNode_valid {n : Nat} {start : Board} {x : PuzzleState}
    (hstart : ValidBoard n start) (h : GoodNode n start x) : ValidBoard n x.board :=
  (reachable_valid hstart (goodNode_reachable h)).1

theorem goodNode_neighbor {n : Nat} {start : Board} {current x : PuzzleState}
    {goalPos : List (Int × (Nat × Nat))} {goal : Board} {ch : Int}
    (hstart : ValidBoard n start) (h : GoodNode n start current)
    (hx : x ∈ generateNeighbors current goalPos goal ch) :
    GoodNode n start x := by
  rw [mem_generateNeighbors] at hx
  obtain ⟨d, hd, ⟨h1, h2, h3, h4⟩, rfl⟩ := hx
  obtain ⟨r, c, he, hr, hc, hz⟩ := goodNode_blank h
  have hs := goodNode_size h
  have hsq : IsSquare n current.board := (goodNode_valid hstart h).1
  rw [hs] at h2 h4
  rw [he] at h1 h2 h3 h4
  simp only at h1 h2 h3 h4
  refine ⟨hs, ⟨((r : Int) + d.1.1).toNat, ((c : Int) + d.1.2).toNat, ?_, by omega, by omega, ?_⟩,
    Or.inr ⟨h, rfl, d, hd, rfl, rfl, rfl⟩⟩
  · rw [he]
    simp only [Prod.mk.injEq]
    exact ⟨(Int.toNat_of_nonneg h1).symm, (Int.toNat_of_nonneg h3).symm⟩
  · rw [he]
    simp only [Int.toNat_ofNat]
    rw [cell_swapCells hsq hr hc (by omega) (by omega)]
    simp [hz]

theorem neighbors_cover {n : Nat} {start : Board} {current : PuzzleState}
    (goalPos : List (Int × (Nat × Nat))) (goal : Board) (ch : Int)
    (hstart : ValidBoard n start) (h : GoodNode n start current) {b2 : Board}
    (hs : Slide n current.board b2) :
    ∃ x, x ∈ generateNeighbors current goalPos goal ch ∧ x.board = b2 := by
  obtain ⟨m, d, hm, r1, c1, hr1, hc1, hz1, h1, h2, h3, h4, rfl⟩ := hs
  obtain ⟨r, c, he, hr, hc, hz⟩ := goodNode_blank h
  have hsz := goodNode_size h
  obtain ⟨e1, e2⟩ := blank_unique (goodNode_valid hstart h) hr1 hc1 hr hc hz1 hz
  subst e1 e2
  refine ⟨_, (mem_generateNeighbors _ _ _ _ _).2 ⟨(d, m), mem_directions_of_moveDelta hm, ?_, rfl⟩, ?_⟩
  · rw [hsz, he]
    exact ⟨h1, h2, h3, h4⟩
  · rw [he]
    simp [PuzzleState.board]

end NPuzzle

namespace NPuzzle

/-! ## The search loop: auxiliary facts -/

/-- Every key the search can meet belongs to a fixed finite list. -/
theorem key_mem_bound {n : Nat} {start b : Board} (hstart : ValidBoard n start)
    (hr : Reachable n start b) :
    boardToString b ∈ (start.flatten.permutations).map
      (fun l => l.flatMap (fun v => to_string v ++ [','])) := by
  rw [boardToString_eq]
  apply List.mem_map_of_mem
  rw [List.mem_permutations]
  obtain ⟨hv, hsame⟩ := reachable_valid hstart hr
  exact (List.perm_ext_iff_of_nodup hv.2.1 hstart.2.1).2 hsame

theorem findEmptyPosition_spec {n : Nat} {start : Board} (hstart : ValidBoard n start) :
    ∃ r c : Nat, findEmptyPosition start n = ((r : Int), (c : Int)) ∧ r < n ∧ c < n ∧
      cell start r c = 0 := by
  obtain ⟨i, j, hi, hj, hz⟩ := (mem_flatten_iff hstart.1 0).1 hstart.2.2
  unfold findEmptyPosition
  simp only []
  set hits := (List.range n).flatMap (fun i =>
    (List.range n).filterMap (fun j =>
      if cell start i j = 0 then some ((i : Int), (j : Int)) else none)) with hhits
  have hall : ∀ p ∈ hits, ∃ r c : Nat, p = ((r : Int), (c : Int)) ∧ r < n ∧ c < n ∧
      cell start r c = 0 := by
    intro p hp
    rw [hhits, List.mem_flatMap] at hp
    obtain ⟨r, hr, hp⟩ := hp
    rw [List.mem_filterMap] at hp
    obtain ⟨c, hc, hp⟩ := hp
    split_ifs at hp with hcell
    · simp only [Option.some.injEq] at hp
      exact ⟨r, c, hp.symm, List.mem_range.1 hr, List.mem_range.1 hc, hcell⟩
  have hne : hits ≠ [] := by
    intro he
    have : (((i : Int), (j : Int)) : Int × Int) ∈ hits := by
      rw [hhits, List.mem_flatMap]
      refine ⟨i, List.mem_range.2 hi, ?_⟩
      rw [List.mem_filterMap]
      exact ⟨j, List.mem_range.2 hj, by simp [hz]⟩
    rw [he] at this
    simp at this
  rw [List.headD_eq_head?_getD, List.head?_eq_head hne]
  exact hall _ (List.head_mem hne)

theorem mem_eraseIdx_of_nodup_map {α β : Type} (f : α → β) :
    ∀ (l : List α) (idx : Nat) (h : idx < l.length), (l.map f).Nodup →
      ∀ y, y ∈ l.eraseIdx idx ↔ (y ∈ l ∧ f y ≠ f (l[idx]))
  | [], idx, h, _, y => by simp at h
  | a :: l, 0, _, hnd, y => by
    simp only [List.eraseIdx_cons_zero, List.getElem_cons_zero, List.mem_cons]
    rw [List.map_cons, List.nodup_cons] at hnd
    constructor
    · intro hy
      refine ⟨Or.inr hy, fun e => hnd.1 ?_⟩
      rw [← e]
      exact List.mem_map_of_mem f hy
    · rintro ⟨hy | hy, hne⟩
      · subst hy; exact absurd rfl hne
      · exact hy
  | a :: l, idx + 1, h, hnd, y => by
    simp only [List.eraseIdx_cons_succ, List.getElem_cons_succ, List.mem_cons]
    rw [List.map_cons, List.nodup_cons] at hnd
    have hlt : idx < l.length := by simpa using h
    rw [mem_eraseIdx_of_nodup_map f l idx hlt hnd.2]
    constructor
    · rintro (hy | ⟨hy, hne⟩)
      · subst hy
        refine ⟨Or.inl rfl, fun e => hnd.1 ?_⟩
        rw [e]
        exact List.mem_map_of_mem f (List.getElem_mem _)
      · exact ⟨Or.inr hy, hne⟩
    · rintro ⟨hy | hy, hne⟩
      · exact Or.inl hy
      · exact Or.inr ⟨hy, hne⟩

theorem setInsert_of_not_mem {s : List (List Char)} {k : List Char} (h : k ∉ s) :
    setInsert s k = k :: s := by
  simp [setInsert, h]

theorem topCandidates_lt {openSet : List PuzzleState} {i : Nat}
    (h : i ∈ topCandidates openSet) : i < openSet.length := by
  unfold topCandidates at h
  simp only [List.mem_map, List.mem_filter] at h
  obtain ⟨p, ⟨hp, _⟩, hp2⟩ := h
  rw [← hp2]
  obtain ⟨i, x⟩ := p
  exact (List.mem_enum hp).1

theorem topIndex_lt {openSet : List PuzzleState} (h : openSet ≠ []) (choice : Nat) :
    topIndex openSet choice < openSet.length := by
  unfold topIndex
  simp only []
  by_cases hlen : choice % (topCandidates openSet).length < (topCandidates openSet).length
  · rw [List.getD_eq_getElem _ _ hlen]
    exact topCandidates_lt (List.getElem_mem _)
  · rw [List.getD_eq_default _ _ (Nat.le_of_not_lt hlen)]
    exact List.length_pos.2 h

end NPuzzle

namespace NPuzzle

/-! ## The search loop: the invariant -/

theorem pushNeighbors_single (st : SearchState) (x : PuzzleState) :
    pushNeighbors st [x] =
      if x.toString ∈ st.closedSet then st
      else if x.toString ∈ st.inOpenSet then st
      else { st with openSet := st.openSet ++ [x],
                     inOpenSet := setInsert st.inOpenSet x.toString } := by
  simp [pushNeighbors]

/-- One iteration of the loop over the neighbours. -/
theorem pushStep_inv {n : Nat} {start goal : Board} {st : SearchState} {x : PuzzleState}
    (hinv : OpenInv n start goal st) (hx : GoodNode n start x) :
    OpenInv n start goal (pushNeighbors st [x]) ∧
      (pushNeighbors st [x]).closedSet = st.closedSet ∧
      (∀ k, k ∈ st.inOpenSet → k ∈ (pushNeighbors st [x]).inOpenSet) ∧
      (x.toString ∈ st.closedSet ∨ x.toString ∈ (pushNeighbors st [x]).inOpenSet) := by
  rw [pushNeighbors_single]
  by_cases h1 : x.toString ∈ st.closedSet
  · rw [if_pos h1]
    exact ⟨hinv, rfl, fun _ h => h, Or.inl h1⟩
  · rw [if_neg h1]
    by_cases h2 : x.toString ∈ st.inOpenSet
    · rw [if_pos h2]
      exact ⟨hinv, rfl, fun _ h => h, Or.inr h2⟩
    · rw [if_neg h2, setInsert_of_not_mem h2]
      refine ⟨?_, rfl, fun k h => List.mem_cons_of_mem _ h, Or.inr (List.mem_cons_self _ _)⟩
      refine ⟨?_, ?_, ?_, ?_, hinv.nodupClosed, ?_, hinv.closedReach, ?_⟩
      · intro y hy
        rcases List.mem_append.1 hy with hy | hy
        · exact hinv.nodes y hy
        · rw [List.mem_singleton.1 hy]; exact hx
      · intro k
        show k ∈ x.toString :: st.inOpenSet ↔ ∃ y ∈ st.openSet ++ [x], y.toString = k
        constructor
        · intro hk
          rcases List.mem_cons.1 hk with hk | hk
          · exact ⟨x, List.mem_append_right _ (List.mem_singleton.2 rfl), hk.symm⟩
          · obtain ⟨y, hy, hyk⟩ := (hinv.keysOpen k).1 hk
            exact ⟨y, List.mem_append_left _ hy, hyk⟩
        · rintro ⟨y, hy, hyk⟩
          rcases List.mem_append.1 hy with hy | hy
          · exact List.mem_cons_of_mem _ ((hinv.keysOpen k).2 ⟨y, hy, hyk⟩)
          · rw [List.mem_singleton.1 hy] at hyk
            rw [← hyk]
            exact List.mem_cons_self _ _
      · show ((st.openSet ++ [x]).map PuzzleState.toString).Nodup
        rw [List.map_append, List.nodup_append]
        refine ⟨hinv.nodupOpen, by simp, ?_⟩
        intro k hk hk2
        simp only [List.map_cons, List.map_nil, List.mem_singleton] at hk2
        subst hk2
        obtain ⟨y, hy, hyk⟩ := List.mem_map.1 hk
        exact h2 ((hinv.keysOpen _).2 ⟨y, hy, hyk⟩)
      · exact List.nodup_cons.2 ⟨h2, hinv.nodupIn⟩
      · intro k hk hk2
        rcases List.mem_cons.1 hk2 with e | hk2
        · subst e; exact h1 hk
        · exact hinv.disjoint k hk hk2
      · rcases hinv.startSeen with h | h
        · exact Or.inl h
        · exact Or.inr (List.mem_cons_of_mem _ h)

theorem pushNeighbors_cons (st : SearchState) (x : PuzzleState) (l : List PuzzleState) :
    pushNeighbors st (x :: l) = pushNeighbors (pushNeighbors st [x]) l := by
  simp [pushNeighbors]

theorem pushNeighbors_inv {n : Nat} {start goal : Board} :
    ∀ (l : List PuzzleState) (st : SearchState), OpenInv n start goal st →
      (∀ x ∈ l, GoodNode n start x) →
      OpenInv n start goal (pushNeighbors st l) ∧
        (pushNeighbors st l).closedSet = st.closedSet ∧
        (∀ k, k ∈ st.inOpenSet → k ∈ (pushNeighbors st l).inOpenSet) ∧
        (∀ x ∈ l, x.toString ∈ st.closedSet ∨ x.toString ∈ (pushNeighbors st l).inOpenSet)
  | [], st, hinv, _ => by
    have e : pushNeighbors st [] = st := rfl
    rw [e]
    exact ⟨hinv, rfl, fun _ h => h, fun x hx => absurd hx (List.not_mem_nil x)⟩
  | x :: l, st, hinv, hl => by
    rw [pushNeighbors_cons]
    obtain ⟨h1, h2, h3, h4⟩ := pushStep_inv hinv (hl x (List.mem_cons_self _ _))
    obtain ⟨g1, g2, g3, g4⟩ := pushNeighbors_inv l (pushNeighbors st [x]) h1
      (fun y hy => hl y (List.mem_cons_of_mem _ hy))
    refine ⟨g1, g2.trans h2, fun k hk => g3 k (h3 k hk), ?_⟩
    intro y hy
    rcases List.mem_cons.1 hy with e | hy
    · subst e
      rcases h4 with h | h
      · exact Or.inl h
      · exact Or.inr (g3 _ h)
    · rcases g4 y hy with h | h
      · exact Or.inl (h2 ▸ h)
      · exact Or.inr h

/-- The state that an iteration which does not return leaves behind. -/
theorem expand_inv {n : Nat} {start goal : Board} (hstart : ValidBoard n start)
    (goalPos : List (Int × (Nat × Nat))) (ch : Int) {st st2 : SearchState} {idx : Nat}
    (hinv : Inv n start goal st) (hidx : idx < st.openSet.length)
    (hexp : expand goalPos goal ch st idx = Sum.inr st2) :
    Inv n start goal st2 ∧ st2.closedSet.length = st.closedSet.length + 1 := by
  unfold expand expandAt at hexp
  simp only [] at hexp
  rw [List.getD_eq_getElem _ _ hidx] at hexp
  set current := st.openSet[idx] with hcur
  have hmem : current ∈ st.openSet := List.getElem_mem _
  have hgood : GoodNode n start current := hinv.base.nodes _ hmem
  split_ifs at hexp with hgoal
  simp only [Sum.inr.injEq] at hexp
  have hnotgoal : current.board ≠ goal := by
    intro e
    apply hgoal
    simp [PuzzleState.isGoal, e]
  have hkeyIn : current.toString ∈ st.inOpenSet := (hinv.base.keysOpen _).2 ⟨current, hmem, rfl⟩
  have hkeyNotClosed : current.toString ∉ st.closedSet := fun h => hinv.base.disjoint _ h hkeyIn
  have hreach : Reachable n start current.board := goodNode_reachable hgood
  -- the state after the pop
  have hpop : OpenInv n start goal
      { openSet := st.openSet.eraseIdx idx, closedSet := setInsert st.closedSet current.toString,
        inOpenSet := st.inOpenSet.erase current.toString, totalOpened := st.totalOpened + 1,
        maxInMemory := max st.maxInMemory
          ((st.openSet.length : Int) + (st.closedSet.length : Int)) } := by
    rw [setInsert_of_not_mem hkeyNotClosed]
    refine ⟨?_, ?_, ?_, ?_, ?_, ?_, ?_, ?_⟩
    · intro y hy
      exact hinv.base.nodes y ((List.eraseIdx_sublist _ _).subset hy)
    · intro k
      show k ∈ st.inOpenSet.erase current.toString ↔ ∃ y ∈ st.openSet.eraseIdx idx, y.toString = k
      rw [hinv.base.nodupIn.mem_erase_iff]
      constructor
      · rintro ⟨hne, hk⟩
        obtain ⟨y, hy, hyk⟩ := (hinv.base.keysOpen k).1 hk
        refine ⟨y, ?_, hyk⟩
        rw [mem_eraseIdx_of_nodup_map PuzzleState.toString _ _ hidx hinv.base.nodupOpen]
        exact ⟨hy, by rw [hyk]; exact hne⟩
      · rintro ⟨y, hy, hyk⟩
        rw [mem_eraseIdx_of_nodup_map PuzzleState.toString _ _ hidx hinv.base.nodupOpen] at hy
        exact ⟨by rw [← hyk]; exact hy.2, (hinv.base.keysOpen k).2 ⟨y, hy.1, hyk⟩⟩
    · exact hinv.base.nodupOpen.sublist ((List.eraseIdx_sublist _ _).map _)
    · exact hinv.base.nodupIn.erase _
    · exact List.nodup_cons.2 ⟨hkeyNotClosed, hinv.base.nodupClosed⟩
    · intro k hk hk2
      have hk2b := (hinv.base.nodupIn.mem_erase_iff).1 hk2
      rcases List.mem_cons.1 hk with e | hk
      · exact hk2b.1 e
      · exact hinv.base.disjoint k hk hk2b.2
    · intro k hk
      rcases List.mem_cons.1 hk with e | hk
      · exact ⟨current.board, hreach, e.symm, hnotgoal⟩
      · exact hinv.base.closedReach k hk
    · rcases hinv.base.startSeen with h | h
      · exact Or.inl (List.mem_cons_of_mem _ h)
      · by_cases e : boardToString start = current.toString
        · exact Or.inl (e ▸ List.mem_cons_self _ _)
        · exact Or.inr ((hinv.base.nodupIn.mem_erase_iff).2 ⟨e, h⟩)
  obtain ⟨g1, g2, g3, g4⟩ := pushNeighbors_inv (generateNeighbors current goalPos goal ch) _ hpop
    (fun x hx => goodNode_neighbor hstart hgood hx)
  rw [hexp] at g1 g2 g3 g4
  simp only [] at g2 g3 g4
  rw [setInsert_of_not_mem hkeyNotClosed] at g2 g4
  refine ⟨⟨g1, ?_⟩, by rw [g2]; simp⟩
  intro b hb hbc b2 hs
  rw [g2] at hbc ⊢
  have hnew : ∀ b3, Slide n current.board b3 →
      boardToString b3 ∈ current.toString :: st.closedSet ∨ boardToString b3 ∈ st2.inOpenSet := by
    intro b3 hs3
    obtain ⟨x, hx, hxb⟩ := neighbors_cover goalPos goal ch hstart hgood hs3
    have hk : x.toString = boardToString b3 := by rw [PuzzleState.toString, hxb]
    have := g4 x hx
    rw [hk] at this
    exact this
  rcases List.mem_cons.1 hbc with e | hbc
  · have hbsq : IsSquare n b := (reachable_valid hstart hb).1.1
    have hcsq : IsSquare n current.board := (goodNode_valid hstart hgood).1
    have : b = current.board := boardToString_injective hbsq hcsq e
    subst this
    exact hnew b2 hs
  · rcases hinv.closure b hb hbc b2 hs with h | h
    · exact Or.inl (List.mem_cons_of_mem _ h)
    · by_cases e : boardToString b2 = current.toString
      · exact Or.inl (e ▸ List.mem_cons_self _ _)
      · exact Or.inr (g3 _ ((hinv.base.nodupIn.mem_erase_iff).2 ⟨e, h⟩))

theorem expand_result {n : Nat} {start goal : Board}
    (goalPos : List (Int × (Nat × Nat))) (ch : Int) {st : SearchState} {idx : Nat}
    {r : PuzzleState × Int × Int}
    (hinv : Inv n start goal st) (hidx : idx < st.openSet.length)
    (hexp : expand goalPos goal ch st idx = Sum.inl r) :
    GoodNode n start r.1 ∧ r.1.board = goal := by
  unfold expand expandAt at hexp
  simp only [] at hexp
  rw [List.getD_eq_getElem _ _ hidx] at hexp
  split_ifs at hexp with hgoal
  simp only [Sum.inl.injEq] at hexp
  rw [← hexp]
  refine ⟨hinv.base.nodes _ (List.getElem_mem _), ?_⟩
  simpa [PuzzleState.isGoal] using hgoal

end NPuzzle

namespace NPuzzle

/-! ## The search loop: termination, soundness, completeness -/

theorem closed_length_le {n : Nat} {start goal : Board} {st : SearchState}
    (hstart : ValidBoard n start) (hinv : OpenInv n start goal st) :
    st.closedSet.length ≤ (start.flatten.permutations).length := by
  have hsub : st.closedSet ⊆ (start.flatten.permutations).map
      (fun l => l.flatMap (fun v => to_string v ++ [','])) := by
    intro k hk
    obtain ⟨b, hb, hbk, _⟩ := hinv.closedReach k hk
    rw [← hbk]
    exact key_mem_bound hstart hb
  have := (List.subperm_of_subset hinv.nodupClosed hsub).length_le
  simpa using this

theorem flatten_length {n : Nat} {b : Board} (h : IsSquare n b) : b.flatten.length = n * n := by
  rw [flatten_eq_cells h, List.length_map]
  have : ((List.range n).flatMap (fun i => (List.range n).map (fun j => (i, j)))) =
      (List.range n ×ˢ List.range n) := rfl
  rw [this, List.length_product, List.length_range]

/-- When the open queue is empty every reachable board has been closed. -/
theorem closed_of_reachable {n : Nat} {start goal : Board} {st : SearchState}
    (hinv : Inv n start goal st) (hempty : st.inOpenSet = []) :
    ∀ (k : Nat) (a b : Board), Reachable n start a → boardToString a ∈ st.closedSet →
      SlidePath n k a b → boardToString b ∈ st.closedSet
  | 0, a, b, _, hc, hp => by
    have : a = b := hp
    subst this
    exact hc
  | k + 1, a, b, ha, hc, hp => by
    obtain ⟨mid, hs, hp⟩ := hp
    have hmid : boardToString mid ∈ st.closedSet := by
      rcases hinv.closure a ha hc mid hs with h | h
      · exact h
      · rw [hempty] at h
        exact absurd h (List.not_mem_nil _)
    obtain ⟨j, hj⟩ := ha
    exact closed_of_reachable hinv hempty k mid b ⟨j + 1, slidePath_snoc j hj hs⟩ hmid hp

theorem not_reachable_of_empty {n : Nat} {start goal : Board} {st : SearchState}
    (hstart : ValidBoard n start) (hgoal : IsSquare n goal)
    (hinv : Inv n start goal st) (hempty : st.openSet.isEmpty = true) :
    ¬ Reachable n start goal := by
  have hopen : st.openSet = [] := List.isEmpty_iff.1 hempty
  have hin : st.inOpenSet = [] := by
    apply List.eq_nil_iff_forall_not_mem.2
    intro k hk
    obtain ⟨x, hx, _⟩ := (hinv.base.keysOpen k).1 hk
    rw [hopen] at hx
    exact absurd hx (List.not_mem_nil _)
  rintro ⟨k, hk⟩
  have hs : boardToString start ∈ st.closedSet := by
    rcases hinv.base.startSeen with h | h
    · exact h
    · rw [hin] at h
      exact absurd h (List.not_mem_nil _)
  have hg := closed_of_reachable hinv hin k start goal ⟨0, rfl⟩ hs hk
  obtain ⟨b, hb, hbk, hne⟩ := hinv.base.closedReach _ hg
  exact hne (boardToString_injective (reachable_valid hstart hb).1.1 hgoal hbk)

/-- What the loop returns, whenever it returns. -/
theorem aStarLoop_sound {n : Nat} {start goal : Board} (hstart : ValidBoard n start)
    (hgoal : IsSquare n goal) (goalPos : List (Int × (Nat × Nat))) (ch : Int) :
    ∀ (fuel : Nat) (tie : Nat → Nat) (st : SearchState) (r : PuzzleState × Int × Int),
      Inv n start goal st → aStarLoop goalPos goal ch fuel tie st = some r →
      (r.1 = PuzzleState.nullptr ∧ ¬ Reachable n start goal) ∨
        (GoodNode n start r.1 ∧ r.1.board = goal)
  | 0, _, _, _, _, h => by simp [aStarLoop] at h
  | fuel + 1, tie, st, r, hinv, h => by
    unfold aStarLoop at h
    by_cases hempty : st.openSet.isEmpty = true
    · rw [if_pos hempty] at h
      simp only [Option.some.injEq] at h
      rw [← h]
      exact Or.inl ⟨rfl, not_reachable_of_empty hstart hgoal hinv hempty⟩
    · rw [if_neg hempty] at h
      have hne : st.openSet ≠ [] := fun e => hempty (List.isEmpty_iff.2 e)
      have hidx := topIndex_lt hne (tie 0)
      cases hexp : expand goalPos goal ch st (topIndex st.openSet (tie 0)) with
      | inl res =>
        rw [hexp] at h
        simp only [Option.some.injEq] at h
        rw [← h]
        exact Or.inr (expand_result goalPos ch hinv hidx hexp)
      | inr st2 =>
        rw [hexp] at h
        exact aStarLoop_sound hstart hgoal goalPos ch fuel _ st2 r
          (expand_inv hstart goalPos ch hinv hidx hexp).1 h

/-- The loop returns when it is given enough fuel. -/
theorem aStarLoop_terminates {n : Nat} {start goal : Board} (hstart : ValidBoard n start)
    (goalPos : List (Int × (Nat × Nat))) (ch : Int) :
    ∀ (fuel : Nat) (tie : Nat → Nat) (st : SearchState),
      Inv n start goal st → (start.flatten.permutations).length < st.closedSet.length + fuel →
      ∃ r, aStarLoop goalPos goal ch fuel tie st = some r
  | 0, _, st, hinv, h => by
    have := closed_length_le hstart hinv.base
    omega
  | fuel + 1, tie, st, hinv, h => by
    unfold aStarLoop
    by_cases hempty : st.openSet.isEmpty = true
    · rw [if_pos hempty]
      exact ⟨_, rfl⟩
    · rw [if_neg hempty]
      have hne : st.openSet ≠ [] := fun e => hempty (List.isEmpty_iff.2 e)
      have hidx := topIndex_lt hne (tie 0)
      cases hexp : expand goalPos goal ch st (topIndex st.openSet (tie 0)) with
      | inl res => exact ⟨_, rfl⟩
      | inr st2 =>
        obtain ⟨hinv2, hlen⟩ := expand_inv hstart goalPos ch hinv hidx hexp
        exact aStarLoop_terminates hstart goalPos ch fuel _ st2 hinv2 (by omega)

theorem inv_initial {n : Nat} {start : Board} (goal : Board) (ch : Int)
    (hstart : ValidBoard n start) : Inv n start goal (initialState start goal ch) := by
  have hlen : start.length = n := hstart.1.1
  obtain ⟨r, c, he, hr, hc, hz⟩ := findEmptyPosition_spec hstart
  unfold initialState
  simp only [hlen]
  have hins : setInsert [] (PuzzleState.mk start n (findEmptyPosition start n) 0
      (heuristic ch start (buildGoalPositions goal) goal) [] PuzzleState.nullptr).toString =
      [boardToString start] := rfl
  rw [hins]
  refine ⟨⟨?_, ?_, ?_, ?_, ?_, ?_, ?_, ?_⟩, ?_⟩
  · intro x hx
    rw [List.mem_singleton.1 hx]
    exact ⟨rfl, ⟨r, c, he, hr, hc, hz⟩, Or.inl ⟨rfl, rfl, rfl, rfl⟩⟩
  · intro k
    simp only [List.mem_singleton]
    constructor
    · intro hk; exact ⟨_, rfl, hk.symm⟩
    · rintro ⟨y, hy, hyk⟩
      rw [hy] at hyk
      exact hyk.symm
  · simp
  · simp
  · simp
  · intro k hk; simp at hk
  · intro k hk; simp at hk
  · exact Or.inr (List.mem_singleton.2 rfl)
  · intro b _ hb
    simp at hb

end NPuzzle

namespace NPuzzle

/-! ## Replaying move strings -/

theorem slideBlank_sound {n : Nat} {b b2 : Board} {d : Int × Int}
    (h : slideBlank n b d = some b2) : SlideBy n d b b2 := by
  unfold slideBlank at h
  simp only [] at h
  split_ifs at h with hc
  simp only [Option.some.injEq] at h
  obtain ⟨hz, h1, h2, h3, h4⟩ := hc
  -- the position found is on the board
  have hpos : ∃ r c : Nat, findEmptyPosition b n = ((r : Int), (c : Int)) ∧ r < n ∧ c < n := by
    unfold findEmptyPosition
    simp only []
    rw [List.headD_eq_head?_getD]
    cases hh : ((List.range n).flatMap (fun i =>
        (List.range n).filterMap (fun j =>
          if cell b i j = 0 then some ((i : Int), (j : Int)) else none))).head? with
    | none =>
      refine ⟨0, 0, rfl, ?_, ?_⟩ <;>
      · rcases Nat.eq_zero_or_pos n with hn | hn
        · subst hn
          exfalso
          omega
        · exact hn
    | some p =>
      have hp := List.mem_of_mem_head? hh
      rw [List.mem_flatMap] at hp
      obtain ⟨r, hr, hp⟩ := hp
      rw [List.mem_filterMap] at hp
      obtain ⟨c, hc, hp⟩ := hp
      split_ifs at hp
      simp only [Option.some.injEq] at hp
      exact ⟨r, c, by simp [← hp], List.mem_range.1 hr, List.mem_range.1 hc⟩
  obtain ⟨r, c, he, hr, hc⟩ := hpos
  rw [he] at hz h1 h2 h3 h4 h
  simp only [Int.toNat_ofNat] at hz h
  exact ⟨r, c, hr, hc, hz, h1, h2, h3, h4, h.symm⟩

theorem replay_sound {n : Nat} : ∀ (ms : List Char) (a b : Board),
    replay n ms a = some b → Replay n ms a b
  | [], a, b, h => by
    simp only [replay, Option.some.injEq] at h
    exact h
  | m :: ms, a, b, h => by
    unfold replay at h
    cases hm : moveDelta m with
    | none => rw [hm] at h; simp at h
    | some d =>
      rw [hm] at h
      simp only [] at h
      cases hs : slideBlank n a d with
      | none => rw [hs] at h; simp at h
      | some mid =>
        rw [hs] at h
        simp only [] at h
        exact ⟨d, mid, hm, slideBlank_sound hs, replay_sound ms mid b h⟩

theorem slidePath_of_replay {n : Nat} {ms : List Char} {a b : Board}
    (h : replay n ms a = some b) : SlidePath n ms.length a b :=
  replay_slidePath ms (replay_sound ms a b h)

/-! ## All runs of the search -/

theorem compareState_irrefl (a : PuzzleState) : CompareState a a = false := by
  simp [CompareState]

theorem bestOf_mem_aux : ∀ (l : List PuzzleState) (init : PuzzleState),
    l.foldl (fun best y => if CompareState best y then y else best) init ∈ init :: l
  | [], init => by simp
  | a :: l, init => by
    rw [List.foldl_cons]
    have := bestOf_mem_aux l (if CompareState init a then a else init)
    rcases List.mem_cons.1 this with h | h
    · rw [h]
      split_ifs
      · exact List.mem_cons_of_mem _ (List.mem_cons_self _ _)
      · exact List.mem_cons_self _ _
    · exact List.mem_cons_of_mem _ (List.mem_cons_of_mem _ h)

theorem bestOf_mem {openSet : List PuzzleState} (h : openSet ≠ []) :
    bestOf openSet ∈ openSet := by
  unfold bestOf
  cases openSet with
  | nil => exact absurd rfl h
  | cons a l =>
    have := bestOf_mem_aux (a :: l) a
    simp only [List.headD_cons]
    rcases List.mem_cons.1 this with h1 | h1
    · rw [h1]; exact List.mem_cons_self _ _
    · exact h1

theorem topCandidates_ne_nil {openSet : List PuzzleState} (h : openSet ≠ []) :
    topCandidates openSet ≠ [] := by
  obtain ⟨i, hi, hb⟩ := List.mem_iff_getElem.1 (bestOf_mem h)
  have hmem : i ∈ topCandidates openSet := by
    unfold topCandidates
    simp only [List.mem_map, List.mem_filter]
    refine ⟨(i, bestOf openSet), ⟨?_, ?_⟩, rfl⟩
    · rw [List.mk_mem_enum_iff_getElem?, List.getElem?_eq_getElem hi, hb]
    · simp [compareState_irrefl]
  intro e
  rw [e] at hmem
  exact absurd hmem (List.not_mem_nil _)

theorem topIndex_mem {openSet : List PuzzleState} (h : openSet ≠ []) (choice : Nat) :
    topIndex openSet choice ∈ topCandidates openSet := by
  unfold topIndex
  simp only []
  have hpos : 0 < (topCandidates openSet).length :=
    List.length_pos.2 (topCandidates_ne_nil h)
  rw [List.getD_eq_getElem _ _ (Nat.mod_lt _ hpos)]
  exact List.getElem_mem _

/-- Every run of the search loop is one of the enumerated runs. -/
theorem aStarLoop_mem_runs (goalPos : List (Int × (Nat × Nat))) (goal : Board) (ch : Int) :
    ∀ (fuel : Nat) (tie : Nat → Nat) (st : SearchState),
      (aStarLoop goalPos goal ch fuel tie st).map resultG ∈ aStarRuns goalPos goal ch fuel st
  | 0, _, _ => by simp [aStarLoop, aStarRuns]
  | fuel + 1, tie, st => by
    unfold aStarLoop aStarRuns
    by_cases hempty : st.openSet.isEmpty = true
    · rw [if_pos hempty, if_pos hempty]
      simp [resultG, PuzzleState.isNull]
    · rw [if_neg hempty, if_neg hempty]
      have hne : st.openSet ≠ [] := fun e => hempty (List.isEmpty_iff.2 e)
      rw [List.mem_flatMap]
      refine ⟨topIndex st.openSet (tie 0), topIndex_mem hne _, ?_⟩
      have hexp : expand goalPos goal ch st (topIndex st.openSet (tie 0)) =
          expandAt goalPos goal ch st (topIndex st.openSet (tie 0))
            (st.openSet.getD (topIndex st.openSet (tie 0)) PuzzleState.nullptr) := rfl
      rw [hexp]
      cases hcur : st.openSet.getD (topIndex st.openSet (tie 0)) PuzzleState.nullptr with
      | nullptr =>
        simp only []
        cases hres : expandAt goalPos goal ch st (topIndex st.openSet (tie 0))
            PuzzleState.nullptr with
        | inl res => simp
        | inr st2 => exact aStarLoop_mem_runs goalPos goal ch fuel _ st2
      | mk b s e g h m p =>
        simp only []
        cases hres : expandAt goalPos goal ch st (topIndex st.openSet (tie 0))
            (PuzzleState.mk b s e g h m p) with
        | inl res => simp
        | inr st2 => exact aStarLoop_mem_runs goalPos goal ch fuel _ st2

end NPuzzle

namespace NPuzzle

/-! ## The returned path -/

/-- The last step of the parent chain of a node that is not the root. -/
theorem goodNode_step {n : Nat} {start : Board} {b : Board} {s : Nat} {e : Int × Int}
    {g hh : Int} {m : List Char} {p : PuzzleState}
    (h : GoodNode n start (PuzzleState.mk b s e g hh m p)) (hp : p ≠ PuzzleState.nullptr) :
    GoodNode n start p ∧ ∃ d, d ∈ directions ∧ m = p.moves ++ [d.2] ∧
      SlideBy n d.1 p.board b := by
  obtain ⟨_, ⟨r, c, he, hr, hc, hz⟩, hroot | ⟨hgp, hg, d, hd, hm, he2, hb⟩⟩ := h
  · exact absurd hroot.1 hp
  · refine ⟨hgp, d, hd, hm, ?_⟩
    obtain ⟨r0, c0, he0, hr0, hc0, hz0⟩ := goodNode_blank hgp
    rw [he0] at he2 hb
    rw [he] at he2
    have h1 : (r : Int) = (r0 : Int) + d.1.1 := congrArg Prod.fst he2
    have h2 : (c : Int) = (c0 : Int) + d.1.2 := congrArg Prod.snd he2
    refine ⟨r0, c0, hr0, hc0, hz0, by omega, by omega, by omega, by omega, ?_⟩
    rw [hb, he]
    simp only [Int.toNat_ofNat]
    rw [← h1, ← h2]
    simp

theorem goodNode_root {n : Nat} {start : Board} {b : Board} {s : Nat} {e : Int × Int}
    {g hh : Int} {m : List Char}
    (h : GoodNode n start (PuzzleState.mk b s e g hh m PuzzleState.nullptr)) :
    b = start ∧ m = [] := by
  obtain ⟨_, _, hroot | ⟨hgp, _⟩⟩ := h
  · exact ⟨hroot.2.1, hroot.2.2.2⟩
  · exact absurd hgp (by simp [GoodNode])

/-- The boards along the parent chain of a node, from the root to the node. -/
theorem goodNode_chain {n : Nat} {start : Board} : ∀ (x : PuzzleState), GoodNode n start x →
    ((solutionPath x).map PuzzleState.board).head? = some start ∧
    ((solutionPath x).map PuzzleState.board).getLast? = some x.board ∧
    ((solutionPath x).map PuzzleState.board).length = x.moves.length + 1 ∧
    ∀ i, i < x.moves.length → ∃ d, moveDelta (x.moves.getD i 'U') = some d ∧
      SlideBy n d (((solutionPath x).map PuzzleState.board).getD i [])
        (((solutionPath x).map PuzzleState.board).getD (i + 1) [])
  | PuzzleState.nullptr, h => absurd h (by simp [GoodNode])
  | PuzzleState.mk b s e g hh m p, h => by
    have hpath : (solutionPath (PuzzleState.mk b s e g hh m p)).map PuzzleState.board =
        (solutionPath p).map PuzzleState.board ++ [b] := by
      simp [solutionPath, ancestors, PuzzleState.board]
    rw [hpath]
    by_cases hp : p = PuzzleState.nullptr
    · subst hp
      obtain ⟨rfl, rfl⟩ := goodNode_root h
      simp [solutionPath, ancestors, PuzzleState.board, PuzzleState.moves]
    · obtain ⟨hgp, d, hd, hm, hs⟩ := goodNode_step h hp
      obtain ⟨ih1, ih2, ih3, ih4⟩ := goodNode_chain p hgp
      have hne : (solutionPath p).map PuzzleState.board ≠ [] := by
        intro e0
        rw [e0] at ih3
        simp at ih3
      refine ⟨?_, ?_, ?_, ?_⟩
      · rw [List.head?_append_of_ne_nil _ hne]
        exact ih1
      · rw [List.getLast?_concat]
        rfl
      · rw [List.length_append, ih3]
        show _ = m.length + 1
        rw [hm, List.length_append]
        rfl
      · intro i hi
        have hi2 : i < (p.moves ++ [d.2]).length := by
          have : (PuzzleState.mk b s e g hh m p).moves = m := rfl
          rw [this, hm] at hi
          exact hi
        rw [List.length_append, List.length_singleton] at hi2
        show ∃ d0, moveDelta (m.getD i 'U') = some d0 ∧ _
        rw [hm]
        by_cases hlt : i < p.moves.length
        · obtain ⟨d0, hd0, hs0⟩ := ih4 i hlt
          refine ⟨d0, ?_, ?_⟩
          · rw [List.getD_append _ _ _ _ hlt]
            exact hd0
          · rw [List.getD_append _ _ _ _ (by omega), List.getD_append _ _ _ _ (by omega)]
            exact hs0
        · have hieq : i = p.moves.length := by omega
          refine ⟨d.1, ?_, ?_⟩
          · rw [List.getD_append_right _ _ _ _ (by omega), hieq]
            simp [moveDelta_of_mem_directions hd]
          · subst hieq
            have hlast : ((solutionPath p).map PuzzleState.board).getD p.moves.length [] =
                p.board := by
              have := ih2
              rw [List.getLast?_eq_getElem?, ih3] at this
              simp only [add_tsub_cancel_right] at this
              rw [List.getD_eq_getElem?_getD, this]
              rfl
            rw [List.getD_append _ _ _ _ (by omega),
              List.getD_append_right _ _ _ _ (by omega), hlast, ih3]
            simp only [Nat.sub_self, List.getD_cons_zero]
            exact hs

end NPuzzle

namespace NPuzzle

/-! ## The heuristic choice -/

theorem heuristic_other {ch : Int} (h1 : ch ≠ 1) (h2 : ch ≠ 2) : heuristic ch = heuristic 3 := by
  funext board goalPos goal
  simp [heuristic, h1, h2]

theorem aStarSearch_other {ch : Int} (h1 : ch ≠ 1) (h2 : ch ≠ 2) (fuel : Nat) (tie : Nat → Nat)
    (start goal : Board) : aStarSearch fuel tie start goal ch = aStarSearch fuel tie start goal 3 := by
  have hgen : ∀ c gp, generateNeighbors c gp goal ch = generateNeighbors c gp goal 3 := by
    intro c gp
    unfold generateNeighbors
    rw [heuristic_other h1 h2]
  have hexp : ∀ gp st idx, expand gp goal ch st idx = expand gp goal 3 st idx := by
    intro gp st idx
    unfold expand expandAt
    simp only [hgen]
  have hloop : ∀ gp fuel tie st, aStarLoop gp goal ch fuel tie st = aStarLoop gp goal 3 fuel tie st := by
    intro gp fuel
    induction fuel with
    | zero => intro tie st; rfl
    | succ f ih =>
      intro tie st
      unfold aStarLoop
      simp only [hexp, ih]
  unfold aStarSearch initialState
  rw [hloop, heuristic_other h1 h2]

/-- The returned node, from the `g` read off a result. -/
theorem result_of_resultG {r : Option (PuzzleState × Int × Int)} {v : Int}
    (h : r.map resultG = some (some v)) :
    ∃ node totalOpened maxInMemory, r = some (node, totalOpened, maxInMemory) ∧
      node ≠ PuzzleState.nullptr ∧ node.g = v := by
  cases r with
  | none => simp at h
  | some r =>
    obtain ⟨node, a, b⟩ := r
    refine ⟨node, a, b, rfl, ?_, ?_⟩
    · intro e
      subst e
      simp [resultG, PuzzleState.isNull] at h
    · simp only [Option.map_some', Option.some.injEq, resultG] at h
      split_ifs at h
      simpa using h

theorem runs_all_eq {goalPos : List (Int × (Nat × Nat))} {goal : Board} {ch : Int} {fuel : Nat}
    {st : SearchState} {v : Int}
    (h : ∀ x ∈ aStarRuns goalPos goal ch fuel st, x = some (some v)) (tie : Nat → Nat) :
    ∃ node totalOpened maxInMemory,
      aStarLoop goalPos goal ch fuel tie st = some (node, totalOpened, maxInMemory) ∧
      node ≠ PuzzleState.nullptr ∧ node.g = v := by
  have hmem := aStarLoop_mem_runs goalPos goal ch fuel tie st
  have := h _ hmem
  cases hres : aStarLoop goalPos goal ch fuel tie st with
  | none => rw [hres] at this; simp at this
  | some r =>
    rw [hres] at this
    obtain ⟨node, a, b⟩ := r
    refine ⟨node, a, b, rfl, ?_, ?_⟩
    · intro e
      subst e
      simp [resultG, PuzzleState.isNull] at this
    · simp only [Option.map_some', Option.some.injEq, resultG] at this
      split_ifs at this
      simpa using this

/-! ## An instance, over all ways of resolving ties -/

set_option maxRecDepth 100000 in
/-- Every run on start `[[1,2,3],[4,0,6],[7,5,8]]`, goal `[[1,2,3],[4,5,6],[7,8,0]]` returns
a node with `g = 2`, for every heuristic choice. -/
theorem runs_two_moves (heuristicChoice : Int) (tie : Nat → Nat) :
    ∃ node totalOpened maxInMemory,
      aStarSearch 10 tie [[1, 2, 3], [4, 0, 6], [7, 5, 8]] [[1, 2, 3], [4, 5, 6], [7, 8, 0]]
        heuristicChoice = some (node, totalOpened, maxInMemory) ∧
      node ≠ PuzzleState.nullptr ∧ node.g = 2 := by
  by_cases h1 : heuristicChoice = 1
  · subst h1
    exact runs_all_eq (by decide!) tie
  · by_cases h2 : heuristicChoice = 2
    · subst h2
      exact runs_all_eq (by decide!) tie
    · rw [aStarSearch_other h1 h2]
      exact runs_all_eq (by decide!) tie

end NPuzzle

namespace NPuzzle

/-! ## Iterations of the search loop -/

theorem expandAt_eq (goalPos : List (Int × (Nat × Nat))) (goal : Board) (ch : Int)
    (st : SearchState) (idx : Nat) (current : PuzzleState) :
    expandAt goalPos goal ch st idx current =
      if current.isGoal goal then
        Sum.inl (current, st.totalOpened + 1,
          max st.maxInMemory ((st.openSet.length : Int) + (st.closedSet.length : Int)))
      else Sum.inr (pushNeighbors (afterPop st idx current)
        (generateNeighbors current goalPos goal ch)) :=
  rfl

theorem expand_eq (goalPos : List (Int × (Nat × Nat))) (goal : Board) (ch : Int)
    (st : SearchState) (idx : Nat) :
    expand goalPos goal ch st idx =
      expandAt goalPos goal ch st idx (st.openSet.getD idx PuzzleState.nullptr) :=
  rfl

/-- The executable check `allRunsCheaper` is sound: when it succeeds, every run meets a
discard because of `inOpenSet` whose neighbour has the smaller `g`. -/
theorem allRunsCheaper_sound (goalPos : List (Int × (Nat × Nat))) (goal : Board) (ch : Int) :
    ∀ (fuel : Nat) (st : SearchState), allRunsCheaper goalPos goal ch fuel st = true →
      ∀ tie : Nat → Nat, ∃ e ∈ runDiscards goalPos goal ch fuel tie st, cheaperDiscard e = true
  | 0, _, h, _ => by simp [allRunsCheaper] at h
  | fuel + 1, st, h, tie => by
    unfold allRunsCheaper at h
    unfold runDiscards
    by_cases hempty : st.openSet.isEmpty = true
    · rw [if_pos hempty] at h
      exact absurd h (by simp)
    · rw [if_neg hempty] at h
      rw [if_neg hempty]
      have hne : st.openSet ≠ [] := fun e => hempty (List.isEmpty_iff.2 e)
      have hidx := List.all_eq_true.1 h _ (topIndex_mem hne (tie 0))
      rw [expand_eq]
      cases hcur : st.openSet.getD (topIndex st.openSet (tie 0)) PuzzleState.nullptr with
      | nullptr =>
        rw [hcur] at hidx
        exact absurd hidx (by simp)
      | mk b s e g hh m p =>
        rw [hcur] at hidx
        simp only [] at hidx
        cases hres : expandAt goalPos goal ch st (topIndex st.openSet (tie 0))
            (PuzzleState.mk b s e g hh m p) with
        | inl res =>
          rw [hres] at hidx
          exact absurd hidx (by simp)
        | inr st2 =>
          rw [hres] at hidx
          simp only [Bool.or_eq_true] at hidx
          rcases hidx with hnow | hlater
          · obtain ⟨e2, he2, hc⟩ := List.any_eq_true.1 hnow
            exact ⟨e2, List.mem_append_left _ he2, hc⟩
          · obtain ⟨e2, he2, hc⟩ := allRunsCheaper_sound goalPos goal ch fuel st2 hlater
              (fun i => tie (i + 1))
            exact ⟨e2, List.mem_append_right _ he2, hc⟩

end NPuzzle

namespace NPuzzle

/-! ## The list returned by `generateNeighbors` -/

theorem generateNeighbors_eq (current : PuzzleState) (goalPos : List (Int × (Nat × Nat)))
    (goal : Board) (ch : Int) :
    generateNeighbors current goalPos goal ch =
      (directions.filter (fun d => decide
        (0 ≤ current.emptyPos.1 + d.1.1 ∧ current.emptyPos.1 + d.1.1 < (current.size : Int) ∧
         0 ≤ current.emptyPos.2 + d.1.2 ∧ current.emptyPos.2 + d.1.2 < (current.size : Int)))).map
        (fun d => PuzzleState.mk
          (swapCells current.board current.emptyPos.1.toNat current.emptyPos.2.toNat
            (current.emptyPos.1 + d.1.1).toNat (current.emptyPos.2 + d.1.2).toNat)
          current.size (current.emptyPos.1 + d.1.1, current.emptyPos.2 + d.1.2) (current.g + 1)
          (heuristic ch
            (swapCells current.board current.emptyPos.1.toNat current.emptyPos.2.toNat
              (current.emptyPos.1 + d.1.1).toNat (current.emptyPos.2 + d.1.2).toNat)
            goalPos goal)
          (current.moves ++ [d.2]) current) := by
  unfold generateNeighbors
  simp only []
  rw [foldl_push (fun d : (Int × Int) × Char =>
    0 ≤ current.emptyPos.1 + d.1.1 ∧ current.emptyPos.1 + d.1.1 < (current.size : Int) ∧
    0 ≤ current.emptyPos.2 + d.1.2 ∧ current.emptyPos.2 + d.1.2 < (current.size : Int))]
  simp only [List.nil_append]

/-- Between two and four directions stay on a board of size at least 2. -/
theorem inBounds_count {n r c : Nat} (hn : 2 ≤ n) (hr : r < n) (hc : c < n) :
    2 ≤ (directions.filter (fun d => decide
        (0 ≤ (r : Int) + d.1.1 ∧ (r : Int) + d.1.1 < (n : Int) ∧
         0 ≤ (c : Int) + d.1.2 ∧ (c : Int) + d.1.2 < (n : Int)))).length ∧
    (directions.filter (fun d => decide
        (0 ≤ (r : Int) + d.1.1 ∧ (r : Int) + d.1.1 < (n : Int) ∧
         0 ≤ (c : Int) + d.1.2 ∧ (c : Int) + d.1.2 < (n : Int)))).length ≤ 4 := by
  constructor
  · unfold directions
    simp only [List.filter_cons, List.filter_nil]
    split_ifs with h1 h2 h3 h4 <;> simp only [List.length_cons, List.length_nil] <;>
      simp only [decide_eq_true_eq] at * <;> omega
  · exact le_trans (List.length_filter_le _ _) (by simp [directions])

end NPuzzle

namespace NPuzzle

/-! ## States of the search up to the order of their lists -/

theorem removeFirst_perm {α : Type} [BEq α] [LawfulBEq α] (k : α) :
    ∀ (l r : List α), removeFirst k l = some r → l.Perm (k :: r)
  | [], r, h => by simp [removeFirst] at h
  | a :: l, r, h => by
    unfold removeFirst at h
    by_cases hak : (a == k) = true
    · rw [if_pos hak] at h
      have e := eq_of_beq hak
      subst e
      simp only [Option.some.injEq] at h
      subst h
      exact List.Perm.refl _
    · rw [if_neg hak] at h
      cases hr : removeFirst k l with
      | none => rw [hr] at h; simp at h
      | some r2 =>
        rw [hr] at h
        simp only [Option.map_some', Option.some.injEq] at h
        subst h
        exact ((removeFirst_perm k l r2 hr).cons a).trans (List.Perm.swap k a r2)

theorem samePerm_perm {α : Type} [BEq α] [LawfulBEq α] :
    ∀ (l1 l2 : List α), samePerm l1 l2 = true → l1.Perm l2
  | [], l2, h => by
    unfold samePerm at h
    rw [List.isEmpty_iff.1 h]
  | a :: l1, l2, h => by
    unfold samePerm at h
    cases hr : removeFirst a l2 with
    | none => rw [hr] at h; simp at h
    | some r =>
      rw [hr] at h
      exact ((samePerm_perm l1 r h).cons a).trans (removeFirst_perm a l2 r hr).symm

theorem sameSearch_sound {a b : SearchState} (h : sameSearch a b = true) : StateEquiv a b := by
  simp only [sameSearch, Bool.and_eq_true] at h
  exact ⟨samePerm_perm _ _ h.1.1, samePerm_perm _ _ h.1.2, samePerm_perm _ _ h.2⟩

theorem stateEquiv_refl (a : SearchState) : StateEquiv a a :=
  ⟨List.Perm.refl _, List.Perm.refl _, List.Perm.refl _⟩

theorem stateEquiv_trans {a b c : SearchState} (h1 : StateEquiv a b) (h2 : StateEquiv b c) :
    StateEquiv a c :=
  ⟨h1.1.trans h2.1, h1.2.1.trans h2.2.1, h1.2.2.trans h2.2.2⟩

theorem addState_mem (st : SearchState) :
    ∀ (acc : List SearchState) (r : SearchState), r ∈ acc → r ∈ addState st acc
  | [], r, h => absurd h (List.not_mem_nil _)
  | x :: rest, r, h => by
    unfold addState
    split_ifs
    · exact h
    · rcases List.mem_cons.1 h with e | e
      · rw [e]; exact List.mem_cons_self _ _
      · exact List.mem_cons_of_mem _ (addState_mem st rest r e)

theorem addState_equiv (st : SearchState) :
    ∀ acc : List SearchState, ∃ r ∈ addState st acc, StateEquiv st r
  | [] => ⟨st, by simp [addState], stateEquiv_refl st⟩
  | x :: rest => by
    unfold addState
    split_ifs with h
    · exact ⟨x, List.mem_cons_self _ _, sameSearch_sound h⟩
    · obtain ⟨r, hr, he⟩ := addState_equiv st rest
      exact ⟨r, List.mem_cons_of_mem _ hr, he⟩

theorem mergeStates_spec : ∀ (l acc : List SearchState),
    (∀ r ∈ acc, r ∈ l.foldl (fun acc s => addState s acc) acc) ∧
    (∀ s ∈ l, ∃ r ∈ l.foldl (fun acc s => addState s acc) acc, StateEquiv s r)
  | [], acc => ⟨fun r h => h, fun s h => absurd h (List.not_mem_nil _)⟩
  | x :: l, acc => by
    rw [List.foldl_cons]
    obtain ⟨ih1, ih2⟩ := mergeStates_spec l (addState x acc)
    refine ⟨fun r h => ih1 r (addState_mem x acc r h), ?_⟩
    intro s hs
    rcases List.mem_cons.1 hs with e | e
    · subst e
      obtain ⟨r, hr, he⟩ := addState_equiv s acc
      exact ⟨r, ih1 r hr, he⟩
    · exact ih2 s e

/-! ## The order of the open queue -/

theorem compareState_iff (a b : PuzzleState) : CompareState a b = true ↔
    b.getFScore < a.getFScore ∨ (a.getFScore = b.getFScore ∧ b.h < a.h) := by
  unfold CompareState
  split_ifs with h
  · simp only [gt_iff_lt, decide_eq_true_eq]
    omega
  · simp only [gt_iff_lt, decide_eq_true_eq]
    omega

theorem compareState_false_iff (a b : PuzzleState) : CompareState a b = false ↔
    a.getFScore < b.getFScore ∨ (a.getFScore = b.getFScore ∧ a.h ≤ b.h) := by
  rw [← Bool.not_eq_true, compareState_iff]
  omega

theorem compareState_key {a b a2 b2 : PuzzleState} (ha : nodeKey a = nodeKey a2)
    (hb : nodeKey b = nodeKey b2) : CompareState a b = CompareState a2 b2 := by
  simp only [nodeKey, Prod.mk.injEq] at ha hb
  obtain ⟨_, _, _, _, ga, ha⟩ := ha
  obtain ⟨_, _, _, _, gb, hb⟩ := hb
  unfold CompareState PuzzleState.getFScore
  rw [ga, ha, gb, hb]

theorem bestOf_max_aux : ∀ (l : List PuzzleState) (init : PuzzleState),
    CompareState (l.foldl (fun best y => if CompareState best y then y else best) init) init =
        false ∧
      ∀ y ∈ l, CompareState
        (l.foldl (fun best y => if CompareState best y then y else best) init) y = false
  | [], init => ⟨compareState_irrefl init, fun y h => absurd h (List.not_mem_nil _)⟩
  | a :: l, init => by
    rw [List.foldl_cons]
    obtain ⟨h1, h2⟩ := bestOf_max_aux l (if CompareState init a then a else init)
    by_cases hc : CompareState init a = true
    · rw [if_pos hc] at h1 h2 ⊢
      rw [compareState_iff] at hc
      rw [compareState_false_iff] at h1
      refine ⟨?_, ?_⟩
      · rw [compareState_false_iff]
        omega
      · intro y hy
        rcases List.mem_cons.1 hy with e | e
        · rw [e, compareState_false_iff]
          exact h1
        · exact h2 y e
    · rw [if_neg hc] at h1 h2 ⊢
      rw [Bool.not_eq_true, compareState_false_iff] at hc
      refine ⟨h1, ?_⟩
      intro y hy
      rcases List.mem_cons.1 hy with e | e
      · rw [compareState_false_iff] at h1
        rw [e, compareState_false_iff]
        omega
      · exact h2 y e

theorem bestOf_max {openSet : List PuzzleState} :
    ∀ y ∈ openSet, CompareState (bestOf openSet) y = false := by
  unfold bestOf
  exact (bestOf_max_aux openSet _).2

theorem mem_topCandidates {l : List PuzzleState} {i : Nat} :
    i ∈ topCandidates l ↔ ∃ h : i < l.length, ∀ y ∈ l, CompareState l[i] y = false := by
  unfold topCandidates
  simp only [List.mem_map, List.mem_filter]
  constructor
  · rintro ⟨⟨k, x⟩, ⟨hp, hc⟩, rfl⟩
    rw [List.mk_mem_enum_iff_getElem?] at hp
    obtain ⟨hk, hx⟩ := List.getElem?_eq_some_iff.1 hp
    refine ⟨hk, ?_⟩
    intro y hy
    simp only [Bool.not_eq_true'] at hc
    have hb := bestOf_max y hy
    rw [hx]
    rw [compareState_false_iff] at hc hb ⊢
    omega
  · rintro ⟨hk, hall⟩
    have hne : l ≠ [] := by
      intro e
      subst e
      exact absurd hk (by simp)
    refine ⟨(i, l[i]), ⟨?_, ?_⟩, rfl⟩
    · rw [List.mk_mem_enum_iff_getElem?, List.getElem?_eq_getElem hk]
    · simp only [Bool.not_eq_true']
      exact hall _ (bestOf_mem hne)

theorem top_match {l1 l2 : List PuzzleState} (hp : (l1.map nodeKey).Perm (l2.map nodeKey))
    {i : Nat} (hi : i ∈ topCandidates l1) :
    ∃ j ∈ topCandidates l2, ∃ (h1 : i < l1.length) (h2 : j < l2.length),
      nodeKey l1[i] = nodeKey l2[j] := by
  obtain ⟨h1, hall⟩ := mem_topCandidates.1 hi
  have hmem : nodeKey l1[i] ∈ l2.map nodeKey :=
    hp.mem_iff.1 (List.mem_map_of_mem _ (List.getElem_mem _))
  obtain ⟨y, hy, hky⟩ := List.mem_map.1 hmem
  obtain ⟨j, h2, hj⟩ := List.mem_iff_getElem.1 hy
  refine ⟨j, mem_topCandidates.2 ⟨h2, ?_⟩, h1, h2, by rw [hj, hky]⟩
  intro z hz
  have hz2 : nodeKey z ∈ l1.map nodeKey := hp.mem_iff.2 (List.mem_map_of_mem _ hz)
  obtain ⟨w, hw, hkw⟩ := List.mem_map.1 hz2
  rw [hj, compareState_key hky hkw.symm]
  exact hall w hw

theorem getElem_cons_eraseIdx_perm {α : Type} :
    ∀ (l : List α) (i : Nat) (h : i < l.length), (l[i] :: l.eraseIdx i).Perm l
  | [], i, h => absurd h (by simp)
  | a :: t, 0, _ => List.Perm.refl _
  | a :: t, i + 1, h => by
    have hi : i < t.length := by simpa using h
    have ih := getElem_cons_eraseIdx_perm t i hi
    simp only [List.getElem_cons_succ, List.eraseIdx_cons_succ]
    exact (List.Perm.swap a t[i] (t.eraseIdx i)).trans (ih.cons a)

theorem eraseIdx_perm_key {l1 l2 : List PuzzleState}
    (hp : (l1.map nodeKey).Perm (l2.map nodeKey)) {i j : Nat} (h1 : i < l1.length)
    (h2 : j < l2.length) (hk : nodeKey l1[i] = nodeKey l2[j]) :
    ((l1.eraseIdx i).map nodeKey).Perm ((l2.eraseIdx j).map nodeKey) := by
  have p1 := (getElem_cons_eraseIdx_perm l1 i h1).map nodeKey
  have p2 := (getElem_cons_eraseIdx_perm l2 j h2).map nodeKey
  rw [List.map_cons] at p1 p2
  rw [hk] at p1
  exact (p1.trans (hp.trans p2.symm)).cons_inv

end NPuzzle

namespace NPuzzle

/-! ## One iteration of the loop from two equivalent states -/

theorem nodeKey_toString {x y : PuzzleState} (h : nodeKey x = nodeKey y) :
    x.toString = y.toString := by
  simp only [nodeKey, Prod.mk.injEq] at h
  unfold PuzzleState.toString
  rw [h.2.1]

theorem setInsert_perm {s1 s2 : List (List Char)} (h : s1.Perm s2) (k : List Char) :
    (setInsert s1 k).Perm (setInsert s2 k) := by
  unfold setInsert
  by_cases hk : k ∈ s1
  · rw [if_pos hk, if_pos (h.mem_iff.1 hk)]
    exact h
  · rw [if_neg hk, if_neg (fun e => hk (h.mem_iff.2 e))]
    exact h.cons k

theorem perm_erase_key {s1 s2 : List (List Char)} (h : s1.Perm s2) (k : List Char) :
    (s1.erase k).Perm (s2.erase k) := by
  induction h with
  | nil => exact List.Perm.refl _
  | cons x _ ih =>
    rw [List.erase_cons, List.erase_cons]
    split_ifs
    · assumption
    · exact ih.cons x
  | swap x y l =>
    simp only [List.erase_cons]
    split_ifs with h1 h2 h2
    · rw [eq_of_beq h1, eq_of_beq h2]
    · exact List.Perm.refl _
    · exact List.Perm.refl _
    · exact List.Perm.swap _ _ _
  | trans _ _ ih1 ih2 => exact ih1.trans ih2

theorem afterPop_equiv {a b : SearchState} (h : StateEquiv a b) {i j : Nat}
    (h1 : i < a.openSet.length) (h2 : j < b.openSet.length)
    (hk : nodeKey a.openSet[i] = nodeKey b.openSet[j]) :
    StateEquiv (afterPop a i a.openSet[i]) (afterPop b j b.openSet[j]) := by
  unfold afterPop StateEquiv
  simp only []
  rw [nodeKey_toString hk]
  exact ⟨eraseIdx_perm_key h.1 h1 h2 hk, setInsert_perm h.2.1 _, perm_erase_key h.2.2 _⟩

theorem pushStep_equiv {a b : SearchState} (h : StateEquiv a b) {x y : PuzzleState}
    (hk : nodeKey x = nodeKey y) :
    StateEquiv (pushNeighbors a [x]) (pushNeighbors b [y]) := by
  rw [pushNeighbors_single, pushNeighbors_single, nodeKey_toString hk]
  by_cases hc : y.toString ∈ a.closedSet
  · rw [if_pos hc, if_pos (h.2.1.mem_iff.1 hc)]
    exact h
  · rw [if_neg hc, if_neg (fun e => hc (h.2.1.mem_iff.2 e))]
    by_cases ho : y.toString ∈ a.inOpenSet
    · rw [if_pos ho, if_pos (h.2.2.mem_iff.1 ho)]
      exact h
    · rw [if_neg ho, if_neg (fun e => ho (h.2.2.mem_iff.2 e))]
      refine ⟨?_, h.2.1, setInsert_perm h.2.2 _⟩
      simp only [List.map_append, List.map_cons, List.map_nil, hk]
      exact h.1.append_right _

theorem pushNeighbors_equiv : ∀ (l1 l2 : List PuzzleState) (a b : SearchState),
    l1.map nodeKey = l2.map nodeKey → StateEquiv a b →
      StateEquiv (pushNeighbors a l1) (pushNeighbors b l2)
  | [], [], a, b, _, h => h
  | [], y :: l2, _, _, hl, _ => by simp at hl
  | x :: l1, [], _, _, hl, _ => by simp at hl
  | x :: l1, y :: l2, a, b, hl, h => by
    simp only [List.map_cons, List.cons.injEq] at hl
    rw [pushNeighbors_cons, pushNeighbors_cons a]
    exact pushNeighbors_equiv l1 l2 _ _ hl.2 (pushStep_equiv h hl.1)

theorem generateNeighbors_key {x y : PuzzleState} (hk : nodeKey x = nodeKey y)
    (goalPos : List (Int × (Nat × Nat))) (goal : Board) (ch : Int) :
    (generateNeighbors x goalPos goal ch).map nodeKey =
      (generateNeighbors y goalPos goal ch).map nodeKey := by
  have hx : ∀ z : PuzzleState, (generateNeighbors z goalPos goal ch).map nodeKey =
      (directions.filter (fun d => decide
        (0 ≤ z.emptyPos.1 + d.1.1 ∧ z.emptyPos.1 + d.1.1 < (z.size : Int) ∧
         0 ≤ z.emptyPos.2 + d.1.2 ∧ z.emptyPos.2 + d.1.2 < (z.size : Int)))).map
        (fun d => (false,
          swapCells z.board z.emptyPos.1.toNat z.emptyPos.2.toNat
            (z.emptyPos.1 + d.1.1).toNat (z.emptyPos.2 + d.1.2).toNat,
          z.size, (z.emptyPos.1 + d.1.1, z.emptyPos.2 + d.1.2), z.g + 1,
          heuristic ch
            (swapCells z.board z.emptyPos.1.toNat z.emptyPos.2.toNat
              (z.emptyPos.1 + d.1.1).toNat (z.emptyPos.2 + d.1.2).toNat)
            goalPos goal)) := by
    intro z
    rw [generateNeighbors_eq, List.map_map]
    rfl
  simp only [nodeKey, Prod.mk.injEq] at hk
  obtain ⟨_, hb, hs, he, hg, _⟩ := hk
  rw [hx x, hx y, hb, hs, he, hg]

theorem stepAt_eq (goalPos : List (Int × (Nat × Nat))) (goal : Board) (ch : Int)
    (st : SearchState) (idx : Nat) :
    stepAt goalPos goal ch st idx =
      match expand goalPos goal ch st idx with
      | Sum.inl result => Sum.inl (resultG result)
      | Sum.inr st2 => Sum.inr st2 := by
  unfold stepAt
  rw [expand_eq]
  cases st.openSet.getD idx PuzzleState.nullptr <;> rfl

theorem step_equiv (goalPos : List (Int × (Nat × Nat))) (goal : Board) (ch : Int)
    {a b : SearchState} (h : StateEquiv a b) {i : Nat} (hi : i ∈ topCandidates a.openSet) :
    ∃ j ∈ topCandidates b.openSet,
      (∃ res1 res2, expand goalPos goal ch a i = Sum.inl res1 ∧
        expand goalPos goal ch b j = Sum.inl res2 ∧ resultG res1 = resultG res2) ∨
      (∃ a2 b2, expand goalPos goal ch a i = Sum.inr a2 ∧
        expand goalPos goal ch b j = Sum.inr b2 ∧ StateEquiv a2 b2) := by
  obtain ⟨j, hj, h1, h2, hk⟩ := top_match h.1 hi
  refine ⟨j, hj, ?_⟩
  rw [expand_eq, expand_eq, expandAt_eq, expandAt_eq, List.getD_eq_getElem _ _ h1,
    List.getD_eq_getElem _ _ h2]
  have hkey := hk
  simp only [nodeKey, Prod.mk.injEq] at hkey
  obtain ⟨hnull, hb, _, _, hg, _⟩ := hkey
  have hgoal : a.openSet[i].isGoal goal = b.openSet[j].isGoal goal := by
    unfold PuzzleState.isGoal
    rw [hb]
  by_cases hc : b.openSet[j].isGoal goal = true
  · left
    rw [hgoal, if_pos hc, if_pos hc]
    refine ⟨_, _, rfl, rfl, ?_⟩
    unfold resultG
    simp only []
    rw [hnull, hg]
  · right
    rw [hgoal, if_neg hc, if_neg hc]
    exact ⟨_, _, rfl, rfl, pushNeighbors_equiv _ _ _ _ (generateNeighbors_key hk goalPos goal ch)
      (afterPop_equiv h h1 h2 hk)⟩

end NPuzzle

namespace NPuzzle

/-! ## Every run of the search is one of the merged runs -/

theorem stateEquiv_isEmpty {a b : SearchState} (h : StateEquiv a b) :
    a.openSet.isEmpty = b.openSet.isEmpty := by
  have hl := h.1.length_eq
  simp only [List.length_map] at hl
  cases ha : a.openSet with
  | nil =>
    rw [ha] at hl
    rw [List.eq_nil_of_length_eq_zero hl.symm]
  | cons x l =>
    rw [ha] at hl
    cases hb : b.openSet with
    | nil => rw [hb] at hl; simp at hl
    | cons y l2 => rfl

theorem stepAt_mem_stepAll (goalPos : List (Int × (Nat × Nat))) (goal : Board) (ch : Int)
    {sts : List SearchState} {s : SearchState} (hs : s ∈ sts)
    (hne : s.openSet.isEmpty = false) {j : Nat} (hj : j ∈ topCandidates s.openSet) :
    stepAt goalPos goal ch s j ∈ stepAll goalPos goal ch sts := by
  unfold stepAll
  rw [List.mem_flatMap]
  refine ⟨s, hs, ?_⟩
  rw [hne]
  simp only [Bool.false_eq_true, if_false]
  exact List.mem_map_of_mem _ hj

/-- Every run of the search loop from a state that is equivalent to one of the states of
the list is one of the merged runs. -/
theorem levelRuns_sound (goalPos : List (Int × (Nat × Nat))) (goal : Board) (ch : Int) :
    ∀ (fuel : Nat) (sts : List SearchState) (st : SearchState) (tie : Nat → Nat),
      (∃ s ∈ sts, StateEquiv st s) →
      (aStarLoop goalPos goal ch fuel tie st).map resultG ∈ levelRuns goalPos goal ch fuel sts
  | 0, sts, st, tie, h => by
    obtain ⟨s, hs, _⟩ := h
    unfold aStarLoop levelRuns
    have hne : sts.isEmpty = false := by
      cases sts with
      | nil => exact absurd hs (List.not_mem_nil _)
      | cons x l => rfl
    rw [hne]
    simp
  | fuel + 1, sts, st, tie, h => by
    obtain ⟨s, hs, he⟩ := h
    unfold aStarLoop levelRuns
    rw [List.mem_append]
    by_cases hempty : st.openSet.isEmpty = true
    · rw [if_pos hempty]
      left
      rw [List.mem_filterMap]
      refine ⟨Sum.inl none, ?_, ?_⟩
      · unfold stepAll
        rw [List.mem_flatMap]
        refine ⟨s, hs, ?_⟩
        rw [← stateEquiv_isEmpty he, if_pos hempty]
        exact List.mem_singleton_self _
      · simp [resultG, PuzzleState.isNull]
    · rw [if_neg hempty]
      have hne : st.openSet ≠ [] := fun e => hempty (List.isEmpty_iff.2 e)
      have hsne : s.openSet.isEmpty = false := by
        rw [← stateEquiv_isEmpty he]
        simpa using hempty
      obtain ⟨j, hj, hstep⟩ := step_equiv goalPos goal ch he (topIndex_mem hne (tie 0))
      have hmem := stepAt_mem_stepAll goalPos goal ch hs hsne hj
      rw [stepAt_eq] at hmem
      rcases hstep with ⟨res1, res2, e1, e2, hres⟩ | ⟨a2, b2, e1, e2, hequiv⟩
      · rw [e1]
        rw [e2] at hmem
        left
        rw [List.mem_filterMap]
        exact ⟨_, hmem, by simp [hres]⟩
      · rw [e1]
        rw [e2] at hmem
        right
        have hb2 : b2 ∈ (stepAll goalPos goal ch sts).filterMap
            (fun o => match o with
              | Sum.inl _ => none
              | Sum.inr st2 => some st2) := by
          rw [List.mem_filterMap]
          exact ⟨_, hmem, rfl⟩
        obtain ⟨r, hr, her⟩ := (mergeStates_spec _ []).2 b2 hb2
        exact levelRuns_sound goalPos goal ch fuel _ a2 (fun k => tie (k + 1))
          ⟨r, hr, stateEquiv_trans hequiv her⟩

/-- When all merged runs return a node with `g = v`, every run of the search does so. -/
theorem runs_merged_eq {goalPos : List (Int × (Nat × Nat))} {goal : Board} {ch : Int}
    {fuel : Nat} {st : SearchState} {v : Int}
    (h : ∀ x ∈ levelRuns goalPos goal ch fuel [st], x = some (some v)) (tie : Nat → Nat) :
    ∃ node totalOpened maxInMemory,
      aStarLoop goalPos goal ch fuel tie st = some (node, totalOpened, maxInMemory) ∧
      node ≠ PuzzleState.nullptr ∧ node.g = v :=
  result_of_resultG (h _ (levelRuns_sound goalPos goal ch fuel [st] st tie
    ⟨st, List.mem_singleton_self _, stateEquiv_refl st⟩))

end NPuzzle

namespace NPuzzle

/-! ## An instance with the goal of the program, over all ways of resolving ties -/

set_option maxRecDepth 1000000 in
set_option maxHeartbeats 40000000 in
/-- With the Manhattan heuristic every run on start `[[1,4,6],[0,8,3],[7,5,2]]`, goal
`[[1,2,3],[8,0,4],[7,6,5]]` returns a node with `g = 15`. -/
theorem runs_manhattan_fifteen (tie : Nat → Nat) :
    ∃ node totalOpened maxInMemory,
      aStarSearch 60 tie [[1, 4, 6], [0, 8, 3], [7, 5, 2]] [[1, 2, 3], [8, 0, 4], [7, 6, 5]] 1 =
        some (node, totalOpened, maxInMemory) ∧
      node ≠ PuzzleState.nullptr ∧ node.g = 15 :=
  runs_merged_eq (by decide!) tie

end NPuzzle

namespace NPuzzle

/-- C1 (failing input) — On the start board `[[1,4,6],[0,8,3],[7,5,2]]` with the goal
`generateGoal(3) = [[1,2,3],[8,0,4],[7,6,5]]`, a pair of boards that `isSolvable` accepts,
thirteen legal slides (`RRULDRDLURULD`) turn start into goal, and with the default Manhattan
heuristic (choice 1) every run of `aStarSearch`, however ties in the open queue are resolved,
returns a node with `g = 15`: the `g` of the returned node is not the minimum number of
slides. -/
theorem aStarSearch_not_optimal :
    generateGoal 3 = [[1, 2, 3], [8, 0, 4], [7, 6, 5]] ∧
    ValidBoard 3 [[1, 4, 6], [0, 8, 3], [7, 5, 2]] ∧
    ValidBoard 3 [[1, 2, 3], [8, 0, 4], [7, 6, 5]] ∧
    SameValues [[1, 4, 6], [0, 8, 3], [7, 5, 2]] [[1, 2, 3], [8, 0, 4], [7, 6, 5]] ∧
    isSolvable [[1, 4, 6], [0, 8, 3], [7, 5, 2]] [[1, 2, 3], [8, 0, 4], [7, 6, 5]] = true ∧
    SlidePath 3 13 [[1, 4, 6], [0, 8, 3], [7, 5, 2]] [[1, 2, 3], [8, 0, 4], [7, 6, 5]] ∧
    (∀ tie : Nat → Nat, ∃ node totalOpened maxInMemory,
      aStarSearch 60 tie [[1, 4, 6], [0, 8, 3], [7, 5, 2]] [[1, 2, 3], [8, 0, 4], [7, 6, 5]] 1 =
        some (node, totalOpened, maxInMemory) ∧
      node ≠ PuzzleState.nullptr ∧ node.g = 15) := by
  refine ⟨by decide, ⟨⟨rfl, by decide⟩, by decide, by decide⟩,
    ⟨⟨rfl, by decide⟩, by decide, by decide⟩, ?_, by decide, ?_, ?_⟩
  · intro v
    exact List.Perm.mem_iff (by decide)
  · exact @slidePath_of_replay 3
      ['R', 'R', 'U', 'L', 'D', 'R', 'D', 'L', 'U', 'R', 'U', 'L', 'D'] _ _ (by decide)
  · exact runs_manhattan_fifteen

/-- What `aStarSearch` returns on valid boards, whenever it returns. -/
theorem aStarSearch_sound {n : Nat} {start goal : Board} (hstart : ValidBoard n start)
    (hgoal : ValidBoard n goal) {ch : Int} {tie : Nat → Nat} {fuel : Nat}
    {r : PuzzleState × Int × Int} (h : aStarSearch fuel tie start goal ch = some r) :
    (r.1 = PuzzleState.nullptr ∧ ¬ Reachable n start goal) ∨
      (GoodNode n start r.1 ∧ r.1.board = goal) :=
  aStarLoop_sound hstart hgoal.1 _ ch fuel tie _ r (inv_initial goal ch hstart) h

/-- C2 — Completeness and failure of `aStarSearch`: for every pair of `n × n` boards start
and goal with distinct values and one 0, every heuristic choice and every way of resolving
ties, the search loop terminates (`(n*n)! + 1` iterations are enough), and the node it
returns is non-null if and only if goal is reachable from start by legal blank slides;
otherwise the result is the null node with the two counters. -/
theorem aStarSearch_complete (n : Nat) (start goal : Board) (hstart : ValidBoard n start)
    (hgoal : ValidBoard n goal) (heuristicChoice : Int) (tie : Nat → Nat) (fuel : Nat)
    (hfuel : (n * n).factorial < fuel) :
    ∃ result, aStarSearch fuel tie start goal heuristicChoice = some result ∧
      (result.1 ≠ PuzzleState.nullptr ↔ Reachable n start goal) := by
  have hinv := inv_initial goal heuristicChoice hstart
  have hlen : (start.flatten.permutations).length <
      (initialState start goal heuristicChoice).closedSet.length + fuel := by
    rw [List.length_permutations, flatten_length hstart.1]
    show _ < 0 + fuel
    omega
  obtain ⟨r, hr⟩ := aStarLoop_terminates hstart (buildGoalPositions goal) heuristicChoice fuel
    tie _ hinv hlen
  refine ⟨r, hr, ?_⟩
  rcases aStarSearch_sound hstart hgoal hr with h | h
  · exact ⟨fun hne => absurd h.1 hne, fun hreach => absurd hreach h.2⟩
  · exact ⟨fun _ => h.2 ▸ goodNode_reachable h.1, fun _ => goodNode_ne_null h.1⟩

/-- C2 (witness) — the hypotheses of `aStarSearch_complete` hold on a 2 × 2 instance. -/
theorem aStarSearch_complete_witness :
    ∃ result, aStarSearch 25 (fun _ => 0) [[1, 2], [0, 3]] [[1, 2], [3, 0]] 1 = some result ∧
      (result.1 ≠ PuzzleState.nullptr ↔ Reachable 2 [[1, 2], [0, 3]] [[1, 2], [3, 0]]) :=
  aStarSearch_complete 2 [[1, 2], [0, 3]] [[1, 2], [3, 0]]
    ⟨⟨rfl, by decide⟩, by decide, by decide⟩ ⟨⟨rfl, by decide⟩, by decide, by decide⟩
    1 (fun _ => 0) 25 (by decide)

/-- C3 — Round trip of the returned path: for every solution node returned by `aStarSearch` on
valid boards, the boards met when walking the parent links to the root, reversed, start with
start and end with goal; the move string has length `g`, there is one more board than moves,
the `i`-th symbol (U, D, L, R: the blank moves to row-1, row+1, col-1, col+1) is a legal slide
of the blank that turns the `i`-th board into the next one, and replaying the move string from
start yields goal. -/
theorem solutionPath_round_trip (n : Nat) (start goal : Board) (hstart : ValidBoard n start)
    (hgoal : ValidBoard n goal) (heuristicChoice : Int) (tie : Nat → Nat) (fuel : Nat)
    (node : PuzzleState) (totalOpened maxInMemory : Int)
    (hres : aStarSearch fuel tie start goal heuristicChoice =
      some (node, totalOpened, maxInMemory))
    (hnode : node ≠ PuzzleState.nullptr) :
    ((solutionPath node).map PuzzleState.board).head? = some start ∧
    ((solutionPath node).map PuzzleState.board).getLast? = some goal ∧
    ((node.moves.length : Nat) : Int) = node.g ∧
    ((solutionPath node).map PuzzleState.board).length = node.moves.length + 1 ∧
    (∀ i, i < node.moves.length → ∃ d, moveDelta (node.moves.getD i 'U') = some d ∧
      SlideBy n d (((solutionPath node).map PuzzleState.board).getD i [])
        (((solutionPath node).map PuzzleState.board).getD (i + 1) [])) ∧
    Replay n node.moves start goal := by
  rcases aStarSearch_sound hstart hgoal hres with h | h
  · exact absurd h.1 hnode
  · obtain ⟨hgood, hboard⟩ := h
    simp only at hgood hboard
    obtain ⟨k, hk, hlen, hrep⟩ := goodNode_path node hgood
    obtain ⟨c1, c2, c3, c4⟩ := goodNode_chain node hgood
    rw [hboard] at c2 hrep
    exact ⟨c1, c2, by rw [hlen, hk], c3, c4, hrep⟩

set_option maxRecDepth 100000 in
/-- C3 (witness) — the hypotheses of `solutionPath_round_trip` hold on a run that returns a
node with the move string `DR`. -/
theorem solutionPath_round_trip_witness :
    ∃ node : PuzzleState,
      aStarSearch 10 (fun _ => 0) [[1, 2, 3], [4, 0, 6], [7, 5, 8]]
        [[1, 2, 3], [4, 5, 6], [7, 8, 0]] 1 = some (node, 3, 7) ∧
      node.moves = ['D', 'R'] ∧
      ((solutionPath node).map PuzzleState.board).length = node.moves.length + 1 ∧
      Replay 3 node.moves [[1, 2, 3], [4, 0, 6], [7, 5, 8]] [[1, 2, 3], [4, 5, 6], [7, 8, 0]] :=
  ⟨PuzzleState.mk [[1, 2, 3], [4, 5, 6], [7, 8, 0]] 3 (2, 2) 2 0 ['D', 'R']
      (PuzzleState.mk [[1, 2, 3], [4, 5, 6], [7, 0, 8]] 3 (2, 1) 1 1 ['D']
        (PuzzleState.mk [[1, 2, 3], [4, 0, 6], [7, 5, 8]] 3 (1, 1) 0 2 [] PuzzleState.nullptr)),
    by rfl, rfl,
    (solutionPath_round_trip 3 [[1, 2, 3], [4, 0, 6], [7, 5, 8]] [[1, 2, 3], [4, 5, 6], [7, 8, 0]]
      ⟨⟨rfl, by decide⟩, by decide, by decide⟩ ⟨⟨rfl, by decide⟩, by decide, by decide⟩
      1 (fun _ => 0) 10 _ 3 7 (by rfl) (by simp)).2.2.2.1,
    (solutionPath_round_trip 3 [[1, 2, 3], [4, 0, 6], [7, 5, 8]] [[1, 2, 3], [4, 5, 6], [7, 8, 0]]
      ⟨⟨rfl, by decide⟩, by decide, by decide⟩ ⟨⟨rfl, by decide⟩, by decide, by decide⟩
      1 (fun _ => 0) 10 _ 3 7 (by rfl) (by simp)).2.2.2.2.2⟩

end NPuzzle

namespace NPuzzle

/-! ## Inversions of a list -/

theorem crossCount_nil_left (B : List Int) : crossCount [] B = 0 := rfl

theorem crossCount_cons_left (a : Int) (A B : List Int) :
    crossCount (a :: A) B = B.countP (fun b => decide (a > b)) + crossCount A B := by
  simp [crossCount]

theorem crossCount_append_left (A A2 B : List Int) :
    crossCount (A ++ A2) B = crossCount A B + crossCount A2 B := by
  simp [crossCount, List.map_append, List.sum_append]

theorem crossCount_append_right (A B B2 : List Int) :
    crossCount A (B ++ B2) = crossCount A B + crossCount A B2 := by
  induction A with
  | nil => rfl
  | cons a A ih =>
    rw [crossCount_cons_left, crossCount_cons_left, crossCount_cons_left, ih, List.countP_append]
    omega

theorem invCount_append (A B : List Int) :
    invCount (A ++ B) = invCount A + invCount B + crossCount A B := by
  induction A with
  | nil => simp [invCount, crossCount]
  | cons a A ih =>
    rw [List.cons_append, invCount, invCount, ih, crossCount_cons_left, List.countP_append]
    omega

theorem crossCount_singleton_right (M : List Int) (t : Int) :
    crossCount M [t] = M.countP (fun m => decide (m > t)) := by
  induction M with
  | nil => rfl
  | cons m M ih =>
    rw [crossCount_cons_left, ih, List.countP_cons]
    by_cases h : m > t
    · have d1 : decide (m > t) = true := decide_eq_true h
      simp only [List.countP_cons, d1, if_true, List.countP_nil]
      omega
    · have d1 : decide (m > t) = false := decide_eq_false h
      simp only [List.countP_cons, d1, Bool.false_eq_true, if_false, List.countP_nil]
      omega

theorem crossCount_singleton_left (M : List Int) (t : Int) :
    crossCount [t] M = M.countP (fun m => decide (t > m)) := by
  simp [crossCount]

theorem crossCount_swap (M : List Int) (t : Int) (h : t ∉ M) :
    crossCount M [t] + crossCount [t] M = M.length := by
  rw [crossCount_singleton_right, crossCount_singleton_left]
  induction M with
  | nil => rfl
  | cons m M ih =>
    have hm : m ≠ t := fun e => h (e ▸ List.mem_cons_self _ _)
    have ih2 := ih (fun hm2 => h (List.mem_cons_of_mem _ hm2))
    rw [List.length_cons]
    rcases lt_or_gt_of_ne hm with h1 | h1
    · have d1 : decide (m > t) = false := decide_eq_false (by omega)
      have d2 : decide (t > m) = true := decide_eq_true h1
      simp only [List.countP_cons, d1, d2, if_true, Bool.false_eq_true, if_false]
      omega
    · have d1 : decide (m > t) = true := decide_eq_true h1
      have d2 : decide (t > m) = false := decide_eq_false (by omega)
      simp only [List.countP_cons, d1, d2, if_true, Bool.false_eq_true, if_false]
      omega

/-- Moving one element across a block `M` that does not contain it changes the number of
inversions by the parity of the length of `M`. -/
theorem invCount_move (X M Y : List Int) (t : Int) (h : t ∉ M) :
    (invCount (X ++ ([t] ++ (M ++ Y))) + invCount (X ++ (M ++ ([t] ++ Y))) + M.length) % 2 = 0 := by
  have e1 : X ++ ([t] ++ (M ++ Y)) = X ++ (([t] ++ M) ++ Y) := by simp
  have e2 : X ++ (M ++ ([t] ++ Y)) = X ++ ((M ++ [t]) ++ Y) := by simp
  rw [e1, e2]
  have hs := crossCount_swap M t h
  simp only [invCount_append, crossCount_append_left, crossCount_append_right]
  have : invCount [t] = 0 := rfl
  omega

/-- Exchanging two different elements changes the parity of the number of inversions. -/
theorem invCount_transpose (X M Y : List Int) (a b : Int) (hab : a ≠ b) (ha : a ∉ M)
    (hb : b ∉ M) :
    (invCount (X ++ ([a] ++ (M ++ ([b] ++ Y)))) + invCount (X ++ ([b] ++ (M ++ ([a] ++ Y))))) % 2
      = 1 := by
  -- move `b` to the left across `a :: M`, then `a` to the right across `M`
  have h1 := invCount_move X ([a] ++ M) Y b (by
    simp only [List.singleton_append, List.mem_cons, not_or]
    exact ⟨fun e => hab e.symm, hb⟩)
  have h2 := invCount_move (X ++ [b]) M Y a ha
  have e1 : X ++ (([a] ++ M) ++ ([b] ++ Y)) = X ++ ([a] ++ (M ++ ([b] ++ Y))) := by simp
  have e2 : X ++ ([b] ++ (([a] ++ M) ++ Y)) = (X ++ [b]) ++ ([a] ++ (M ++ Y)) := by simp
  have e3 : (X ++ [b]) ++ (M ++ ([a] ++ Y)) = X ++ ([b] ++ (M ++ ([a] ++ Y))) := by simp
  rw [e1, e2] at h1
  rw [e3] at h2
  have hl : ([a] ++ M).length = M.length + 1 := by simp
  rw [hl] at h1
  omega

theorem invCount_map_move (g : Int → Int) (X M Y : List Int) (t : Int)
    (h : g t ∉ M.map g) :
    (invCount ((X ++ ([t] ++ (M ++ Y))).map g) + invCount ((X ++ (M ++ ([t] ++ Y))).map g)
      + M.length) % 2 = 0 := by
  have := invCount_move (X.map g) (M.map g) (Y.map g) (g t) h
  simpa using this

theorem invCount_map_transpose (g : Int → Int) (X M Y : List Int) (a b : Int)
    (hab : g a ≠ g b) (ha : g a ∉ M.map g) (hb : g b ∉ M.map g) :
    (invCount ((X ++ ([a] ++ (M ++ ([b] ++ Y)))).map g) +
      invCount ((X ++ ([b] ++ (M ++ ([a] ++ Y)))).map g)) % 2 = 1 := by
  have := invCount_transpose (X.map g) (M.map g) (Y.map g) (g a) (g b) hab ha hb
  simpa using this

end NPuzzle

namespace NPuzzle

/-! ## The loops of `isSolvable` -/

theorem foldl_nested {α β σ : Type} (f : σ → α → β → σ) (g : α → List β) (l : List α)
    (a : σ) :
    l.foldl (fun acc i => (g i).foldl (fun acc j => f acc i j) acc) a =
      (l.flatMap (fun i => (g i).map (fun j => (i, j)))).foldl (fun acc p => f acc p.1 p.2) a := by
  induction l generalizing a with
  | nil => rfl
  | cons i l ih =>
    rw [List.foldl_cons, ih, List.flatMap_cons, List.foldl_append, List.foldl_map]

theorem scan_fst (board goal : Board) (n : Nat) (ps : List (Nat × Nat))
    (acc : List Int × List Int × Int) :
    (ps.foldl (fun (acc : List Int × List Int × Int) p =>
      let acc1 : List Int × List Int × Int :=
        if cell board p.1 p.2 = 0 then (acc.1, acc.2.1, (n : Int) - (p.1 : Int))
        else (acc.1 ++ [cell board p.1 p.2], acc.2.1, acc.2.2)
      if cell goal p.1 p.2 ≠ 0 then (acc1.1, acc1.2.1 ++ [cell goal p.1 p.2], acc1.2.2)
      else acc1) acc).1 =
      acc.1 ++ (ps.map (fun p => cell board p.1 p.2)).filter (fun v => decide (v ≠ 0)) := by
  induction ps generalizing acc with
  | nil => simp
  | cons p ps ih =>
    rw [List.foldl_cons, ih]
    by_cases h1 : cell board p.1 p.2 = 0 <;> by_cases h2 : cell goal p.1 p.2 = 0 <;>
      simp [h1, h2, List.filter_cons]

theorem scan_snd (board goal : Board) (n : Nat) (ps : List (Nat × Nat))
    (acc : List Int × List Int × Int) :
    (ps.foldl (fun (acc : List Int × List Int × Int) p =>
      let acc1 : List Int × List Int × Int :=
        if cell board p.1 p.2 = 0 then (acc.1, acc.2.1, (n : Int) - (p.1 : Int))
        else (acc.1 ++ [cell board p.1 p.2], acc.2.1, acc.2.2)
      if cell goal p.1 p.2 ≠ 0 then (acc1.1, acc1.2.1 ++ [cell goal p.1 p.2], acc1.2.2)
      else acc1) acc).2.1 =
      acc.2.1 ++ (ps.map (fun p => cell goal p.1 p.2)).filter (fun v => decide (v ≠ 0)) := by
  induction ps generalizing acc with
  | nil => simp
  | cons p ps ih =>
    rw [List.foldl_cons, ih]
    by_cases h1 : cell board p.1 p.2 = 0 <;> by_cases h2 : cell goal p.1 p.2 = 0 <;>
      simp [h1, h2, List.filter_cons]

theorem scan_row (board goal : Board) (n r : Nat) (ps : List (Nat × Nat))
    (hrow : ∀ p ∈ ps, cell board p.1 p.2 = 0 → p.1 = r)
    (acc : List Int × List Int × Int) :
    (ps.foldl (fun (acc : List Int × List Int × Int) p =>
      let acc1 : List Int × List Int × Int :=
        if cell board p.1 p.2 = 0 then (acc.1, acc.2.1, (n : Int) - (p.1 : Int))
        else (acc.1 ++ [cell board p.1 p.2], acc.2.1, acc.2.2)
      if cell goal p.1 p.2 ≠ 0 then (acc1.1, acc1.2.1 ++ [cell goal p.1 p.2], acc1.2.2)
      else acc1) acc).2.2 =
      if ∃ p ∈ ps, cell board p.1 p.2 = 0 then (n : Int) - (r : Int) else acc.2.2 := by
  induction ps generalizing acc with
  | nil => simp
  | cons p ps ih =>
    rw [List.foldl_cons, ih (fun q hq => hrow q (List.mem_cons_of_mem _ hq))]
    by_cases hex : ∃ q ∈ ps, cell board q.1 q.2 = 0
    · have hex2 : ∃ q ∈ p :: ps, cell board q.1 q.2 = 0 := by
        obtain ⟨q, hq, hz⟩ := hex
        exact ⟨q, List.mem_cons_of_mem _ hq, hz⟩
      rw [if_pos hex, if_pos hex2]
    · rw [if_neg hex]
      by_cases h1 : cell board p.1 p.2 = 0
      · have hex2 : ∃ q ∈ p :: ps, cell board q.1 q.2 = 0 := ⟨p, List.mem_cons_self _ _, h1⟩
        have hr := hrow p (List.mem_cons_self _ _) h1
        rw [if_pos hex2]
        by_cases h2 : cell goal p.1 p.2 = 0 <;> simp [h1, h2] <;> rw [hr]
      · have hex2 : ¬ ∃ q ∈ p :: ps, cell board q.1 q.2 = 0 := by
          rintro ⟨q, hq, hz⟩
          rcases List.mem_cons.1 hq with e | hq
          · subst e; exact h1 hz
          · exact hex ⟨q, hq, hz⟩
        rw [if_neg hex2]
        by_cases h2 : cell goal p.1 p.2 = 0 <;> simp [h1, h2]

/-- What the first loop nest of `isSolvable` computes on square boards. -/
theorem solvableScan_eq {n : Nat} {board goal : Board} (hb : ValidBoard n board)
    (hg : IsSquare n goal) {r c : Nat} (hr : r < n) (hc : c < n) (hz : cell board r c = 0) :
    solvableScan board goal =
      (board.flatten.filter (fun v => decide (v ≠ 0)),
       goal.flatten.filter (fun v => decide (v ≠ 0)), (n : Int) - (r : Int)) := by
  unfold solvableScan
  simp only [hb.1.1]
  rw [foldl_nested (fun (acc : List Int × List Int × Int) i j =>
      let acc1 : List Int × List Int × Int :=
        if cell board i j = 0 then (acc.1, acc.2.1, (n : Int) - (i : Int))
        else (acc.1 ++ [cell board i j], acc.2.1, acc.2.2)
      if cell goal i j ≠ 0 then (acc1.1, acc1.2.1 ++ [cell goal i j], acc1.2.2)
      else acc1) (fun _ => List.range n)]
  refine Prod.ext ?_ (Prod.ext ?_ ?_)
  · rw [scan_fst, flatten_eq_cells hb.1]
    simp
  · rw [scan_snd, flatten_eq_cells hg]
    simp
  · rw [scan_row board goal n r _ (fun p hp hzp =>
      (blank_unique hb (mem_positions.1 hp).1 (mem_positions.1 hp).2 hr hc hzp hz).1)]
    rw [if_pos ⟨(r, c), mem_positions.2 ⟨hr, hc⟩, hz⟩]

/-! ### The map `goalIndex` -/

theorem buildGoalIndex_eq (flatGoal : List Int) :
    buildGoalIndex flatGoal =
      ((List.range flatGoal.length).map (fun i => (flatGoal.getD i 0, (i : Int)))).reverse := by
  unfold buildGoalIndex
  have key : ∀ (l : List Nat) (acc : List (Int × Int)),
      l.foldl (fun goalIndex i => (flatGoal.getD i 0, (i : Int)) :: goalIndex) acc =
        (l.map (fun i => (flatGoal.getD i 0, (i : Int)))).reverse ++ acc := by
    intro l
    induction l with
    | nil => intro acc; rfl
    | cons a l ih =>
      intro acc
      rw [List.foldl_cons, ih]
      simp
  rw [key]
  simp

theorem lookup_of_mem {β : Type} {l : List (Int × β)} (hnd : (l.map Prod.fst).Nodup) {k : Int}
    {v : β} (h : (k, v) ∈ l) : l.lookup k = some v := by
  induction l with
  | nil => simp at h
  | cons p l ih =>
    obtain ⟨k2, v2⟩ := p
    rw [List.map_cons, List.nodup_cons] at hnd
    rcases List.mem_cons.1 h with e | hmem
    · simp only [Prod.mk.injEq] at e
      obtain ⟨rfl, rfl⟩ := e
      simp [List.lookup]
    · have hne : k ≠ k2 := by
        intro e
        subst e
        exact hnd.1 (List.mem_map.2 ⟨(k, v), hmem, rfl⟩)
      rw [List.lookup_cons]
      have : (k == k2) = false := by simpa using hne
      rw [this]
      exact ih hnd.2 hmem

theorem lookup_buildGoalIndex {flatGoal : List Int} (hnd : flatGoal.Nodup) {i : Nat}
    (hi : i < flatGoal.length) :
    (buildGoalIndex flatGoal).lookup (flatGoal[i]) = some (i : Int) := by
  apply lookup_of_mem
  · rw [buildGoalIndex_eq, List.map_reverse, List.nodup_reverse, List.map_map]
    have : (List.range flatGoal.length).map
        (Prod.fst ∘ fun i => (flatGoal.getD i 0, (i : Int))) = flatGoal := by
      apply List.ext_getElem (by simp)
      intro j h1 h2
      simp [List.getD_eq_getElem?_getD, List.getElem?_eq_getElem h2]
    rw [this]
    exact hnd
  · rw [buildGoalIndex_eq, List.mem_reverse, List.mem_map]
    exact ⟨i, List.mem_range.2 hi, by simp [List.getD_eq_getElem?_getD, List.getElem?_eq_getElem hi]⟩

/-- The rank is injective on the non-blank values of a goal with distinct values. -/
theorem goalRank_injective {n : Nat} {goal : Board} (hg : ValidBoard n goal) {a b : Int}
    (ha : a ∈ goal.flatten) (hb : b ∈ goal.flatten) (ha0 : a ≠ 0) (hb0 : b ≠ 0)
    (h : goalRank goal a = goalRank goal b) : a = b := by
  have hnd : (goal.flatten.filter (fun v => decide (v ≠ 0))).Nodup := hg.2.1.filter _
  have hma : a ∈ goal.flatten.filter (fun v => decide (v ≠ 0)) :=
    List.mem_filter.2 ⟨ha, by simpa using ha0⟩
  have hmb : b ∈ goal.flatten.filter (fun v => decide (v ≠ 0)) :=
    List.mem_filter.2 ⟨hb, by simpa using hb0⟩
  obtain ⟨i, hi, hia⟩ := List.mem_iff_getElem.1 hma
  obtain ⟨j, hj, hjb⟩ := List.mem_iff_getElem.1 hmb
  unfold goalRank at h
  rw [← hia, ← hjb, lookup_buildGoalIndex hnd hi, lookup_buildGoalIndex hnd hj] at h
  simp only [Option.getD_some, Nat.cast_inj] at h
  subst h
  rw [← hia, ← hjb]

theorem remap_eq (goalIndex : List (Int × Int)) (flatBoard : List Int) :
    remap goalIndex flatBoard = flatBoard.map (fun tile => (goalIndex.lookup tile).getD 0) := by
  unfold remap
  have key : ∀ (l : List Int) (acc : List Int),
      l.foldl (fun remapped tile => remapped ++ [(goalIndex.lookup tile).getD 0]) acc =
        acc ++ l.map (fun tile => (goalIndex.lookup tile).getD 0) := by
    intro l
    induction l with
    | nil => intro acc; simp
    | cons a l ih => intro acc; rw [List.foldl_cons, ih]; simp
  rw [key]
  simp

end NPuzzle

namespace NPuzzle

/-! ### The inversion count -/

theorem foldl_count_int {α : Type} (p : α → Prop) [DecidablePred p] (l : List α) (a : Int) :
    l.foldl (fun acc x => if p x then acc + 1 else acc) a =
      a + ((l.countP (fun x => decide (p x)) : Nat) : Int) := by
  induction l generalizing a with
  | nil => simp
  | cons x l ih =>
    rw [List.foldl_cons, ih, List.countP_cons]
    by_cases h : p x
    · simp [h]; omega
    · simp [h]

theorem foldl_add_int {α : Type} (f : α → Nat) (l : List α) (a : Int) :
    l.foldl (fun acc x => acc + ((f x : Nat) : Int)) a = a + (((l.map f).sum : Nat) : Int) := by
  induction l generalizing a with
  | nil => simp
  | cons x l ih =>
    rw [List.foldl_cons, ih]
    simp
    omega

theorem countP_getD (l : List Int) (p : Int → Bool) :
    (List.range l.length).countP (fun k => p (l.getD k 0)) = l.countP p := by
  have hl : l = (List.range l.length).map (fun k => l.getD k 0) := by
    apply List.ext_getElem (by simp)
    intro j h1 h2
    simp [List.getD_eq_getElem?_getD, List.getElem?_eq_getElem h1]
  conv_rhs => rw [hl]
  rw [List.countP_map]
  rfl

theorem inversions_zero (a : Int) (l : List Int) :
    ((0 :: (List.range l.length).map Nat.succ).filter (fun j => decide (0 + 1 ≤ j))).countP
        (fun j => decide ((a :: l).getD 0 0 > (a :: l).getD j 0)) =
      l.countP (fun b => decide (a > b)) := by
  have hf : (0 :: (List.range l.length).map Nat.succ).filter (fun j => decide (0 + 1 ≤ j)) =
      (List.range l.length).map Nat.succ := by
    rw [List.filter_cons_of_neg (by simp)]
    apply List.filter_eq_self.2
    intro k hk
    obtain ⟨m, _, rfl⟩ := List.mem_map.1 hk
    simp
  rw [hf, List.countP_map, ← countP_getD l (fun b => decide (a > b))]
  rfl

theorem inversions_succ (a : Int) (l : List Int) (i : Nat) :
    ((0 :: (List.range l.length).map Nat.succ).filter (fun j => decide (i + 1 + 1 ≤ j))).countP
        (fun j => decide ((a :: l).getD (i + 1) 0 > (a :: l).getD j 0)) =
      ((List.range l.length).filter (fun j => decide (i + 1 ≤ j))).countP
        (fun j => decide (l.getD i 0 > l.getD j 0)) := by
  have hf : (0 :: (List.range l.length).map Nat.succ).filter (fun j => decide (i + 1 + 1 ≤ j)) =
      ((List.range l.length).filter (fun j => decide (i + 1 ≤ j))).map Nat.succ := by
    rw [List.filter_cons_of_neg (by simp), List.filter_map]
    congr 1
    apply List.filter_congr
    intro k _
    simp
  rw [hf, List.countP_map]
  rfl

theorem inversions_sum (l : List Int) :
    ((List.range l.length).map (fun i =>
      ((List.range l.length).filter (fun j => decide (i + 1 ≤ j))).countP
        (fun j => decide (l.getD i 0 > l.getD j 0)))).sum = invCount l := by
  induction l with
  | nil => rfl
  | cons a l ih =>
    rw [List.length_cons, List.range_succ_eq_map, List.map_cons, List.sum_cons, invCount, ← ih,
      List.map_map]
    congr 1
    · exact inversions_zero a l
    · apply congrArg List.sum
      apply List.map_congr_left
      intro i _
      exact inversions_succ a l i

theorem countInversions_eq (remapped : List Int) :
    countInversions remapped = ((invCount remapped : Nat) : Int) := by
  unfold countInversions
  have inner : ∀ (i : Nat) (acc : Int),
      ((List.range remapped.length).filter (fun j => decide (i + 1 ≤ j))).foldl
        (fun inversions j =>
          if remapped.getD i 0 > remapped.getD j 0 then inversions + 1 else inversions) acc =
      acc + (((((List.range remapped.length).filter (fun j => decide (i + 1 ≤ j))).countP
        (fun j => decide (remapped.getD i 0 > remapped.getD j 0)) : Nat)) : Int) := by
    intro i acc
    exact foldl_count_int (fun j => remapped.getD i 0 > remapped.getD j 0) _ acc
  simp only [inner]
  rw [foldl_add_int (fun i =>
    ((List.range remapped.length).filter (fun j => decide (i + 1 ≤ j))).countP
      (fun j => decide (remapped.getD i 0 > remapped.getD j 0))), inversions_sum]
  simp

/-- The function `isSolvable` on square boards, in terms of the number of inversions of the
ranks of the non-blank cells and of the row `r` of the blank. -/
theorem isSolvable_eq {n : Nat} {board goal : Board} (hb : ValidBoard n board)
    (hg : IsSquare n goal) {r c : Nat} (hr : r < n) (hc : c < n) (hz : cell board r c = 0) :
    isSolvable board goal =
      if n % 2 = 1 then
        decide (invCount ((board.flatten.filter (fun v => decide (v ≠ 0))).map (goalRank goal))
          % 2 = 0)
      else
        decide ((invCount ((board.flatten.filter (fun v => decide (v ≠ 0))).map (goalRank goal))
          + (n - r)) % 2 = 1) := by
  unfold isSolvable
  simp only [solvableScan_eq hb hg hr hc hz, hb.1.1, remap_eq, countInversions_eq]
  have hrank : (fun tile => ((buildGoalIndex (goal.flatten.filter
      (fun v => decide (v ≠ 0)))).lookup tile).getD 0) = goalRank goal := rfl
  rw [hrank]
  by_cases hn : n % 2 = 1
  · rw [if_pos hn, if_pos hn]
    congr 1
    apply propext
    constructor <;> intro h <;> omega
  · rw [if_neg hn, if_neg hn]
    congr 1
    apply propext
    constructor <;> intro h <;> omega

end NPuzzle

namespace NPuzzle

/-! ## The cells of a board as one list -/

theorem positions_eq_range (n : Nat) :
    (List.range n).flatMap (fun i => (List.range n).map (fun j => (i, j))) =
      (List.range (n * n)).map (fun k => (k / n, k % n)) := by
  have key : ∀ m, (List.range m).flatMap (fun i => (List.range n).map (fun j => (i, j))) =
      (List.range (m * n)).map (fun k => (k / n, k % n)) := by
    intro m
    induction m with
    | zero => simp
    | succ m ih =>
      rw [List.range_succ, List.flatMap_append, ih, Nat.succ_mul, List.range_add, List.map_append]
      congr 1
      simp only [List.flatMap_cons, List.flatMap_nil, List.append_nil, List.map_map]
      apply List.map_congr_left
      intro j hj
      have hjn : j < n := List.mem_range.1 hj
      have hn : 0 < n := by omega
      simp only [Function.comp, Prod.mk.injEq]
      constructor
      · rw [Nat.mul_comm m n, Nat.mul_add_div hn, Nat.div_eq_of_lt hjn]; rfl
      · rw [Nat.mul_comm m n, Nat.mul_add_mod, Nat.mod_eq_of_lt hjn]
  exact key n

theorem flatten_eq_range {n : Nat} {b : Board} (h : IsSquare n b) :
    b.flatten = (List.range (n * n)).map (fun k => cell b (k / n) (k % n)) := by
  rw [flatten_eq_cells h, positions_eq_range, List.map_map]
  rfl

theorem range_split {p q N : Nat} (hpq : p < q) (hq : q < N) :
    List.range N = List.range' 0 p ++ ([p] ++ (List.range' (p + 1) (q - p - 1) ++
      ([q] ++ List.range' (q + 1) (N - q - 1)))) := by
  have e1 : [p] = List.range' p 1 := rfl
  have e2 : [q] = List.range' q 1 := rfl
  rw [List.range_eq_range', e1, e2]
  have h4 := List.range'_append q 1 (N - q - 1) 1
  have h3 := List.range'_append (p + 1) (q - p - 1) (N - q - 1 + 1) 1
  have h2 := List.range'_append p 1 (N - q - 1 + 1 + (q - p - 1)) 1
  have h1 := List.range'_append 0 p (N - q - 1 + 1 + (q - p - 1) + 1) 1
  simp only [Nat.one_mul, Nat.mul_one] at h1 h2 h3 h4
  have a3 : p + 1 + (q - p - 1) = q := by omega
  have a1 : N - q - 1 + 1 + (q - p - 1) + 1 + p = N := by omega
  rw [a3] at h3
  rw [Nat.zero_add] at h1
  rw [a1] at h1
  rw [← h1, ← h2, ← h3, ← h4]

theorem index_div_mod {n r c : Nat} (hc : c < n) : (r * n + c) / n = r ∧ (r * n + c) % n = c := by
  have hn : 0 < n := by omega
  constructor
  · rw [Nat.mul_comm, Nat.mul_add_div hn, Nat.div_eq_of_lt hc]; rfl
  · rw [Nat.mul_comm, Nat.mul_add_mod, Nat.mod_eq_of_lt hc]

theorem index_lt {n r c : Nat} (hr : r < n) (hc : c < n) : r * n + c < n * n := by
  have : r * n + n ≤ n * n := by
    have h1 : (r + 1) * n ≤ n * n := Nat.mul_le_mul_right n hr
    rw [Nat.succ_mul] at h1
    exact h1
  omega

/-- The lists of cells of a board before and after two cells are exchanged. -/
theorem flatten_swap {n : Nat} {b : Board} (h : IsSquare n b) {r c r2 c2 : Nat}
    (hr : r < n) (hc : c < n) (hr2 : r2 < n) (hc2 : c2 < n) (hlt : r * n + c < r2 * n + c2) :
    ∃ X M Y : List Int,
      b.flatten = X ++ ([cell b r c] ++ (M ++ ([cell b r2 c2] ++ Y))) ∧
      (swapCells b r c r2 c2).flatten = X ++ ([cell b r2 c2] ++ (M ++ ([cell b r c] ++ Y))) ∧
      M.length = r2 * n + c2 - (r * n + c) - 1 := by
  have hq := index_lt hr2 hc2
  have hp1 := index_div_mod (r := r) hc
  have hq1 := index_div_mod (r := r2) hc2
  have hsq2 : IsSquare n (swapCells b r c r2 c2) := isSquare_swapCells h _ _ _ _
  have hsame : ∀ k, k ≠ r * n + c → k ≠ r2 * n + c2 →
      cell (swapCells b r c r2 c2) (k / n) (k % n) = cell b (k / n) (k % n) := by
    intro k h1 h2
    rw [cell_swapCells h hr hc hr2 hc2]
    have hn : 0 < n := by omega
    have hk := Nat.div_add_mod k n
    rw [if_neg, if_neg]
    · rintro ⟨e1, e2⟩
      apply h1
      rw [← hk, e1, e2, Nat.mul_comm]
    · rintro ⟨e1, e2⟩
      apply h2
      rw [← hk, e1, e2, Nat.mul_comm]
  refine ⟨(List.range' 0 (r * n + c)).map (fun k => cell b (k / n) (k % n)),
    (List.range' (r * n + c + 1) (r2 * n + c2 - (r * n + c) - 1)).map
      (fun k => cell b (k / n) (k % n)),
    (List.range' (r2 * n + c2 + 1) (n * n - (r2 * n + c2) - 1)).map
      (fun k => cell b (k / n) (k % n)), ?_, ?_, by simp⟩
  · rw [flatten_eq_range h, range_split hlt hq]
    simp only [List.map_append, List.map_cons, List.map_nil, hp1.1, hp1.2, hq1.1, hq1.2]
  · rw [flatten_eq_range hsq2, range_split hlt hq]
    simp only [List.map_append, List.map_cons, List.map_nil, hp1.1, hp1.2, hq1.1, hq1.2]
    have e1 : cell (swapCells b r c r2 c2) r c = cell b r2 c2 := by
      rw [cell_swapCells h hr hc hr2 hc2]
      have hne : ¬ (r = r2 ∧ c = c2) := by
        rintro ⟨e1, e2⟩
        subst e1 e2
        omega
      simp [hne]
    have e2 : cell (swapCells b r c r2 c2) r2 c2 = cell b r c := by
      rw [cell_swapCells h hr hc hr2 hc2]
      simp
    rw [e1, e2]
    congr 1
    · apply List.map_congr_left
      intro k hk
      rw [List.mem_range'_1] at hk
      exact hsame k (by omega) (by omega)
    · congr 1
      congr 1
      · apply List.map_congr_left
        intro k hk
        rw [List.mem_range'_1] at hk
        exact hsame k (by omega) (by omega)
      · congr 1
        apply List.map_congr_left
        intro k hk
        rw [List.mem_range'_1] at hk
        exact hsame k (by omega) (by omega)

theorem swapCells_comm {n : Nat} {b : Board} (h : IsSquare n b) {r c r2 c2 : Nat}
    (hr : r < n) (hc : c < n) (hr2 : r2 < n) (hc2 : c2 < n) :
    swapCells b r c r2 c2 = swapCells b r2 c2 r c := by
  apply board_ext (isSquare_swapCells h _ _ _ _) (isSquare_swapCells h _ _ _ _)
  intro i j _ _
  rw [cell_swapCells h hr hc hr2 hc2, cell_swapCells h hr2 hc2 hr hc]
  by_cases h1 : i = r2 ∧ j = c2
  · by_cases h2 : i = r ∧ j = c
    · obtain ⟨rfl, rfl⟩ := h1
      obtain ⟨rfl, rfl⟩ := h2
      simp
    · have h3 : ¬ (r2 = r ∧ c2 = c) := fun e => h2 ⟨h1.1.trans e.1, h1.2.trans e.2⟩
      obtain ⟨rfl, rfl⟩ := h1
      simp [h3]
  · by_cases h2 : i = r ∧ j = c
    · have h3 : ¬ (r = r2 ∧ c = c2) := fun e => h1 ⟨h2.1.trans e.1, h2.2.trans e.2⟩
      obtain ⟨rfl, rfl⟩ := h2
      simp [h3]
    · simp [h1, h2]

end NPuzzle

namespace NPuzzle

/-! ## Parity of the ranks under exchanges of cells -/

theorem filter_blank_move (X M Y : List Int) (t : Int)
    (hnd : (X ++ ([0] ++ (M ++ ([t] ++ Y)))).Nodup) :
    (X ++ ([0] ++ (M ++ ([t] ++ Y)))).filter (fun v => decide (v ≠ 0)) =
        X.filter (fun v => decide (v ≠ 0)) ++ (M ++ ([t] ++ Y.filter (fun v => decide (v ≠ 0)))) ∧
    (X ++ ([t] ++ (M ++ ([0] ++ Y)))).filter (fun v => decide (v ≠ 0)) =
        X.filter (fun v => decide (v ≠ 0)) ++ ([t] ++ (M ++ Y.filter (fun v => decide (v ≠ 0)))) ∧
    t ∉ M := by
  rw [List.nodup_append] at hnd
  obtain ⟨_, h2, _⟩ := hnd
  simp only [List.singleton_append, List.nodup_cons, List.mem_append, List.mem_cons,
    not_or] at h2
  obtain ⟨⟨h0M, h0t, h0Y⟩, h3⟩ := h2
  rw [List.nodup_append] at h3
  obtain ⟨_, h4, h5⟩ := h3
  have htM : t ∉ M := fun hm => h5 hm (List.mem_cons_self _ _)
  have hM : M.filter (fun v => decide (v ≠ 0)) = M := by
    apply List.filter_eq_self.2
    intro v hv
    have : v ≠ 0 := fun e => h0M (e ▸ hv)
    simpa using this
  have ht : decide (t ≠ 0) = true := by
    have : t ≠ 0 := fun e => h0t e.symm
    simpa using this
  refine ⟨?_, ?_, htM⟩
  · simp only [List.filter_append, List.filter_cons, ht, if_true, hM, List.filter_nil]
    simp
  · simp only [List.filter_append, List.filter_cons, ht, if_true, hM, List.filter_nil]
    simp

theorem rank_move {n : Nat} {goal : Board} (hg : ValidBoard n goal) (X M Y : List Int)
    (t : Int) (hnd : (X ++ ([0] ++ (M ++ ([t] ++ Y)))).Nodup)
    (hsub : ∀ v ∈ X ++ ([0] ++ (M ++ ([t] ++ Y))), v ∈ goal.flatten) :
    (invCount (((X ++ ([0] ++ (M ++ ([t] ++ Y)))).filter (fun v => decide (v ≠ 0))).map
        (goalRank goal)) +
      invCount (((X ++ ([t] ++ (M ++ ([0] ++ Y)))).filter (fun v => decide (v ≠ 0))).map
        (goalRank goal)) + M.length) % 2 = 0 := by
  obtain ⟨e1, e2, htM⟩ := filter_blank_move X M Y t hnd
  rw [e1, e2]
  have hnd2 := hnd
  rw [List.nodup_append] at hnd2
  obtain ⟨_, h2, _⟩ := hnd2
  simp only [List.singleton_append, List.nodup_cons, List.mem_append, List.mem_cons,
    not_or] at h2
  obtain ⟨⟨h0M, h0t, _⟩, _⟩ := h2
  have ht0 : t ≠ 0 := fun e => h0t e.symm
  have htg : t ∈ goal.flatten := hsub t (by simp)
  have hrank : goalRank goal t ∉ M.map (goalRank goal) := by
    intro hm
    obtain ⟨m, hmM, hme⟩ := List.mem_map.1 hm
    have hm0 : m ≠ 0 := fun e => h0M (e ▸ hmM)
    have hmg : m ∈ goal.flatten := hsub m (by simp [hmM])
    have := goalRank_injective hg hmg htg hm0 ht0 hme
    exact htM (this ▸ hmM)
  have := invCount_map_move (goalRank goal) (X.filter (fun v => decide (v ≠ 0))) M
    (Y.filter (fun v => decide (v ≠ 0))) t hrank
  omega

theorem rank_transpose {n : Nat} {goal : Board} (hg : ValidBoard n goal) (X M Y : List Int)
    (a b : Int) (ha0 : a ≠ 0) (hb0 : b ≠ 0)
    (hnd : (X ++ ([a] ++ (M ++ ([b] ++ Y)))).Nodup)
    (hsub : ∀ v ∈ X ++ ([a] ++ (M ++ ([b] ++ Y))), v ∈ goal.flatten) :
    (invCount (((X ++ ([a] ++ (M ++ ([b] ++ Y)))).filter (fun v => decide (v ≠ 0))).map
        (goalRank goal)) +
      invCount (((X ++ ([b] ++ (M ++ ([a] ++ Y)))).filter (fun v => decide (v ≠ 0))).map
        (goalRank goal))) % 2 = 1 := by
  have hnd2 := hnd
  rw [List.nodup_append] at hnd2
  obtain ⟨_, h2, _⟩ := hnd2
  simp only [List.singleton_append, List.nodup_cons, List.mem_append, List.mem_cons,
    not_or] at h2
  obtain ⟨⟨haM, hab, _⟩, h3⟩ := h2
  rw [List.nodup_append] at h3
  obtain ⟨_, _, h5⟩ := h3
  have hbM : b ∉ M := fun hm => h5 hm (List.mem_cons_self _ _)
  have hda : decide (a ≠ 0) = true := by simpa using ha0
  have hdb : decide (b ≠ 0) = true := by simpa using hb0
  have e1 : (X ++ ([a] ++ (M ++ ([b] ++ Y)))).filter (fun v => decide (v ≠ 0)) =
      X.filter (fun v => decide (v ≠ 0)) ++ ([a] ++ (M.filter (fun v => decide (v ≠ 0)) ++
        ([b] ++ Y.filter (fun v => decide (v ≠ 0))))) := by
    simp only [List.filter_append, List.filter_cons, hda, hdb, if_true, List.filter_nil]
  have e2 : (X ++ ([b] ++ (M ++ ([a] ++ Y)))).filter (fun v => decide (v ≠ 0)) =
      X.filter (fun v => decide (v ≠ 0)) ++ ([b] ++ (M.filter (fun v => decide (v ≠ 0)) ++
        ([a] ++ Y.filter (fun v => decide (v ≠ 0))))) := by
    simp only [List.filter_append, List.filter_cons, hda, hdb, if_true, List.filter_nil]
  rw [e1, e2]
  have hag : a ∈ goal.flatten := hsub a (by simp)
  have hbg : b ∈ goal.flatten := hsub b (by simp)
  have hnotin : ∀ x, x ∈ goal.flatten → x ≠ 0 → x ∉ M →
      goalRank goal x ∉ (M.filter (fun v => decide (v ≠ 0))).map (goalRank goal) := by
    intro x hxg hx0 hxM hm
    obtain ⟨m, hmM, hme⟩ := List.mem_map.1 hm
    rw [List.mem_filter] at hmM
    have hm0 : m ≠ 0 := by simpa using hmM.2
    have hmg : m ∈ goal.flatten := hsub m (by simp [hmM.1])
    have := goalRank_injective hg hmg hxg hm0 hx0 hme
    exact hxM (this ▸ hmM.1)
  exact invCount_map_transpose (goalRank goal) _ _ _ a b
    (fun e => hab (goalRank_injective hg hag hbg ha0 hb0 e))
    (hnotin a hag ha0 haM) (hnotin b hbg hb0 hbM)

end NPuzzle

namespace NPuzzle

/-! ## The verdict of `isSolvable` under exchanges of cells -/

theorem sameValues_sub {a goal : Board} (h : SameValues a goal) :
    ∀ v ∈ a.flatten, v ∈ goal.flatten := fun v hv => (h v).1 hv

/-- The blank, at `(r, c)`, is exchanged with a cell `(r2, c2)` that comes later in
row-major order. -/
theorem isSolvable_swap_lt {n : Nat} {b goal : Board} (hb : ValidBoard n b)
    (hg : ValidBoard n goal) (hsame : SameValues b goal) {r c r2 c2 : Nat}
    (hr : r < n) (hc : c < n) (hr2 : r2 < n) (hc2 : c2 < n) (hz : cell b r c = 0)
    (hlt : r * n + c < r2 * n + c2)
    (hpar : if n % 2 = 1 then (r2 * n + c2 - (r * n + c) - 1) % 2 = 0
      else (r2 * n + c2 - (r * n + c) - 1 + (r2 - r)) % 2 = 0) (hrr : r ≤ r2) :
    isSolvable (swapCells b r c r2 c2) goal = isSolvable b goal := by
  obtain ⟨X, M, Y, e1, e2, hM⟩ := flatten_swap hb.1 hr hc hr2 hc2 hlt
  obtain ⟨hb2, _⟩ := validBoard_swapCells hb hr hc hr2 hc2
  have hz2 : cell (swapCells b r c r2 c2) r2 c2 = 0 := by
    rw [cell_swapCells hb.1 hr hc hr2 hc2]
    simp [hz]
  rw [isSolvable_eq hb hg.1 hr hc hz, isSolvable_eq hb2 hg.1 hr2 hc2 hz2, e1, e2, hz]
  have hnd : (X ++ ([0] ++ (M ++ ([cell b r2 c2] ++ Y)))).Nodup := by
    rw [← hz, ← e1]; exact hb.2.1
  have hsub : ∀ v ∈ X ++ ([0] ++ (M ++ ([cell b r2 c2] ++ Y))), v ∈ goal.flatten := by
    rw [← hz, ← e1]; exact sameValues_sub hsame
  have hmove := rank_move hg X M Y (cell b r2 c2) hnd hsub
  rw [hM] at hmove
  by_cases hn : n % 2 = 1
  · rw [if_pos hn] at hpar
    rw [if_pos hn, if_pos hn]
    congr 1
    apply propext
    constructor <;> intro h <;> omega
  · rw [if_neg hn] at hpar
    rw [if_neg hn, if_neg hn]
    congr 1
    apply propext
    constructor <;> intro h <;> omega

theorem swapCells_involutive {n : Nat} {b : Board} (h : IsSquare n b) {r c r2 c2 : Nat}
    (hr : r < n) (hc : c < n) (hr2 : r2 < n) (hc2 : c2 < n) :
    swapCells (swapCells b r c r2 c2) r2 c2 r c = b := by
  have hsq := isSquare_swapCells h r c r2 c2
  apply board_ext (isSquare_swapCells hsq _ _ _ _) h
  intro i j _ _
  rw [cell_swapCells hsq hr2 hc2 hr hc, cell_swapCells h hr hc hr2 hc2,
    cell_swapCells h hr hc hr2 hc2, cell_swapCells h hr hc hr2 hc2]
  by_cases h1 : i = r ∧ j = c
  · obtain ⟨rfl, rfl⟩ := h1
    by_cases h2 : i = r2 ∧ j = c2
    · obtain ⟨rfl, rfl⟩ := h2
      simp
    · simp [h2]
  · by_cases h2 : i = r2 ∧ j = c2
    · obtain ⟨rfl, rfl⟩ := h2
      have h3 : ¬ (i = r ∧ j = c) := h1
      simp [h3]
      intro e1 e2
      exact absurd ⟨e1.symm, e2.symm⟩ h3
    · simp [h1, h2]

/-- The verdict of `isSolvable` does not change when the blank slides by `d`. -/
theorem isSolvable_slideBy {n : Nat} {b b2 goal : Board} (hb : ValidBoard n b)
    (hg : ValidBoard n goal) (hsame : SameValues b goal) {d : Int × Int}
    (hd : d = (-1, 0) ∨ d = (1, 0) ∨ d = (0, -1) ∨ d = (0, 1)) (hs : SlideBy n d b b2) :
    isSolvable b2 goal = isSolvable b goal := by
  obtain ⟨r, c, hr, hc, hz, h1, h2, h3, h4, rfl⟩ := hs
  have hn : 0 < n := by omega
  rcases hd with rfl | rfl | rfl | rfl
  · -- up: the blank goes to an earlier cell
    simp only at h1 h2 h3 h4 ⊢
    have hr1 : 1 ≤ r := by omega
    have e1 : ((r : Int) + -1).toNat = r - 1 := by omega
    have e2 : ((c : Int) + 0).toNat = c := by omega
    rw [e1, e2]
    have hb2 := validBoard_swapCells hb hr hc (show r - 1 < n by omega) hc
    have hz2 : cell (swapCells b r c (r - 1) c) (r - 1) c = 0 := by
      rw [cell_swapCells hb.1 hr hc (by omega) hc]
      simp [hz]
    have hmul : r * n = (r - 1) * n + n := by
      have : r = (r - 1) + 1 := by omega
      conv_lhs => rw [this, Nat.succ_mul]
    have key := isSolvable_swap_lt hb2.1 hg (fun v => (hb2.2 v).trans (hsame v))
      (show r - 1 < n by omega) hc hr hc hz2
      (by rw [hmul]; omega)
      (by
        rw [hmul]
        generalize (r - 1) * n = x
        split_ifs <;> omega)
      (by omega)
    rw [swapCells_involutive hb.1 hr hc (by omega) hc] at key
    exact key.symm
  · -- down
    simp only at h1 h2 h3 h4 ⊢
    have e1 : ((r : Int) + 1).toNat = r + 1 := by omega
    have e2 : ((c : Int) + 0).toNat = c := by omega
    rw [e1, e2]
    have hmul : (r + 1) * n = r * n + n := Nat.succ_mul r n
    exact isSolvable_swap_lt hb hg hsame hr hc (show r + 1 < n by omega) hc hz
      (by rw [hmul]; omega)
      (by
        rw [hmul]
        generalize r * n = x
        split_ifs <;> omega)
      (by omega)
  · -- left
    simp only at h1 h2 h3 h4 ⊢
    have hc1 : 1 ≤ c := by omega
    have e1 : ((r : Int) + 0).toNat = r := by omega
    have e2 : ((c : Int) + -1).toNat = c - 1 := by omega
    rw [e1, e2]
    have hb2 := validBoard_swapCells hb hr hc hr (show c - 1 < n by omega)
    have hz2 : cell (swapCells b r c r (c - 1)) r (c - 1) = 0 := by
      rw [cell_swapCells hb.1 hr hc hr (by omega)]
      simp [hz]
    have key := isSolvable_swap_lt hb2.1 hg (fun v => (hb2.2 v).trans (hsame v))
      hr (show c - 1 < n by omega) hr hc hz2
      (by omega)
      (by
        generalize r * n = x
        split_ifs <;> omega)
      (by omega)
    rw [swapCells_involutive hb.1 hr hc hr (by omega)] at key
    exact key.symm
  · -- right
    simp only at h1 h2 h3 h4 ⊢
    have e1 : ((r : Int) + 0).toNat = r := by omega
    have e2 : ((c : Int) + 1).toNat = c + 1 := by omega
    rw [e1, e2]
    exact isSolvable_swap_lt hb hg hsame hr hc hr (show c + 1 < n by omega) hz
      (by omega)
      (by
        generalize r * n = x
        split_ifs <;> omega)
      (by omega)

theorem isSolvable_slide {n : Nat} {b b2 goal : Board} (hb : ValidBoard n b)
    (hg : ValidBoard n goal) (hsame : SameValues b goal) (hs : Slide n b b2) :
    isSolvable b2 goal = isSolvable b goal := by
  obtain ⟨m, d, hm, hs⟩ := hs
  exact isSolvable_slideBy hb hg hsame (moveDelta_cases hm) hs

theorem isSolvable_slidePath {n : Nat} {goal : Board} (hg : ValidBoard n goal) :
    ∀ (k : Nat) (b b2 : Board), ValidBoard n b → SameValues b goal → SlidePath n k b b2 →
      isSolvable b2 goal = isSolvable b goal
  | 0, b, b2, _, _, hp => by
    have : b = b2 := hp
    rw [this]
  | k + 1, b, b2, hb, hsame, hp => by
    obtain ⟨mid, hs, hp⟩ := hp
    obtain ⟨hv, hsv⟩ := slide_valid hb hs
    rw [isSolvable_slidePath hg k mid b2 hv (fun v => (hsv v).trans (hsame v)) hp]
    exact isSolvable_slide hb hg hsame hs

end NPuzzle

namespace NPuzzle

theorem index_injective {n r c r2 c2 : Nat} (hc : c < n) (hc2 : c2 < n)
    (h : r * n + c = r2 * n + c2) : r = r2 ∧ c = c2 := by
  have h1 := index_div_mod (r := r) hc
  have h2 := index_div_mod (r := r2) hc2
  rw [h] at h1
  exact ⟨h1.1.symm.trans h2.1, h1.2.symm.trans h2.2⟩

theorem isSolvable_transpose_lt {n : Nat} {goal : Board} (hg : ValidBoard n goal)
    {r c r2 c2 : Nat} (hr : r < n) (hc : c < n) (hr2 : r2 < n) (hc2 : c2 < n)
    (h1 : cell goal r c ≠ 0) (h2 : cell goal r2 c2 ≠ 0) (hlt : r * n + c < r2 * n + c2)
    (hsolv : isSolvable goal goal = true) :
    isSolvable (swapCells goal r c r2 c2) goal = false := by
  obtain ⟨r0, c0, hr0, hc0, hz⟩ := (mem_flatten_iff hg.1 0).1 hg.2.2
  obtain ⟨X, M, Y, e1, e2, _⟩ := flatten_swap hg.1 hr hc hr2 hc2 hlt
  obtain ⟨hb2, _⟩ := validBoard_swapCells hg hr hc hr2 hc2
  have hz2 : cell (swapCells goal r c r2 c2) r0 c0 = 0 := by
    rw [cell_swapCells hg.1 hr hc hr2 hc2]
    have n1 : ¬ (r0 = r2 ∧ c0 = c2) := by
      rintro ⟨rfl, rfl⟩; exact h2 hz
    have n2 : ¬ (r0 = r ∧ c0 = c) := by
      rintro ⟨rfl, rfl⟩; exact h1 hz
    simp [n1, n2, hz]
  have hnd : (X ++ ([cell goal r c] ++ (M ++ ([cell goal r2 c2] ++ Y)))).Nodup := by
    rw [← e1]; exact hg.2.1
  have hsub : ∀ v ∈ X ++ ([cell goal r c] ++ (M ++ ([cell goal r2 c2] ++ Y))),
      v ∈ goal.flatten := by
    rw [← e1]; exact fun v hv => hv
  have hpar := rank_transpose hg X M Y _ _ h1 h2 hnd hsub
  rw [isSolvable_eq hg hg.1 hr0 hc0 hz, e1] at hsolv
  rw [isSolvable_eq hb2 hg.1 hr0 hc0 hz2, e2]
  by_cases hn : n % 2 = 1
  · rw [if_pos hn] at hsolv ⊢
    simp only [decide_eq_true_eq, decide_eq_false_iff_not] at hsolv ⊢
    omega
  · rw [if_neg hn] at hsolv ⊢
    simp only [decide_eq_true_eq, decide_eq_false_iff_not] at hsolv ⊢
    omega

/-- C7 — Unsolvable detection by one transposition: for every `n × n` goal board `G` with
distinct values and one 0 for which `isSolvable(G, G)` is true, the board obtained from `G` by
exchanging the contents of two different non-blank cells is reported unsolvable. -/
theorem isSolvable_transposition (n : Nat) (G : Board) (hG : ValidBoard n G)
    (hsolv : isSolvable G G = true) (r c r2 c2 : Nat) (hr : r < n) (hc : c < n)
    (hr2 : r2 < n) (hc2 : c2 < n) (hne : (r, c) ≠ (r2, c2)) (h1 : cell G r c ≠ 0)
    (h2 : cell G r2 c2 ≠ 0) :
    isSolvable (swapCells G r c r2 c2) G = false := by
  rcases Nat.lt_trichotomy (r * n + c) (r2 * n + c2) with hlt | heq | hgt
  · exact isSolvable_transpose_lt hG hr hc hr2 hc2 h1 h2 hlt hsolv
  · obtain ⟨e1, e2⟩ := index_injective hc hc2 heq
    exact absurd (by rw [e1, e2]) hne
  · rw [swapCells_comm hG.1 hr hc hr2 hc2]
    exact isSolvable_transpose_lt hG hr2 hc2 hr hc h2 h1 hgt hsolv

/-- C7 (witness) — on the 3 × 3 goal of the program, exchanging the tiles 1 and 2. -/
theorem isSolvable_transposition_witness :
    isSolvable (swapCells [[1, 2, 3], [8, 0, 4], [7, 6, 5]] 0 0 0 1)
      [[1, 2, 3], [8, 0, 4], [7, 6, 5]] = false :=
  isSolvable_transposition 3 [[1, 2, 3], [8, 0, 4], [7, 6, 5]]
    ⟨⟨rfl, by decide⟩, by decide, by decide⟩ (by decide) 0 0 0 1 (by decide) (by decide)
    (by decide) (by decide) (by decide) (by decide) (by decide)

/-- C8 — The verdict of the oracle is a slide invariant: for every pair of `n × n` boards
`B` and `G` that hold the same distinct values with one 0, every board obtained from `B` by one
legal blank slide gets the verdict of `B`, and so does every board reachable from `B`. -/
theorem isSolvable_slide_invariant (n : Nat) (B G : Board) (hB : ValidBoard n B)
    (hG : ValidBoard n G) (hsame : SameValues B G) :
    (∀ B2, Slide n B B2 → isSolvable B2 G = isSolvable B G) ∧
    (∀ B2, Reachable n B B2 → isSolvable B2 G = isSolvable B G) :=
  ⟨fun _ hs => isSolvable_slide hB hG hsame hs,
   fun B2 ⟨k, hk⟩ => isSolvable_slidePath hG k B B2 hB hsame hk⟩

/-- C8 (witness) — the hypotheses hold for a 3 × 3 instance. -/
theorem isSolvable_slide_invariant_witness :
    (∀ B2, Slide 3 [[1, 2, 3], [8, 6, 7], [4, 0, 5]] B2 →
      isSolvable B2 [[1, 2, 3], [4, 5, 6], [7, 8, 0]] =
        isSolvable [[1, 2, 3], [8, 6, 7], [4, 0, 5]] [[1, 2, 3], [4, 5, 6], [7, 8, 0]]) ∧
    (∀ B2, Reachable 3 [[1, 2, 3], [8, 6, 7], [4, 0, 5]] B2 →
      isSolvable B2 [[1, 2, 3], [4, 5, 6], [7, 8, 0]] =
        isSolvable [[1, 2, 3], [8, 6, 7], [4, 0, 5]] [[1, 2, 3], [4, 5, 6], [7, 8, 0]]) :=
  isSolvable_slide_invariant 3 [[1, 2, 3], [8, 6, 7], [4, 0, 5]] [[1, 2, 3], [4, 5, 6], [7, 8, 0]]
    ⟨⟨rfl, by decide⟩, by decide, by decide⟩ ⟨⟨rfl, by decide⟩, by decide, by decide⟩
    (fun _ => List.Perm.mem_iff (by decide))

/-- C4 (failing input) — `generateGoal(2)` is `[[1,2],[4,0]]`: it holds 4 and does not hold
3; `generateGoal(4)` holds 16 and does not hold 15. -/
theorem generateGoal_even :
    generateGoal 2 = [[1, 2], [4, 0]] ∧
    generateGoal 4 = [[1, 2, 3, 4], [12, 13, 14, 5], [11, 16, 0, 6], [10, 9, 8, 7]] ∧
    (3 : Int) ∉ (generateGoal 2).flatten ∧ (15 : Int) ∉ (generateGoal 4).flatten := by
  decide

/-- C5 (failing input) — `isSolvable(G, G)` is false for `G = generateGoal(4)`, and for the
2 × 2 board `[[0,1],[2,3]]`. -/
theorem isSolvable_goal_four :
    isSolvable (generateGoal 4) (generateGoal 4) = false ∧
    isSolvable [[0, 1], [2, 3]] [[0, 1], [2, 3]] = false := by
  decide

set_option maxRecDepth 100000 in
/-- C6 (failing input) — with `G = generateGoal(4)` and `B` the board `G` with the tiles 1 and
2 exchanged, `isSolvable(B, G)` is true, `G` is not reachable from `B`, and `aStarSearch`
returns the null node for every heuristic choice. -/
theorem aStarSearch_null_after_oracle :
    isSolvable [[2, 1, 3, 4], [12, 13, 14, 5], [11, 16, 0, 6], [10, 9, 8, 7]]
      (generateGoal 4) = true ∧
    ¬ Reachable 4 [[2, 1, 3, 4], [12, 13, 14, 5], [11, 16, 0, 6], [10, 9, 8, 7]]
      (generateGoal 4) ∧
    (∀ (heuristicChoice : Int) (tie : Nat → Nat) (fuel : Nat), (16).factorial < fuel →
      ∃ totalOpened maxInMemory,
        aStarSearch fuel tie [[2, 1, 3, 4], [12, 13, 14, 5], [11, 16, 0, 6], [10, 9, 8, 7]]
          (generateGoal 4) heuristicChoice =
          some (PuzzleState.nullptr, totalOpened, maxInMemory)) := by
  have hG : generateGoal 4 = [[1, 2, 3, 4], [12, 13, 14, 5], [11, 16, 0, 6], [10, 9, 8, 7]] := by
    decide
  rw [hG]
  have hvB : ValidBoard 4 [[2, 1, 3, 4], [12, 13, 14, 5], [11, 16, 0, 6], [10, 9, 8, 7]] :=
    ⟨⟨rfl, by decide⟩, by decide, by decide⟩
  have hvG : ValidBoard 4 [[1, 2, 3, 4], [12, 13, 14, 5], [11, 16, 0, 6], [10, 9, 8, 7]] :=
    ⟨⟨rfl, by decide⟩, by decide, by decide⟩
  have hsame : SameValues [[2, 1, 3, 4], [12, 13, 14, 5], [11, 16, 0, 6], [10, 9, 8, 7]]
      [[1, 2, 3, 4], [12, 13, 14, 5], [11, 16, 0, 6], [10, 9, 8, 7]] :=
    fun _ => List.Perm.mem_iff (by decide)
  have hnot : ¬ Reachable 4 [[2, 1, 3, 4], [12, 13, 14, 5], [11, 16, 0, 6], [10, 9, 8, 7]]
      [[1, 2, 3, 4], [12, 13, 14, 5], [11, 16, 0, 6], [10, 9, 8, 7]] := by
    rintro ⟨k, hk⟩
    have := isSolvable_slidePath hvG k _ _ hvB hsame hk
    revert this
    decide
  refine ⟨by decide, hnot, ?_⟩
  intro ch tie fuel hfuel
  have hinv := inv_initial [[1, 2, 3, 4], [12, 13, 14, 5], [11, 16, 0, 6], [10, 9, 8, 7]] ch hvB
  obtain ⟨r, hr⟩ := aStarLoop_terminates hvB
    (buildGoalPositions [[1, 2, 3, 4], [12, 13, 14, 5], [11, 16, 0, 6], [10, 9, 8, 7]]) ch fuel
    tie _ hinv (by
      rw [List.length_permutations, flatten_length hvB.1]
      show (16).factorial < 0 + fuel
      omega)
  obtain ⟨node, a, b⟩ := r
  rcases aStarLoop_sound hvB hvG.1 _ ch fuel tie _ _ hinv hr with h | h
  · simp only at h
    exact ⟨a, b, by rw [← h.1]; exact hr⟩
  · exact absurd (h.2 ▸ goodNode_reachable h.1) hnot

end NPuzzle

namespace NPuzzle

/-! ## Heuristics as sums over the cells -/

theorem foldl_add_terms {α : Type} (f : α → Int) (l : List α) (a : Int) :
    l.foldl (fun acc x => acc + f x) a = a + (l.map f).sum := by
  induction l generalizing a with
  | nil => simp
  | cons x l ih =>
    rw [List.foldl_cons, ih]
    simp
    omega

theorem manhattanDistance_eq_fold (board : Board) (goalPos : List (Int × (Nat × Nat))) :
    manhattanDistance board goalPos =
      (List.range board.length).foldl (fun distance i =>
        (List.range board.length).foldl (fun distance j =>
          distance + manhattanTerm goalPos (cell board i j) (i, j)) distance) 0 := by
  unfold manhattanDistance
  refine congrArg (fun f => List.foldl f 0 (List.range board.length)) ?_
  funext d i
  refine congrArg (fun f => List.foldl f d (List.range board.length)) ?_
  funext d2 j
  unfold manhattanTerm
  by_cases h0 : cell board i j = 0
  · simp [h0]
  · cases hl : goalPos.lookup (cell board i j) with
    | none => simp [h0, hl]
    | some q => simp [h0, hl]

theorem manhattanDistance_eq_sum {n : Nat} {board : Board} (h : board.length = n)
    (goalPos : List (Int × (Nat × Nat))) :
    manhattanDistance board goalPos =
      (((List.range n).flatMap (fun i => (List.range n).map (fun j => (i, j)))).map
        (fun p => manhattanTerm goalPos (cell board p.1 p.2) p)).sum := by
  rw [manhattanDistance_eq_fold, h,
    foldl_nested (fun (distance : Int) i j =>
      distance + manhattanTerm goalPos (cell board i j) (i, j)) (fun _ => List.range n),
    foldl_add_terms]
  simp

theorem hammingDistance_eq_sum {n : Nat} {board : Board} (h : board.length = n)
    (goal : Board) :
    hammingDistance board goal =
      (((List.range n).flatMap (fun i => (List.range n).map (fun j => (i, j)))).map
        (fun p => hammingTerm goal (cell board p.1 p.2) p)).sum := by
  unfold hammingDistance
  simp only [h]
  rw [foldl_nested (fun (count : Int) i j =>
      if cell board i j ≠ 0 ∧ cell board i j ≠ cell goal i j then count + 1 else count)
      (fun _ => List.range n)]
  have hstep : (fun (acc : Int) (p : Nat × Nat) =>
      if cell board p.1 p.2 ≠ 0 ∧ cell board p.1 p.2 ≠ cell goal p.1 p.2 then acc + 1
      else acc) = fun acc p => acc + hammingTerm goal (cell board p.1 p.2) p := by
    funext acc p
    unfold hammingTerm
    split_ifs <;> simp
  rw [hstep, foldl_add_terms]
  simp

/-! ## Sums over a list without duplicates -/

theorem sum_change_one {α : Type} (f f2 : α → Int) (p : α) :
    ∀ (l : List α), l.Nodup → p ∈ l → (∀ x, x ≠ p → f2 x = f x) →
      (l.map f2).sum + f p = (l.map f).sum + f2 p
  | [], _, hp, _ => absurd hp (List.not_mem_nil _)
  | a :: l, hnd, hp, hsame => by
    rw [List.nodup_cons] at hnd
    simp only [List.map_cons, List.sum_cons]
    by_cases ha : a = p
    · subst ha
      have : l.map f2 = l.map f := by
        apply List.map_congr_left
        intro x hx
        exact hsame x (fun e => hnd.1 (e ▸ hx))
      rw [this]
      omega
    · have hp2 : p ∈ l := by
        rcases List.mem_cons.1 hp with e | hp
        · exact absurd e.symm ha
        · exact hp
      have := sum_change_one f f2 p l hnd.2 hp2 hsame
      rw [hsame a ha]
      omega

theorem sum_change_two {α : Type} [DecidableEq α] (f f2 : α → Int) (p q : α) (hpq : p ≠ q)
    (l : List α) (hnd : l.Nodup) (hp : p ∈ l) (hq : q ∈ l)
    (hsame : ∀ x, x ≠ p → x ≠ q → f2 x = f x) :
    (l.map f2).sum + f p + f q = (l.map f).sum + f2 p + f2 q := by
  have h1 := sum_change_one f (fun x => if x = p then f2 p else f x) p l hnd hp
    (fun x hx => by simp [hx])
  have h2 := sum_change_one (fun x => if x = p then f2 p else f x) f2 q l hnd hq
    (fun x hx => by
      by_cases hxp : x = p
      · simp [hxp]
      · simp [hxp, hsame x hxp hx])
  simp only [if_true] at h1
  have hqp : ¬ q = p := fun e => hpq e.symm
  simp only [hqp, if_false] at h2
  omega

/-- A sum over the cells whose terms vanish on the blank, before and after the blank at
`(r, c)` is exchanged with the tile at `(r2, c2)`. -/
theorem sum_swap_blank {n : Nat} {b : Board} (hb : IsSquare n b) (term : Int → Nat × Nat → Int)
    (hzero : ∀ p, term 0 p = 0) {r c r2 c2 : Nat} (hr : r < n) (hc : c < n) (hr2 : r2 < n)
    (hc2 : c2 < n) (hz : cell b r c = 0) (hne : (r, c) ≠ (r2, c2)) :
    (((List.range n).flatMap (fun i => (List.range n).map (fun j => (i, j)))).map
        (fun p => term (cell (swapCells b r c r2 c2) p.1 p.2) p)).sum +
      term (cell b r2 c2) (r2, c2) =
    (((List.range n).flatMap (fun i => (List.range n).map (fun j => (i, j)))).map
        (fun p => term (cell b p.1 p.2) p)).sum + term (cell b r2 c2) (r, c) := by
  have key := sum_change_two (fun p => term (cell b p.1 p.2) p)
    (fun p => term (cell (swapCells b r c r2 c2) p.1 p.2) p) (r, c) (r2, c2) hne _
    (nodup_positions n) (mem_positions.2 ⟨hr, hc⟩) (mem_positions.2 ⟨hr2, hc2⟩)
    (by
      rintro ⟨i, j⟩ h1 h2
      simp only
      rw [cell_swapCells hb hr hc hr2 hc2]
      have n1 : ¬ (i = r2 ∧ j = c2) := fun e => h2 (by rw [e.1, e.2])
      have n2 : ¬ (i = r ∧ j = c) := fun e => h1 (by rw [e.1, e.2])
      simp [n1, n2])
  simp only at key
  have e1 : cell (swapCells b r c r2 c2) r c = cell b r2 c2 := by
    rw [cell_swapCells hb hr hc hr2 hc2]
    have n1 : ¬ (r = r2 ∧ c = c2) := fun e => hne (by rw [e.1, e.2])
    simp [n1]
  have e2 : cell (swapCells b r c r2 c2) r2 c2 = 0 := by
    rw [cell_swapCells hb hr hc hr2 hc2]
    simp [hz]
  rw [e1, e2, hz, hzero, hzero] at key
  omega

end NPuzzle

namespace NPuzzle

/-! ## The goal index of `buildGoalPositions` -/

theorem foldl_cons_filter {α β : Type} (c : α → Bool) (g : α → β) (l : List α) (acc : List β) :
    l.foldl (fun acc p => if c p = true then g p :: acc else acc) acc =
      ((l.filter c).map g).reverse ++ acc := by
  induction l generalizing acc with
  | nil => rfl
  | cons a l ih =>
    rw [List.foldl_cons, ih]
    by_cases h : c a = true
    · simp [List.filter_cons, h]
    · simp [List.filter_cons, h]

theorem buildGoalPositions_eq {n : Nat} {goal : Board} (h : goal.length = n) :
    buildGoalPositions goal =
      ((((List.range n).flatMap (fun i => (List.range n).map (fun j => (i, j)))).filter
        (fun p => decide (cell goal p.1 p.2 ≠ 0))).map
          (fun p => (cell goal p.1 p.2, p))).reverse := by
  unfold buildGoalPositions
  simp only [h]
  rw [foldl_nested (fun (goalPos : List (Int × (Nat × Nat))) i j =>
      if cell goal i j ≠ 0 then (cell goal i j, (i, j)) :: goalPos else goalPos)
      (fun _ => List.range n)]
  have := foldl_cons_filter (fun p : Nat × Nat => decide (cell goal p.1 p.2 ≠ 0))
    (fun p => (cell goal p.1 p.2, p))
    ((List.range n).flatMap (fun i => (List.range n).map (fun j => (i, j)))) []
  simp only [decide_eq_true_eq, List.append_nil] at this
  exact this

/-- The goal index sends every tile of the goal to the cell that holds it. -/
theorem lookup_buildGoalPositions {n : Nat} {goal : Board} (hsq : IsSquare n goal)
    (hnd : goal.flatten.Nodup) {i j : Nat} (hi : i < n) (hj : j < n)
    (hne : cell goal i j ≠ 0) :
    (buildGoalPositions goal).lookup (cell goal i j) = some (i, j) := by
  rw [buildGoalPositions_eq hsq.1]
  apply lookup_of_mem
  · rw [List.map_reverse, List.nodup_reverse, List.map_map]
    have hinj := (nodup_flatten_iff hsq).1 hnd
    refine (List.nodup_map_iff_inj_on ((nodup_positions n).filter _)).2 ?_
    rintro ⟨a, b⟩ hp ⟨a2, b2⟩ hp2 heq
    have h1 := mem_positions.1 (List.mem_filter.1 hp).1
    have h2 := mem_positions.1 (List.mem_filter.1 hp2).1
    obtain ⟨e1, e2⟩ := hinj a b a2 b2 h1.1 h1.2 h2.1 h2.2 heq
    rw [e1, e2]
  · rw [List.mem_reverse, List.mem_map]
    refine ⟨(i, j), List.mem_filter.2 ⟨mem_positions.2 ⟨hi, hj⟩, ?_⟩, rfl⟩
    simpa using hne

/-! ## The heuristics on the goal -/

theorem manhattanDistance_goal {n : Nat} {goal : Board} (hg : ValidBoard n goal) :
    manhattanDistance goal (buildGoalPositions goal) = 0 := by
  rw [manhattanDistance_eq_sum hg.1.1]
  apply List.sum_eq_zero
  intro x hx
  obtain ⟨⟨i, j⟩, hp, rfl⟩ := List.mem_map.1 hx
  have hp := mem_positions.1 hp
  unfold manhattanTerm
  by_cases h0 : cell goal i j = 0
  · simp [h0]
  · simp only
    rw [lookup_buildGoalPositions hg.1 hg.2.1 hp.1 hp.2 h0]
    simp [h0]

theorem hammingDistance_goal {n : Nat} {goal : Board} (hg : goal.length = n) :
    hammingDistance goal goal = 0 := by
  rw [hammingDistance_eq_sum hg]
  apply List.sum_eq_zero
  intro x hx
  obtain ⟨⟨i, j⟩, _, rfl⟩ := List.mem_map.1 hx
  simp [hammingTerm]

/-! ## One slide changes a heuristic by at most one -/

theorem manhattanTerm_zero (goalPos : List (Int × (Nat × Nat))) (p : Nat × Nat) :
    manhattanTerm goalPos 0 p = 0 := by
  simp [manhattanTerm]

theorem hammingTerm_zero (goal : Board) (p : Nat × Nat) : hammingTerm goal 0 p = 0 := by
  simp [hammingTerm]

theorem manhattanTerm_adjacent (goalPos : List (Int × (Nat × Nat))) (t : Int) {r c : Nat}
    {d : Int × Int} {m : Char} (hm : moveDelta m = some d)
    (h1 : 0 ≤ (r : Int) + d.1) (h2 : 0 ≤ (c : Int) + d.2) :
    manhattanTerm goalPos t (r, c) ≤
        manhattanTerm goalPos t (((r : Int) + d.1).toNat, ((c : Int) + d.2).toNat) + 1 ∧
    manhattanTerm goalPos t (((r : Int) + d.1).toNat, ((c : Int) + d.2).toNat) ≤
        manhattanTerm goalPos t (r, c) + 1 := by
  unfold manhattanTerm
  by_cases h0 : t = 0
  · simp [h0]
  · simp only [ne_eq, h0, not_false_eq_true, if_true]
    cases goalPos.lookup t with
    | none => simp
    | some q =>
      obtain ⟨gr, gc⟩ := q
      simp only
      rcases moveDelta_cases hm with e | e | e | e <;> subst e <;> simp only at h1 h2 ⊢ <;> omega

theorem hammingTerm_bound (goal : Board) (t : Int) (p q : Nat × Nat) :
    hammingTerm goal t p ≤ hammingTerm goal t q + 1 := by
  unfold hammingTerm
  split_ifs <;> omega

theorem manhattanDistance_slide {n : Nat} {b b2 : Board} (hb : IsSquare n b)
    (hs : Slide n b b2) (goalPos : List (Int × (Nat × Nat))) :
    manhattanDistance b goalPos ≤ manhattanDistance b2 goalPos + 1 ∧
    manhattanDistance b2 goalPos ≤ manhattanDistance b goalPos + 1 := by
  obtain ⟨m, d, hm, r, c, hr, hc, hz, h1, h2, h3, h4, rfl⟩ := hs
  have hr2 : ((r : Int) + d.1).toNat < n := by omega
  have hc2 : ((c : Int) + d.2).toNat < n := by omega
  have hne : (r, c) ≠ (((r : Int) + d.1).toNat, ((c : Int) + d.2).toNat) := by
    intro e
    simp only [Prod.mk.injEq] at e
    rcases moveDelta_cases hm with e2 | e2 | e2 | e2 <;> subst e2 <;> simp only at e h1 h3 <;>
      omega
  rw [manhattanDistance_eq_sum hb.1, manhattanDistance_eq_sum (isSquare_swapCells hb _ _ _ _).1]
  have key := sum_swap_blank hb (manhattanTerm goalPos) (manhattanTerm_zero goalPos) hr hc hr2
    hc2 hz hne
  have adj := manhattanTerm_adjacent goalPos
    (cell b ((r : Int) + d.1).toNat ((c : Int) + d.2).toNat) hm h1 h3
  omega

theorem hammingDistance_slide {n : Nat} {b b2 : Board} (hb : IsSquare n b)
    (hs : Slide n b b2) (goal : Board) :
    hammingDistance b goal ≤ hammingDistance b2 goal + 1 ∧
    hammingDistance b2 goal ≤ hammingDistance b goal + 1 := by
  obtain ⟨m, d, hm, r, c, hr, hc, hz, h1, h2, h3, h4, rfl⟩ := hs
  have hr2 : ((r : Int) + d.1).toNat < n := by omega
  have hc2 : ((c : Int) + d.2).toNat < n := by omega
  have hne : (r, c) ≠ (((r : Int) + d.1).toNat, ((c : Int) + d.2).toNat) := by
    intro e
    simp only [Prod.mk.injEq] at e
    rcases moveDelta_cases hm with e2 | e2 | e2 | e2 <;> subst e2 <;> simp only at e h1 h3 <;>
      omega
  rw [hammingDistance_eq_sum hb.1, hammingDistance_eq_sum (isSquare_swapCells hb _ _ _ _).1]
  have key := sum_swap_blank hb (hammingTerm goal) (hammingTerm_zero goal) hr hc hr2
    hc2 hz hne
  have a1 := hammingTerm_bound goal (cell b ((r : Int) + d.1).toNat ((c : Int) + d.2).toNat)
    (r, c) (((r : Int) + d.1).toNat, ((c : Int) + d.2).toNat)
  have a2 := hammingTerm_bound goal (cell b ((r : Int) + d.1).toNat ((c : Int) + d.2).toNat)
    (((r : Int) + d.1).toNat, ((c : Int) + d.2).toNat) (r, c)
  omega

/-! ## Admissibility along a slide path -/

theorem manhattanDistance_le_path {n : Nat} {goal : Board} (hg : ValidBoard n goal) :
    ∀ (k : Nat) (b : Board), ValidBoard n b → SlidePath n k b goal →
      manhattanDistance b (buildGoalPositions goal) ≤ k
  | 0, b, _, hp => by
    have e : b = goal := hp
    rw [e, manhattanDistance_goal hg]
    rfl
  | k + 1, b, hb, hp => by
    obtain ⟨mid, hs, hrest⟩ := hp
    have ih := manhattanDistance_le_path hg k mid (slide_valid hb hs).1 hrest
    have := (manhattanDistance_slide hb.1 hs (buildGoalPositions goal)).1
    push_cast
    omega

theorem hammingDistance_le_path {n : Nat} {goal : Board} (hg : ValidBoard n goal) :
    ∀ (k : Nat) (b : Board), ValidBoard n b → SlidePath n k b goal →
      hammingDistance b goal ≤ k
  | 0, b, _, hp => by
    have e : b = goal := hp
    rw [e, hammingDistance_goal hg.1.1]
    rfl
  | k + 1, b, hb, hp => by
    obtain ⟨mid, hs, hrest⟩ := hp
    have ih := hammingDistance_le_path hg k mid (slide_valid hb hs).1 hrest
    have := (hammingDistance_slide hb.1 hs goal).1
    push_cast
    omega

end NPuzzle

namespace NPuzzle

/-! ## Claims on the heuristics -/

/-- C9 — Admissibility of Manhattan and Hamming: for every `n × n` boards `B` and `G` with
distinct values and one 0, and every sequence of `k` legal blank slides that turns `B` into
`G`, `manhattanDistance(B, buildGoalPositions(G)) ≤ k` and `hammingDistance(B, G) ≤ k`.
(Boards joined by slides hold the same values, and the bound needs no lower limit on `n`.) -/
theorem manhattan_hamming_admissible (n : Nat) (B G : Board) (hB : ValidBoard n B)
    (hG : ValidBoard n G) (k : Nat) (hp : SlidePath n k B G) :
    manhattanDistance B (buildGoalPositions G) ≤ k ∧ hammingDistance B G ≤ k :=
  ⟨manhattanDistance_le_path hG k B hB hp, hammingDistance_le_path hG k B hB hp⟩

/-- C9 (witness) — a 3 × 3 board eleven slides away from the goal. -/
theorem manhattan_hamming_admissible_witness :
    manhattanDistance [[1, 2, 3], [8, 6, 7], [4, 0, 5]]
        (buildGoalPositions [[1, 2, 3], [4, 5, 6], [7, 8, 0]]) ≤ ((11 : Nat) : Int) ∧
    hammingDistance [[1, 2, 3], [8, 6, 7], [4, 0, 5]] [[1, 2, 3], [4, 5, 6], [7, 8, 0]] ≤
      ((11 : Nat) : Int) :=
  manhattan_hamming_admissible 3 [[1, 2, 3], [8, 6, 7], [4, 0, 5]]
    [[1, 2, 3], [4, 5, 6], [7, 8, 0]] ⟨⟨rfl, by decide⟩, by decide, by decide⟩
    ⟨⟨rfl, by decide⟩, by decide, by decide⟩ 11
    (@slidePath_of_replay 3 ['U', 'R', 'D', 'L', 'U', 'L', 'D', 'R', 'U', 'R', 'D'] _ _
      (by decide))

set_option maxRecDepth 100000 in
/-- C10 (failing input) — on the 5 × 5 board below, which the oracle accepts and which is
eleven slides away from `generateGoal(5)`, `linearConflict` returns 13 (Manhattan distance 9
plus 2 for each of the two inverted pairs that the tile 18 forms with 16 and 17 in their goal
row); on a 3 × 3 board 26 slides away from the row-major goal it returns 28. -/
theorem linearConflict_overestimates :
    ValidBoard 5 [[1, 2, 3, 4, 5], [15, 18, 16, 17, 6], [24, 0, 20, 19, 7],
      [14, 23, 22, 21, 8], [13, 12, 11, 10, 9]] ∧
    ValidBoard 5 (generateGoal 5) ∧
    isSolvable [[1, 2, 3, 4, 5], [15, 18, 16, 17, 6], [24, 0, 20, 19, 7],
      [14, 23, 22, 21, 8], [13, 12, 11, 10, 9]] (generateGoal 5) = true ∧
    SlidePath 5 11 [[1, 2, 3, 4, 5], [15, 18, 16, 17, 6], [24, 0, 20, 19, 7],
      [14, 23, 22, 21, 8], [13, 12, 11, 10, 9]] (generateGoal 5) ∧
    manhattanDistance [[1, 2, 3, 4, 5], [15, 18, 16, 17, 6], [24, 0, 20, 19, 7],
      [14, 23, 22, 21, 8], [13, 12, 11, 10, 9]] (buildGoalPositions (generateGoal 5)) = 9 ∧
    linearConflict [[1, 2, 3, 4, 5], [15, 18, 16, 17, 6], [24, 0, 20, 19, 7],
      [14, 23, 22, 21, 8], [13, 12, 11, 10, 9]] (buildGoalPositions (generateGoal 5)) = 13 ∧
    SlidePath 3 26 [[3, 8, 1], [6, 5, 4], [0, 2, 7]] [[1, 2, 3], [4, 5, 6], [7, 8, 0]] ∧
    linearConflict [[3, 8, 1], [6, 5, 4], [0, 2, 7]]
      (buildGoalPositions [[1, 2, 3], [4, 5, 6], [7, 8, 0]]) = 28 := by
  have hG : generateGoal 5 = [[1, 2, 3, 4, 5], [16, 17, 18, 19, 6], [15, 24, 0, 20, 7],
      [14, 23, 22, 21, 8], [13, 12, 11, 10, 9]] := by decide
  rw [hG]
  refine ⟨⟨⟨rfl, by decide⟩, by decide, by decide⟩, ⟨⟨rfl, by decide⟩, by decide, by decide⟩,
    by decide, ?_, by decide, by decide, ?_, by decide⟩
  · exact @slidePath_of_replay 5 ['U', 'R', 'R', 'D', 'L', 'L', 'L', 'U', 'R', 'R', 'D'] _ _
      (by decide)
  · exact @slidePath_of_replay 3 ['U', 'R', 'R', 'U', 'L', 'L', 'D', 'R', 'R', 'U', 'L', 'D',
      'D', 'L', 'U', 'U', 'R', 'D', 'D', 'R', 'U', 'L', 'L', 'D', 'R', 'R'] _ _ (by decide)

end NPuzzle

namespace NPuzzle

/-! ## The parity of the number of slides between two boards -/

theorem slidePath_blank_parity {n : Nat} : ∀ (k : Nat) (a b : Board), ValidBoard n a →
    SlidePath n k a b → ∀ r c r2 c2 : Nat, r < n → c < n → r2 < n → c2 < n →
    cell a r c = 0 → cell b r2 c2 = 0 → (r + c + k) % 2 = (r2 + c2) % 2
  | 0, a, b, ha, hp, r, c, r2, c2, hr, hc, hr2, hc2, h1, h2 => by
    have e : a = b := hp
    subst e
    obtain ⟨e1, e2⟩ := blank_unique ha hr hc hr2 hc2 h1 h2
    rw [e1, e2]
    rfl
  | k + 1, a, b, ha, hp, r, c, r2, c2, hr, hc, hr2, hc2, h1, h2 => by
    obtain ⟨mid, hs, hrest⟩ := hp
    have hmid := (slide_valid ha hs).1
    obtain ⟨m, d, hm, r0, c0, hr0, hc0, hz0, b1, b2, b3, b4, rfl⟩ := hs
    obtain ⟨e1, e2⟩ := blank_unique ha hr0 hc0 hr hc hz0 h1
    subst e1 e2
    have hr3 : ((r0 : Int) + d.1).toNat < n := by omega
    have hc3 : ((c0 : Int) + d.2).toNat < n := by omega
    have hz3 : cell (swapCells a r0 c0 ((r0 : Int) + d.1).toNat ((c0 : Int) + d.2).toNat)
        ((r0 : Int) + d.1).toNat ((c0 : Int) + d.2).toNat = 0 := by
      rw [cell_swapCells ha.1 hr0 hc0 hr3 hc3]
      simp [hz0]
    have ih := slidePath_blank_parity k _ b hmid hrest _ _ r2 c2 hr3 hc3 hr2 hc2 hz3 h2
    rcases moveDelta_cases hm with e | e | e | e <;> subst e <;> simp only at ih b1 b2 b3 b4 <;>
      omega

/-- Two sequences of legal slides between the same boards have lengths of the same
parity. -/
theorem slidePath_same_parity {n : Nat} {a b : Board} (ha : ValidBoard n a) {k1 k2 : Nat}
    (h1 : SlidePath n k1 a b) (h2 : SlidePath n k2 a b) : k1 % 2 = k2 % 2 := by
  obtain ⟨r, c, hr, hc, hz⟩ := (mem_flatten_iff ha.1 0).1 ha.2.2
  have hb := (slidePath_valid k1 ha h1).1
  obtain ⟨r2, c2, hr2, hc2, hz2⟩ := (mem_flatten_iff hb.1 0).1 hb.2.2
  have e1 := slidePath_blank_parity k1 a b ha h1 r c r2 c2 hr hc hr2 hc2 hz hz2
  have e2 := slidePath_blank_parity k2 a b ha h2 r c r2 c2 hr hc hr2 hc2 hz hz2
  omega

end NPuzzle

namespace NPuzzle

/-! ## The invariant at every iteration -/

/-- The state in which the loop over the neighbours starts. -/
theorem afterPop_inv {n : Nat} {start goal : Board} {st : SearchState} {idx : Nat}
    (hinv : Inv n start goal st) (hidx : idx < st.openSet.length)
    (hgoal : (st.openSet.getD idx PuzzleState.nullptr).isGoal goal = false) :
    OpenInv n start goal (afterPop st idx (st.openSet.getD idx PuzzleState.nullptr)) ∧
      GoodNode n start (st.openSet.getD idx PuzzleState.nullptr) ∧
      (st.openSet.getD idx PuzzleState.nullptr).toString ∉ st.closedSet ∧
      (afterPop st idx (st.openSet.getD idx PuzzleState.nullptr)).closedSet =
        (st.openSet.getD idx PuzzleState.nullptr).toString :: st.closedSet := by
  rw [List.getD_eq_getElem _ _ hidx] at hgoal ⊢
  set current := st.openSet[idx] with hcur
  have hmem : current ∈ st.openSet := List.getElem_mem _
  have hgood : GoodNode n start current := hinv.base.nodes _ hmem
  have hnotgoal : current.board ≠ goal := by
    intro e
    simp [PuzzleState.isGoal, e] at hgoal
  have hkeyIn : current.toString ∈ st.inOpenSet := (hinv.base.keysOpen _).2 ⟨current, hmem, rfl⟩
  have hkeyNotClosed : current.toString ∉ st.closedSet := fun h => hinv.base.disjoint _ h hkeyIn
  have hreach : Reachable n start current.board := goodNode_reachable hgood
  refine ⟨?_, hgood, hkeyNotClosed, ?_⟩
  · unfold afterPop
    rw [setInsert_of_not_mem hkeyNotClosed]
    refine ⟨?_, ?_, ?_, ?_, ?_, ?_, ?_, ?_⟩
    · intro y hy
      exact hinv.base.nodes y ((List.eraseIdx_sublist _ _).subset hy)
    · intro k
      show k ∈ st.inOpenSet.erase current.toString ↔ ∃ y ∈ st.openSet.eraseIdx idx, y.toString = k
      rw [hinv.base.nodupIn.mem_erase_iff]
      constructor
      · rintro ⟨hne, hk⟩
        obtain ⟨y, hy, hyk⟩ := (hinv.base.keysOpen k).1 hk
        refine ⟨y, ?_, hyk⟩
        rw [mem_eraseIdx_of_nodup_map PuzzleState.toString _ _ hidx hinv.base.nodupOpen]
        exact ⟨hy, by rw [hyk]; exact hne⟩
      · rintro ⟨y, hy, hyk⟩
        rw [mem_eraseIdx_of_nodup_map PuzzleState.toString _ _ hidx hinv.base.nodupOpen] at hy
        exact ⟨by rw [← hyk]; exact hy.2, (hinv.base.keysOpen k).2 ⟨y, hy.1, hyk⟩⟩
    · exact hinv.base.nodupOpen.sublist ((List.eraseIdx_sublist _ _).map _)
    · exact hinv.base.nodupIn.erase _
    · exact List.nodup_cons.2 ⟨hkeyNotClosed, hinv.base.nodupClosed⟩
    · intro k hk hk2
      have hk2b := (hinv.base.nodupIn.mem_erase_iff).1 hk2
      rcases List.mem_cons.1 hk with e | hk
      · exact hk2b.1 e
      · exact hinv.base.disjoint k hk hk2b.2
    · intro k hk
      rcases List.mem_cons.1 hk with e | hk
      · exact ⟨current.board, hreach, e.symm, hnotgoal⟩
      · exact hinv.base.closedReach k hk
    · rcases hinv.base.startSeen with h | h
      · exact Or.inl (List.mem_cons_of_mem _ h)
      · by_cases e : boardToString start = current.toString
        · exact Or.inl (e ▸ List.mem_cons_self _ _)
        · exact Or.inr ((hinv.base.nodupIn.mem_erase_iff).2 ⟨e, h⟩)
  · unfold afterPop
    simp only
    rw [setInsert_of_not_mem hkeyNotClosed]

theorem pushNeighbors_counters : ∀ (l : List PuzzleState) (st : SearchState),
    (pushNeighbors st l).totalOpened = st.totalOpened ∧
      (pushNeighbors st l).maxInMemory = st.maxInMemory
  | [], _ => ⟨rfl, rfl⟩
  | x :: l, st => by
    rw [pushNeighbors_cons]
    obtain ⟨h1, h2⟩ := pushNeighbors_counters l (pushNeighbors st [x])
    rw [h1, h2, pushNeighbors_single]
    split_ifs <;> exact ⟨rfl, rfl⟩

/-- What an iteration that does not return does to `closedSet` and `totalOpened`. -/
theorem expand_step {n : Nat} {start goal : Board} (hstart : ValidBoard n start)
    (goalPos : List (Int × (Nat × Nat))) (ch : Int) {st st2 : SearchState} {idx : Nat}
    (hinv : Inv n start goal st) (hidx : idx < st.openSet.length)
    (hexp : expand goalPos goal ch st idx = Sum.inr st2) :
    (st.openSet.getD idx PuzzleState.nullptr).isGoal goal = false ∧
      st2.closedSet = (st.openSet.getD idx PuzzleState.nullptr).toString :: st.closedSet ∧
      st2.totalOpened = st.totalOpened + 1 := by
  rw [expand_eq, expandAt_eq] at hexp
  by_cases hgoal : (st.openSet.getD idx PuzzleState.nullptr).isGoal goal = true
  · rw [if_pos hgoal] at hexp
    exact absurd hexp (by simp)
  · rw [if_neg hgoal] at hexp
    simp only [Sum.inr.injEq] at hexp
    have hg : (st.openSet.getD idx PuzzleState.nullptr).isGoal goal = false := by
      simpa using hgoal
    obtain ⟨h1, h2, _, h4⟩ := afterPop_inv hinv hidx hg
    obtain ⟨_, g2, _, _⟩ := pushNeighbors_inv
      (generateNeighbors (st.openSet.getD idx PuzzleState.nullptr) goalPos goal ch) _ h1
      (fun x hx => goodNode_neighbor hstart h2 hx)
    obtain ⟨c1, _⟩ := pushNeighbors_counters
      (generateNeighbors (st.openSet.getD idx PuzzleState.nullptr) goalPos goal ch)
      (afterPop st idx (st.openSet.getD idx PuzzleState.nullptr))
    rw [hexp] at g2 c1
    exact ⟨hg, g2.trans h4, c1⟩

/-- The invariant holds at the top of every iteration. -/
theorem loopState_inv {n : Nat} {start goal : Board} (hstart : ValidBoard n start)
    (goalPos : List (Int × (Nat × Nat))) (ch : Int) :
    ∀ (k : Nat) (tie : Nat → Nat) (st st2 : SearchState), Inv n start goal st →
      loopState goalPos goal ch k tie st = some st2 → Inv n start goal st2
  | 0, _, st, st2, hinv, h => by
    simp only [loopState, Option.some.injEq] at h
    exact h ▸ hinv
  | k + 1, tie, st, st2, hinv, h => by
    unfold loopState at h
    by_cases hempty : st.openSet.isEmpty = true
    · rw [if_pos hempty] at h
      exact absurd h (by simp)
    · rw [if_neg hempty] at h
      have hne : st.openSet ≠ [] := fun e => hempty (List.isEmpty_iff.2 e)
      cases hexp : expand goalPos goal ch st (topIndex st.openSet (tie 0)) with
      | inl r =>
        rw [hexp] at h
        exact absurd h (by simp)
      | inr st3 =>
        rw [hexp] at h
        exact loopState_inv hstart goalPos ch k _ st3 st2
          (expand_inv hstart goalPos ch hinv (topIndex_lt hne _) hexp).1 h

end NPuzzle

namespace NPuzzle

/-! ## The popped nodes and the counter `totalOpened` -/

theorem expand_totalOpened (goalPos : List (Int × (Nat × Nat))) (goal : Board) (ch : Int)
    (st : SearchState) (idx : Nat) :
    (∀ r, expand goalPos goal ch st idx = Sum.inl r → r.2.1 = st.totalOpened + 1) ∧
    (∀ st2, expand goalPos goal ch st idx = Sum.inr st2 →
      st2.totalOpened = st.totalOpened + 1) := by
  rw [expand_eq, expandAt_eq]
  constructor
  · intro r h
    split_ifs at h
    · simp only [Sum.inl.injEq] at h
      rw [← h]
  · intro st2 h
    split_ifs at h
    · simp only [Sum.inr.injEq] at h
      rw [← h, (pushNeighbors_counters _ _).1]
      rfl

theorem loopState_totalOpened (goalPos : List (Int × (Nat × Nat))) (goal : Board) (ch : Int) :
    ∀ (k : Nat) (tie : Nat → Nat) (st st2 : SearchState),
      loopState goalPos goal ch k tie st = some st2 →
      st2.totalOpened = st.totalOpened + ((poppedNodes goalPos goal ch k tie st).length : Int)
  | 0, _, st, st2, h => by
    simp only [loopState, Option.some.injEq] at h
    rw [← h]
    simp [poppedNodes]
  | k + 1, tie, st, st2, h => by
    unfold loopState at h
    unfold poppedNodes
    by_cases hempty : st.openSet.isEmpty = true
    · rw [if_pos hempty] at h
      exact absurd h (by simp)
    · rw [if_neg hempty] at h
      rw [if_neg hempty]
      cases hexp : expand goalPos goal ch st (topIndex st.openSet (tie 0)) with
      | inl r =>
        rw [hexp] at h
        exact absurd h (by simp)
      | inr st3 =>
        rw [hexp] at h
        simp only
        rw [loopState_totalOpened goalPos goal ch k _ st3 st2 h,
          (expand_totalOpened goalPos goal ch st _).2 st3 hexp, List.length_cons]
        push_cast
        omega

theorem aStarLoop_totalOpened (goalPos : List (Int × (Nat × Nat))) (goal : Board) (ch : Int) :
    ∀ (fuel : Nat) (tie : Nat → Nat) (st : SearchState) (r : PuzzleState × Int × Int),
      aStarLoop goalPos goal ch fuel tie st = some r →
      r.2.1 = st.totalOpened + ((poppedNodes goalPos goal ch fuel tie st).length : Int)
  | 0, _, _, _, h => by simp [aStarLoop] at h
  | fuel + 1, tie, st, r, h => by
    unfold aStarLoop at h
    unfold poppedNodes
    by_cases hempty : st.openSet.isEmpty = true
    · rw [if_pos hempty] at h
      rw [if_pos hempty]
      simp only [Option.some.injEq] at h
      rw [← h]
      simp
    · rw [if_neg hempty] at h
      rw [if_neg hempty]
      cases hexp : expand goalPos goal ch st (topIndex st.openSet (tie 0)) with
      | inl r2 =>
        rw [hexp] at h
        simp only [Option.some.injEq] at h
        rw [← h, (expand_totalOpened goalPos goal ch st _).1 r2 hexp]
        simp
      | inr st3 =>
        rw [hexp] at h
        simp only
        rw [aStarLoop_totalOpened goalPos goal ch fuel _ st3 r h,
          (expand_totalOpened goalPos goal ch st _).2 st3 hexp, List.length_cons]
        push_cast
        omega

/-- The popped nodes were built by the search, and their keys are new and distinct. -/
theorem poppedNodes_spec {n : Nat} {start goal : Board} (hstart : ValidBoard n start)
    (goalPos : List (Int × (Nat × Nat))) (ch : Int) :
    ∀ (k : Nat) (tie : Nat → Nat) (st : SearchState), Inv n start goal st →
      (∀ x ∈ poppedNodes goalPos goal ch k tie st,
        GoodNode n start x ∧ x.toString ∉ st.closedSet) ∧
      ((poppedNodes goalPos goal ch k tie st).map PuzzleState.toString).Nodup
  | 0, _, _, _ => by simp [poppedNodes]
  | k + 1, tie, st, hinv => by
    unfold poppedNodes
    by_cases hempty : st.openSet.isEmpty = true
    · rw [if_pos hempty]
      simp
    · rw [if_neg hempty]
      have hne : st.openSet ≠ [] := fun e => hempty (List.isEmpty_iff.2 e)
      have hidx := topIndex_lt hne (tie 0)
      have hmem : st.openSet.getD (topIndex st.openSet (tie 0)) PuzzleState.nullptr ∈
          st.openSet := by
        rw [List.getD_eq_getElem _ _ hidx]
        exact List.getElem_mem _
      have hgood := hinv.base.nodes _ hmem
      have hnew : (st.openSet.getD (topIndex st.openSet (tie 0)) PuzzleState.nullptr).toString ∉
          st.closedSet :=
        fun hc => hinv.base.disjoint _ hc ((hinv.base.keysOpen _).2 ⟨_, hmem, rfl⟩)
      cases hexp : expand goalPos goal ch st (topIndex st.openSet (tie 0)) with
      | inl r =>
        simp only
        refine ⟨?_, by simp⟩
        intro x hx
        rw [List.mem_singleton.1 hx]
        exact ⟨hgood, hnew⟩
      | inr st3 =>
        simp only
        obtain ⟨hinv3, _⟩ := expand_inv hstart goalPos ch hinv hidx hexp
        obtain ⟨_, hclosed, _⟩ := expand_step hstart goalPos ch hinv hidx hexp
        obtain ⟨ih1, ih2⟩ := poppedNodes_spec hstart goalPos ch k (fun i => tie (i + 1)) st3 hinv3
        refine ⟨?_, ?_⟩
        · intro x hx
          rcases List.mem_cons.1 hx with e | hx
          · rw [e]
            exact ⟨hgood, hnew⟩
          · obtain ⟨g1, g2⟩ := ih1 x hx
            rw [hclosed] at g2
            exact ⟨g1, fun hc => g2 (List.mem_cons_of_mem _ hc)⟩
        · rw [List.map_cons, List.nodup_cons]
          refine ⟨?_, ih2⟩
          intro hmem2
          obtain ⟨y, hy, hyk⟩ := List.mem_map.1 hmem2
          have := (ih1 y hy).2
          rw [hclosed, hyk] at this
          exact this (List.mem_cons_self _ _)

/-- No board is popped twice, every popped board is reachable, and so the number of pops is
at most the length of any list that holds every reachable board. -/
theorem poppedNodes_boards {n : Nat} {start goal : Board} (hstart : ValidBoard n start)
    (goalPos : List (Int × (Nat × Nat))) (ch : Int) (k : Nat) (tie : Nat → Nat)
    (st : SearchState) (hinv : Inv n start goal st) :
    ((poppedNodes goalPos goal ch k tie st).map PuzzleState.board).Nodup ∧
    (∀ x ∈ poppedNodes goalPos goal ch k tie st, Reachable n start x.board) ∧
    (∀ bs : List Board, (∀ b, Reachable n start b → b ∈ bs) →
      (poppedNodes goalPos goal ch k tie st).length ≤ bs.length) := by
  obtain ⟨h1, h2⟩ := poppedNodes_spec hstart goalPos ch k tie st hinv
  have hnd : ((poppedNodes goalPos goal ch k tie st).map PuzzleState.board).Nodup := by
    have e : (poppedNodes goalPos goal ch k tie st).map PuzzleState.toString =
        ((poppedNodes goalPos goal ch k tie st).map PuzzleState.board).map boardToString := by
      rw [List.map_map]
      rfl
    rw [e] at h2
    exact List.Nodup.of_map _ h2
  have hreach : ∀ x ∈ poppedNodes goalPos goal ch k tie st, Reachable n start x.board :=
    fun x hx => goodNode_reachable (h1 x hx).1
  refine ⟨hnd, hreach, ?_⟩
  intro bs hbs
  have hsub : (poppedNodes goalPos goal ch k tie st).map PuzzleState.board ⊆ bs := by
    intro b hb
    obtain ⟨x, hx, rfl⟩ := List.mem_map.1 hb
    exact hbs _ (hreach x hx)
  have := (List.subperm_of_subset hnd hsub).length_le
  simpa using this

/-! ## The discards because of `inOpenSet` -/

theorem openDiscards_spec {n : Nat} {start goal : Board} :
    ∀ (l : List PuzzleState) (st : SearchState), OpenInv n start goal st →
      (∀ x ∈ l, GoodNode n start x) →
      ∀ e ∈ openDiscards st l, OpenInv n start goal e.1 ∧ GoodNode n start e.2 ∧
        e.2.toString ∈ e.1.inOpenSet ∧ e.2.toString ∉ e.1.closedSet
  | [], _, _, _ => by simp [openDiscards]
  | x :: l, st, hinv, hl => by
    intro e he
    unfold openDiscards at he
    rcases List.mem_append.1 he with he | he
    · split_ifs at he with hc
      · rw [List.mem_singleton.1 he]
        exact ⟨hinv, hl x (List.mem_cons_self _ _), hc.2, hc.1⟩
      · exact absurd he (List.not_mem_nil _)
    · exact openDiscards_spec l (pushNeighbors st [x])
        (pushStep_inv hinv (hl x (List.mem_cons_self _ _))).1
        (fun y hy => hl y (List.mem_cons_of_mem _ hy)) e he

theorem runDiscards_spec {n : Nat} {start goal : Board} (hstart : ValidBoard n start)
    (goalPos : List (Int × (Nat × Nat))) (ch : Int) :
    ∀ (k : Nat) (tie : Nat → Nat) (st : SearchState), Inv n start goal st →
      ∀ e ∈ runDiscards goalPos goal ch k tie st, OpenInv n start goal e.1 ∧
        GoodNode n start e.2 ∧ e.2.toString ∈ e.1.inOpenSet ∧ e.2.toString ∉ e.1.closedSet
  | 0, _, _, _ => by simp [runDiscards]
  | k + 1, tie, st, hinv => by
    intro e he
    unfold runDiscards at he
    by_cases hempty : st.openSet.isEmpty = true
    · rw [if_pos hempty] at he
      exact absurd he (List.not_mem_nil _)
    · rw [if_neg hempty] at he
      have hne : st.openSet ≠ [] := fun e => hempty (List.isEmpty_iff.2 e)
      have hidx := topIndex_lt hne (tie 0)
      cases hexp : expand goalPos goal ch st (topIndex st.openSet (tie 0)) with
      | inl r =>
        rw [hexp] at he
        exact absurd he (List.not_mem_nil _)
      | inr st3 =>
        rw [hexp] at he
        simp only at he
        obtain ⟨hg, _, _⟩ := expand_step hstart goalPos ch hinv hidx hexp
        obtain ⟨h1, h2, _, _⟩ := afterPop_inv hinv hidx hg
        rcases List.mem_append.1 he with he | he
        · exact openDiscards_spec _ _ h1 (fun x hx => goodNode_neighbor hstart h2 hx) e he
        · exact runDiscards_spec hstart goalPos ch k _ st3
            (expand_inv hstart goalPos ch hinv hidx hexp).1 e he

end NPuzzle

namespace NPuzzle

/-! ## The search returns when the goal is reachable -/

/-- On valid boards with a reachable goal the search returns, given enough fuel, a node
whose board is the goal and whose `g` is the length of a sequence of slides. -/
theorem aStarSearch_returns {n : Nat} {start goal : Board} (hstart : ValidBoard n start)
    (hgoal : ValidBoard n goal) (hreach : Reachable n start goal) (ch : Int) (tie : Nat → Nat)
    {fuel : Nat} (hfuel : (n * n).factorial < fuel) :
    ∃ node totalOpened maxInMemory,
      aStarSearch fuel tie start goal ch = some (node, totalOpened, maxInMemory) ∧
      node ≠ PuzzleState.nullptr ∧ node.board = goal ∧
      ∃ k : Nat, node.g = (k : Int) ∧ SlidePath n k start goal := by
  have hinv := inv_initial goal ch hstart
  have hlen : (start.flatten.permutations).length <
      (initialState start goal ch).closedSet.length + fuel := by
    rw [List.length_permutations, flatten_length hstart.1]
    show _ < 0 + fuel
    omega
  obtain ⟨r, hr⟩ := aStarLoop_terminates hstart (buildGoalPositions goal) ch fuel tie _ hinv hlen
  obtain ⟨node, a, b⟩ := r
  refine ⟨node, a, b, hr, ?_⟩
  rcases aStarLoop_sound hstart hgoal.1 _ ch fuel tie _ _ hinv hr with h | h
  · exact absurd hreach h.2
  · obtain ⟨k, hk, hlen2, hrep⟩ := goodNode_path node h.1
    refine ⟨goodNode_ne_null h.1, h.2, k, hk, ?_⟩
    have := replay_slidePath _ hrep
    rw [hlen2, h.2] at this
    exact this

end NPuzzle

namespace NPuzzle

/-! ## Linear Conflict is Manhattan plus a non-negative count -/

theorem foldl_ge {α : Type} (f : Int → α → Int) (hf : ∀ acc x, acc ≤ f acc x) (l : List α)
    (a : Int) : a ≤ l.foldl f a := by
  induction l generalizing a with
  | nil => exact le_refl a
  | cons x l ih =>
    rw [List.foldl_cons]
    exact le_trans (hf a x) (ih (f a x))

theorem rowConflicts_nonneg (board : Board) (goalPos : List (Int × (Nat × Nat))) :
    0 ≤ rowConflicts board goalPos := by
  unfold rowConflicts
  apply foldl_ge
  intro acc i
  apply foldl_ge
  intro acc j
  simp only
  split_ifs
  · exact le_refl _
  · split
    · exact le_refl _
    · split_ifs
      · apply foldl_ge
        intro acc k
        split_ifs
        · exact le_refl _
        · split
          · exact le_refl _
          · split_ifs <;> omega
      · exact le_refl _

theorem colConflicts_ge (board : Board) (goalPos : List (Int × (Nat × Nat))) (start : Int) :
    start ≤ colConflicts board goalPos start := by
  unfold colConflicts
  apply foldl_ge
  intro acc j
  apply foldl_ge
  intro acc i
  simp only
  split_ifs
  · exact le_refl _
  · split
    · exact le_refl _
    · split_ifs
      · apply foldl_ge
        intro acc k
        split_ifs
        · exact le_refl _
        · split
          · exact le_refl _
          · split_ifs <;> omega
      · exact le_refl _

theorem manhattanDistance_le_linearConflict (board : Board)
    (goalPos : List (Int × (Nat × Nat))) :
    manhattanDistance board goalPos ≤ linearConflict board goalPos := by
  unfold linearConflict
  have h1 := rowConflicts_nonneg board goalPos
  have h2 := colConflicts_ge board goalPos (rowConflicts board goalPos)
  simp only
  omega

/-! ## Hamming is below Manhattan -/

theorem hammingTerm_le_manhattanTerm {n : Nat} {goal : Board} (hg : ValidBoard n goal)
    {tile : Int} (ht : tile ∈ goal.flatten) {i j : Nat} (hi : i < n) (hj : j < n) :
    hammingTerm goal tile (i, j) ≤ manhattanTerm (buildGoalPositions goal) tile (i, j) := by
  unfold hammingTerm manhattanTerm
  by_cases h0 : tile = 0
  · simp [h0]
  · obtain ⟨gr, gc, hgr, hgc, hcell⟩ := (mem_flatten_iff hg.1 tile).1 ht
    have hl := lookup_buildGoalPositions hg.1 hg.2.1 hgr hgc (by rw [hcell]; exact h0)
    rw [hcell] at hl
    simp only [ne_eq, h0, not_false_eq_true, true_and, if_true]
    rw [hl]
    simp only
    by_cases hsame : tile = cell goal i j
    · simp only [hsame, not_true_eq_false, if_false]
      omega
    · simp only [hsame, not_false_eq_true, if_true]
      have hne : ¬ (gr = i ∧ gc = j) := by
        rintro ⟨rfl, rfl⟩
        exact hsame hcell.symm
      omega

theorem sum_map_le {α : Type} (f g : α → Int) (l : List α) (h : ∀ x ∈ l, f x ≤ g x) :
    (l.map f).sum ≤ (l.map g).sum := by
  induction l with
  | nil => simp
  | cons a l ih =>
    simp only [List.map_cons, List.sum_cons]
    have h1 := h a (List.mem_cons_self _ _)
    have h2 := ih (fun x hx => h x (List.mem_cons_of_mem _ hx))
    omega

theorem hammingDistance_le_manhattanDistance {n : Nat} {board goal : Board}
    (hb : IsSquare n board) (hg : ValidBoard n goal)
    (hsub : ∀ v, v ∈ board.flatten → v ∈ goal.flatten) :
    hammingDistance board goal ≤ manhattanDistance board (buildGoalPositions goal) := by
  rw [hammingDistance_eq_sum hb.1, manhattanDistance_eq_sum hb.1]
  apply sum_map_le
  rintro ⟨i, j⟩ hp
  have hp := mem_positions.1 hp
  exact hammingTerm_le_manhattanTerm hg
    (hsub _ ((mem_flatten_iff hb _).2 ⟨i, j, hp.1, hp.2, rfl⟩)) hp.1 hp.2

end NPuzzle

namespace NPuzzle

/-! ## The loops of `generateGoal` that write `num++` into a list of cells -/

theorem fillCells_cons (g : Board) (num : Int) (c : Int × Int) (cs : List (Int × Int)) :
    fillCells g num (c :: cs) = fillCells (setCell g c.1.toNat c.2.toNat num) (num + 1) cs :=
  rfl

theorem fillCells_append (g : Board) (num : Int) (a b : List (Int × Int)) :
    fillCells g num (a ++ b) = fillCells (fillCells g num a).1 (fillCells g num a).2 b := by
  unfold fillCells
  rw [List.foldl_append]

/-- Writing `num, num + 1, ...` into a duplicate-free list of cells of the board. -/
theorem fillCells_spec {n : Nat} : ∀ (cs : List (Nat × Nat)) (g : Board) (num : Int),
    IsSquare n g → cs.Nodup → (∀ p ∈ cs, p.1 < n ∧ p.2 < n) →
    IsSquare n (fillCells g num (cs.map (fun p => ((p.1 : Int), (p.2 : Int))))).1 ∧
    (fillCells g num (cs.map (fun p => ((p.1 : Int), (p.2 : Int))))).2 = num + (cs.length : Int) ∧
    (∀ (k : Nat) (hk : k < cs.length),
      cell (fillCells g num (cs.map (fun p => ((p.1 : Int), (p.2 : Int))))).1
        (cs[k]).1 (cs[k]).2 = num + (k : Int)) ∧
    (∀ i j, i < n → j < n → (i, j) ∉ cs →
      cell (fillCells g num (cs.map (fun p => ((p.1 : Int), (p.2 : Int))))).1 i j = cell g i j)
  | [], g, num, hg, _, _ => by
    refine ⟨hg, by simp [fillCells], ?_, ?_⟩
    · intro k hk
      exact absurd hk (Nat.not_lt_zero k)
    · intro i j _ _ _
      simp [fillCells]
  | c :: cs, g, num, hg, hnd, hin => by
    rw [List.nodup_cons] at hnd
    have hc := hin c (List.mem_cons_self _ _)
    rw [List.map_cons, fillCells_cons]
    simp only [Int.toNat_ofNat]
    obtain ⟨h1, h2, h3, h4⟩ := fillCells_spec cs (setCell g c.1 c.2 num) (num + 1)
      (isSquare_setCell hg _ _ _) hnd.2 (fun p hp => hin p (List.mem_cons_of_mem _ hp))
    refine ⟨h1, ?_, ?_, ?_⟩
    · rw [h2, List.length_cons]
      push_cast
      omega
    · intro k hk
      cases k with
      | zero =>
        simp only [List.getElem_cons_zero]
        rw [h4 c.1 c.2 hc.1 hc.2 hnd.1, cell_setCell hg hc.1 hc.2]
        simp
      | succ k =>
        simp only [List.getElem_cons_succ]
        rw [h3 k (by simpa using hk)]
        push_cast
        omega
    · intro i j hi hj hmem
      have hne : (i, j) ≠ c := fun e => hmem (e ▸ List.mem_cons_self _ _)
      have hmem2 : (i, j) ∉ cs := fun h => hmem (List.mem_cons_of_mem _ h)
      rw [h4 i j hi hj hmem2, cell_setCell hg hc.1 hc.2]
      have hn1 : ¬ (i = c.1 ∧ j = c.2) := fun e => hne (Prod.ext e.1 e.2)
      rw [if_neg hn1]

end NPuzzle

namespace NPuzzle

/-! ## The spiral walk visits every cell once -/

theorem mem_spiralRing {n k i j : Nat} (hk : 2 * k + 1 ≤ n) :
    (i, j) ∈ spiralRing n k ↔
      k ≤ i ∧ i ≤ n - 1 - k ∧ k ≤ j ∧ j ≤ n - 1 - k ∧
        (i = k ∨ j = n - 1 - k ∨ i = n - 1 - k ∨ j = k) := by
  unfold spiralRing
  simp only [List.mem_append, List.mem_map, List.mem_range'_1, List.mem_reverse, Prod.mk.injEq]
  constructor
  · rintro (((⟨a, ha, rfl, rfl⟩ | ⟨a, ha, rfl, rfl⟩) | ⟨a, ha, rfl, rfl⟩) | ⟨a, ha, rfl, rfl⟩) <;>
      omega
  · rintro ⟨h1, h2, h3, h4, h5⟩
    by_cases e1 : i = k
    · exact Or.inl (Or.inl (Or.inl ⟨j, by omega, e1.symm, rfl⟩))
    · by_cases e2 : j = n - 1 - k
      · exact Or.inl (Or.inl (Or.inr ⟨i, by omega, rfl, e2.symm⟩))
      · by_cases e3 : i = n - 1 - k
        · exact Or.inl (Or.inr ⟨j, by omega, e3.symm, rfl⟩)
        · exact Or.inr ⟨i, by omega, rfl, by omega⟩

theorem nodup_spiralRing (n k : Nat) : (spiralRing n k).Nodup := by
  unfold spiralRing
  have inj1 : ∀ a : Nat, Function.Injective (fun j : Nat => (a, j)) := fun a x y h => by
    simpa using h
  have inj2 : ∀ a : Nat, Function.Injective (fun i : Nat => (i, a)) := fun a x y h => by
    simpa using h
  simp only
  rw [List.nodup_append, List.nodup_append, List.nodup_append]
  refine ⟨⟨⟨(List.nodup_range' _ _).map (inj1 _), (List.nodup_range' _ _).map (inj2 _), ?_⟩,
    (List.nodup_reverse.2 (List.nodup_range' _ _)).map (inj1 _), ?_⟩,
    (List.nodup_reverse.2 (List.nodup_range' _ _)).map (inj2 _), ?_⟩
  · rintro ⟨i, j⟩ h1 h2
    simp only [List.mem_map, List.mem_range'_1, Prod.mk.injEq] at h1 h2
    obtain ⟨a, ha, rfl, rfl⟩ := h1
    obtain ⟨b, hb, e1, e2⟩ := h2
    omega
  · rintro ⟨i, j⟩ h1 h2
    simp only [List.mem_append, List.mem_map, List.mem_range'_1, List.mem_reverse,
      Prod.mk.injEq] at h1 h2
    obtain ⟨b, hb, e1, e2⟩ := h2
    rcases h1 with ⟨a, ha, rfl, rfl⟩ | ⟨a, ha, rfl, rfl⟩ <;> omega
  · rintro ⟨i, j⟩ h1 h2
    simp only [List.mem_append, List.mem_map, List.mem_range'_1, List.mem_reverse,
      Prod.mk.injEq] at h1 h2
    obtain ⟨b, hb, e1, e2⟩ := h2
    rcases h1 with (⟨a, ha, rfl, rfl⟩ | ⟨a, ha, rfl, rfl⟩) | ⟨a, ha, rfl, rfl⟩ <;> omega

theorem nodup_spiralWalk (n : Nat) : (spiralWalk n).Nodup := by
  unfold spiralWalk
  rw [List.nodup_flatMap]
  refine ⟨fun k _ => nodup_spiralRing n k, ?_⟩
  have hlt : List.Pairwise (fun a b => a < b) (List.range ((n + 1) / 2)) :=
    List.pairwise_lt_range _
  refine List.Pairwise.imp_of_mem ?_ hlt
  intro a b ha hb hab
  rw [List.mem_range] at ha hb
  rintro ⟨i, j⟩ h1 h2
  rw [mem_spiralRing (by omega)] at h1 h2
  omega

theorem mem_spiralWalk {n i j : Nat} : (i, j) ∈ spiralWalk n ↔ i < n ∧ j < n := by
  unfold spiralWalk
  rw [List.mem_flatMap]
  constructor
  · rintro ⟨k, hk, h⟩
    rw [List.mem_range] at hk
    rw [mem_spiralRing (by omega)] at h
    omega
  · rintro ⟨hi, hj⟩
    have key : ∃ k, k ≤ i ∧ i ≤ n - 1 - k ∧ k ≤ j ∧ j ≤ n - 1 - k ∧
        (i = k ∨ j = n - 1 - k ∨ i = n - 1 - k ∨ j = k) := by
      by_cases c1 : i ≤ j ∧ i ≤ n - 1 - i ∧ i ≤ n - 1 - j
      · exact ⟨i, by omega⟩
      · by_cases c2 : j ≤ i ∧ j ≤ n - 1 - i ∧ j ≤ n - 1 - j
        · exact ⟨j, by omega⟩
        · by_cases c3 : n - 1 - i ≤ i ∧ n - 1 - i ≤ j ∧ n - 1 - i ≤ n - 1 - j
          · exact ⟨n - 1 - i, by omega⟩
          · exact ⟨n - 1 - j, by omega⟩
    obtain ⟨k, hk⟩ := key
    exact ⟨k, List.mem_range.2 (by omega), (mem_spiralRing (by omega)).2 hk⟩

end NPuzzle

namespace NPuzzle

/-! ## The loop of `generateGoal` writes along the spiral walk -/

theorem intRange_cast (a : Nat) (b : Int) :
    intRange (a : Int) b = (List.range' a (b + 1 - a).toNat).map (fun k : Nat => (k : Int)) := by
  unfold intRange
  rw [List.range'_eq_map_range]
  simp [List.map_map, Function.comp_def, ← List.map_eq_flatMap]

theorem rowSegment (t a c : Nat) (b : Int) (h : (b + 1 - a).toNat = c) :
    (intRange (a : Int) b).map (fun i => ((t : Int), i)) =
      ((List.range' a c).map (fun j => (t, j))).map
        (fun p : Nat × Nat => ((p.1 : Int), (p.2 : Int))) := by
  rw [intRange_cast, h, List.map_map, List.map_map]
  rfl

theorem colSegment (t a c : Nat) (b : Int) (h : (b + 1 - a).toNat = c) :
    (intRange (a : Int) b).map (fun i => (i, (t : Int))) =
      ((List.range' a c).map (fun i => (i, t))).map
        (fun p : Nat × Nat => ((p.1 : Int), (p.2 : Int))) := by
  rw [intRange_cast, h, List.map_map, List.map_map]
  rfl

theorem rowSegmentRev (t a c : Nat) (b : Int) (h : (b + 1 - a).toNat = c) :
    (intRange (a : Int) b).reverse.map (fun i => ((t : Int), i)) =
      ((List.range' a c).reverse.map (fun j => (t, j))).map
        (fun p : Nat × Nat => ((p.1 : Int), (p.2 : Int))) := by
  rw [intRange_cast, h, ← List.map_reverse, List.map_map, List.map_map]
  rfl

theorem colSegmentRev (t a c : Nat) (b : Int) (h : (b + 1 - a).toNat = c) :
    (intRange (a : Int) b).reverse.map (fun i => (i, (t : Int))) =
      ((List.range' a c).reverse.map (fun i => (i, t))).map
        (fun p : Nat × Nat => ((p.1 : Int), (p.2 : Int))) := by
  rw [intRange_cast, h, ← List.map_reverse, List.map_map, List.map_map]
  rfl

theorem spiralRing_cast {n k : Nat} (hk : 2 * k + 1 ≤ n) :
    (spiralRing n k).map (fun p : Nat × Nat => ((p.1 : Int), (p.2 : Int))) =
      (intRange (k : Int) ((n - 1 - k : Nat) : Int)).map (fun i => ((k : Int), i)) ++
      (intRange ((k + 1 : Nat) : Int) ((n - 1 - k : Nat) : Int)).map
        (fun i => (i, ((n - 1 - k : Nat) : Int))) ++
      (intRange (k : Int) (((n - 1 - k : Nat) : Int) - 1)).reverse.map
        (fun i => (((n - 1 - k : Nat) : Int), i)) ++
      (intRange ((k + 1 : Nat) : Int) (((n - 1 - k : Nat) : Int) - 1)).reverse.map
        (fun i => (i, (k : Int))) := by
  rw [rowSegment k k (n - 1 - k + 1 - k) _ (by omega),
    colSegment (n - 1 - k) (k + 1) (n - 1 - k - k) _ (by omega),
    rowSegmentRev (n - 1 - k) k (n - 1 - k - k) _ (by omega),
    colSegmentRev k (k + 1) (n - 1 - k - k - 1) _ (by omega)]
  unfold spiralRing
  simp only [List.map_append]

theorem spiralStep_regular (g : Board) (num : Int) {n k : Nat} (hk : 2 * k + 2 ≤ n) :
    spiralStep { goal := g, num := num, top := (k : Int), bottom := ((n - 1 - k : Nat) : Int),
                 left := (k : Int), right := ((n - 1 - k : Nat) : Int) } =
      { goal := (fillCells g num
          ((spiralRing n k).map (fun p : Nat × Nat => ((p.1 : Int), (p.2 : Int))))).1,
        num := (fillCells g num
          ((spiralRing n k).map (fun p : Nat × Nat => ((p.1 : Int), (p.2 : Int))))).2,
        top := (k : Int) + 1, bottom := ((n - 1 - k : Nat) : Int) - 1,
        left := (k : Int) + 1, right := ((n - 1 - k : Nat) : Int) - 1 } := by
  rw [spiralRing_cast (by omega), fillCells_append, fillCells_append, fillCells_append]
  unfold spiralStep
  simp only
  have c1 : (k : Int) + 1 ≤ ((n - 1 - k : Nat) : Int) := by omega
  have c2 : (k : Int) ≤ ((n - 1 - k : Nat) : Int) - 1 := by omega
  rw [if_pos c1]
  simp only
  rw [if_pos c2]
  simp only [Nat.cast_add, Nat.cast_one]

theorem spiralStep_centre (g : Board) (num : Int) {n k : Nat} (hk : 2 * k + 1 = n) :
    spiralStep { goal := g, num := num, top := (k : Int), bottom := ((n - 1 - k : Nat) : Int),
                 left := (k : Int), right := ((n - 1 - k : Nat) : Int) } =
      { goal := (fillCells g num
          ((spiralRing n k).map (fun p : Nat × Nat => ((p.1 : Int), (p.2 : Int))))).1,
        num := (fillCells g num
          ((spiralRing n k).map (fun p : Nat × Nat => ((p.1 : Int), (p.2 : Int))))).2,
        top := (k : Int) + 1, bottom := ((n - 1 - k : Nat) : Int),
        left := (k : Int), right := ((n - 1 - k : Nat) : Int) - 1 } := by
  rw [spiralRing_cast (by omega), fillCells_append, fillCells_append, fillCells_append]
  have z1 : intRange (k : Int) (((n - 1 - k : Nat) : Int) - 1) = [] := by
    unfold intRange
    have : ((((n - 1 - k : Nat) : Int) - 1) + 1 - (k : Int)).toNat = 0 := by omega
    rw [this]
    rfl
  have z2 : intRange ((k + 1 : Nat) : Int) (((n - 1 - k : Nat) : Int) - 1) = [] := by
    unfold intRange
    have : ((((n - 1 - k : Nat) : Int) - 1) + 1 - ((k + 1 : Nat) : Int)).toNat = 0 := by omega
    rw [this]
    rfl
  rw [z1, z2]
  unfold spiralStep
  simp only
  have c1 : ¬ (k : Int) + 1 ≤ ((n - 1 - k : Nat) : Int) := by omega
  have c2 : ¬ (k : Int) ≤ ((n - 1 - k : Nat) : Int) - 1 := by omega
  rw [if_neg c1]
  simp only
  rw [if_neg c2]
  simp [fillCells, Nat.cast_add, Nat.cast_one]

/-- The loop of `generateGoal`, entered at ring `k` with `d` rings to go. -/
theorem spiralLoop_rings (n : Nat) : ∀ (d k : Nat) (g : Board) (num : Int) (fuel : Nat),
    k + d = (n + 1) / 2 → d < fuel →
    ∃ s2, spiralLoop fuel
        { goal := g, num := num, top := (k : Int), bottom := ((n : Int) - 1 - (k : Int)),
          left := (k : Int), right := ((n : Int) - 1 - (k : Int)) } = some s2 ∧
      s2.goal = (fillCells g num (((List.range' k d).flatMap (spiralRing n)).map
        (fun p : Nat × Nat => ((p.1 : Int), (p.2 : Int))))).1
  | 0, k, g, num, fuel, hk, hf => by
    obtain ⟨f, rfl⟩ : ∃ f, fuel = f + 1 := ⟨fuel - 1, by omega⟩
    have hstop : ∀ st : GoalGen, ¬ (st.top ≤ st.bottom ∧ st.left ≤ st.right) →
        spiralLoop (f + 1) st = some st := by
      intro st hst
      unfold spiralLoop
      rw [if_neg hst]
    refine ⟨_, hstop _ ?_, ?_⟩
    · simp only
      omega
    · simp [fillCells]
  | d + 1, k, g, num, fuel, hk, hf => by
    obtain ⟨f, rfl⟩ : ∃ f, fuel = f + 1 := ⟨fuel - 1, by omega⟩
    have hm : (n : Int) - 1 - (k : Int) = ((n - 1 - k : Nat) : Int) := by omega
    have hcond : ((k : Int) ≤ (n : Int) - 1 - (k : Int) ∧ (k : Int) ≤ (n : Int) - 1 - (k : Int)) := by
      omega
    unfold spiralLoop
    rw [if_pos hcond, hm]
    rw [List.range'_succ, List.flatMap_cons, List.map_append, fillCells_append]
    by_cases hreg : 2 * k + 2 ≤ n
    · rw [spiralStep_regular g num hreg]
      have hm2 : ((n - 1 - k : Nat) : Int) - 1 = (n : Int) - 1 - ((k + 1 : Nat) : Int) := by
        omega
      rw [hm2, show ((k : Int) + 1) = ((k + 1 : Nat) : Int) from by push_cast; rfl]
      exact spiralLoop_rings n d (k + 1) _ _ f (by omega) (by omega)
    · have hc : 2 * k + 1 = n := by omega
      have hd : d = 0 := by omega
      subst hd
      rw [spiralStep_centre g num hc]
      obtain ⟨f2, rfl⟩ : ∃ f2, f = f2 + 1 := ⟨f - 1, by omega⟩
      have hstop : ∀ st : GoalGen, ¬ (st.top ≤ st.bottom ∧ st.left ≤ st.right) →
          spiralLoop (f2 + 1) st = some st := by
        intro st hst
        unfold spiralLoop
        rw [if_neg hst]
      refine ⟨_, hstop _ ?_, ?_⟩
      · simp only
        omega
      · simp [fillCells]

/-- The board that `generateGoal` returns: the numbers 1, 2, ... written along the spiral
walk, then 0 written into the cell `(size/2, size/2)`. -/
theorem generateGoal_eq (n : Nat) :
    generateGoal n = setCell (fillCells (List.replicate n (List.replicate n 0)) 1
      ((spiralWalk n).map (fun p : Nat × Nat => ((p.1 : Int), (p.2 : Int))))).1
      (n / 2) (n / 2) 0 := by
  obtain ⟨s2, h1, h2⟩ := spiralLoop_rings n ((n + 1) / 2) 0
    (List.replicate n (List.replicate n 0)) 1 (n + 1) (by omega) (by omega)
  unfold generateGoal
  simp only [Nat.cast_zero, sub_zero] at h1 ⊢
  rw [h1]
  simp only
  rw [h2]
  unfold spiralWalk
  rw [List.range_eq_range']

end NPuzzle

namespace NPuzzle

/-! ## The cells of the generated goal -/

theorem isSquare_replicate (n : Nat) (v : Int) :
    IsSquare n (List.replicate n (List.replicate n v)) := by
  refine ⟨List.length_replicate _ _, ?_⟩
  intro row hrow
  rw [List.eq_of_mem_replicate hrow, List.length_replicate]

theorem mem_spiralWalk_getElem {n : Nat} (k : Nat) (hk : k < (spiralWalk n).length) :
    ((spiralWalk n)[k]).1 < n ∧ ((spiralWalk n)[k]).2 < n :=
  mem_spiralWalk.1 (List.getElem_mem hk)

/-- The cells of `generateGoal(n)`: 0 in the centre cell, and `k + 1` in the `k`-th cell of
the spiral walk when this is another cell. -/
theorem generateGoal_cells (n : Nat) :
    IsSquare n (generateGoal n) ∧
    (0 < n → cell (generateGoal n) (n / 2) (n / 2) = 0) ∧
    (∀ (k : Nat) (hk : k < (spiralWalk n).length), (spiralWalk n)[k] ≠ (n / 2, n / 2) →
      cell (generateGoal n) ((spiralWalk n)[k]).1 ((spiralWalk n)[k]).2 = (k : Int) + 1) := by
  obtain ⟨h1, _, h3, _⟩ := fillCells_spec (spiralWalk n) (List.replicate n (List.replicate n 0)) 1
    (isSquare_replicate n 0) (nodup_spiralWalk n) (fun p hp => mem_spiralWalk.1 hp)
  rw [generateGoal_eq]
  refine ⟨isSquare_setCell h1 _ _ _, ?_, ?_⟩
  · intro hn
    have hc : n / 2 < n := Nat.div_lt_self hn (by decide)
    rw [cell_setCell h1 hc hc]
    simp
  · intro k hk hne
    have hb := mem_spiralWalk_getElem k hk
    have hn : 0 < n := by omega
    have hc : n / 2 < n := Nat.div_lt_self hn (by decide)
    rw [cell_setCell h1 hc hc, if_neg (fun e => hne (Prod.ext e.1 e.2)), h3 k hk]
    omega

end NPuzzle

namespace NPuzzle

/-! ## Claims on the agreement of the heuristics, the goal layout and the path length -/

set_option maxRecDepth 1000000 in
set_option maxHeartbeats 40000000 in
/-- C11 (failing input) — The heuristics do not return the same `g`. On the start board
`[[1,4,6],[0,8,3],[7,5,2]]` with the goal `generateGoal(3) = [[1,2,3],[8,0,4],[7,6,5]]`, a
pair of boards that `isSolvable` accepts and a goal that is reachable from this start, every
run of `aStarSearch` with the Manhattan heuristic (choice 1) returns a node with `g = 15`,
however ties in the open queue are resolved, and the run with the Hamming heuristic
(choice 3) in which ties go to the node that entered the open queue first returns a node with
`g = 13`. -/
theorem heuristics_disagree :
    generateGoal 3 = [[1, 2, 3], [8, 0, 4], [7, 6, 5]] ∧
    ValidBoard 3 [[1, 4, 6], [0, 8, 3], [7, 5, 2]] ∧
    ValidBoard 3 [[1, 2, 3], [8, 0, 4], [7, 6, 5]] ∧
    SameValues [[1, 4, 6], [0, 8, 3], [7, 5, 2]] [[1, 2, 3], [8, 0, 4], [7, 6, 5]] ∧
    isSolvable [[1, 4, 6], [0, 8, 3], [7, 5, 2]] [[1, 2, 3], [8, 0, 4], [7, 6, 5]] = true ∧
    Reachable 3 [[1, 4, 6], [0, 8, 3], [7, 5, 2]] [[1, 2, 3], [8, 0, 4], [7, 6, 5]] ∧
    (∀ tie : Nat → Nat, ∃ node totalOpened maxInMemory,
      aStarSearch 60 tie [[1, 4, 6], [0, 8, 3], [7, 5, 2]] [[1, 2, 3], [8, 0, 4], [7, 6, 5]] 1 =
        some (node, totalOpened, maxInMemory) ∧
      node ≠ PuzzleState.nullptr ∧ node.g = 15) ∧
    (∃ node totalOpened maxInMemory,
      aStarSearch 130 (fun _ => 0) [[1, 4, 6], [0, 8, 3], [7, 5, 2]]
        [[1, 2, 3], [8, 0, 4], [7, 6, 5]] 3 = some (node, totalOpened, maxInMemory) ∧
      node ≠ PuzzleState.nullptr ∧ node.g = 13) := by
  refine ⟨by decide, ⟨⟨rfl, by decide⟩, by decide, by decide⟩,
    ⟨⟨rfl, by decide⟩, by decide, by decide⟩, ?_, by decide, ⟨13, ?_⟩,
    runs_manhattan_fifteen, ?_⟩
  · intro v
    exact List.Perm.mem_iff (by decide)
  · exact @slidePath_of_replay 3
      ['R', 'R', 'U', 'L', 'D', 'R', 'D', 'L', 'U', 'R', 'U', 'L', 'D'] _ _ (by decide)
  · exact result_of_resultG (by decide!)

/-- C12 — Spiral layout of the goal: for every `n ≥ 2`, `generateGoal(n)` is an `n × n`
board that holds 0 at the cell `(n/2, n/2)` and at no other cell, and every other cell holds
its 1-based position in the clockwise inward spiral walk `spiralWalk n` from the top-left
corner (a walk that visits every cell of the board once); for `n = 3` the board is
`[[1,2,3],[8,0,4],[7,6,5]]`. -/
theorem generateGoal_spiral (n : Nat) (hn : 2 ≤ n) :
    IsSquare n (generateGoal n) ∧
    (spiralWalk n).Nodup ∧
    (∀ i j, (i, j) ∈ spiralWalk n ↔ i < n ∧ j < n) ∧
    cell (generateGoal n) (n / 2) (n / 2) = 0 ∧
    (∀ i j, i < n → j < n → cell (generateGoal n) i j = 0 → i = n / 2 ∧ j = n / 2) ∧
    (∀ (k : Nat) (hk : k < (spiralWalk n).length), (spiralWalk n)[k] ≠ (n / 2, n / 2) →
      cell (generateGoal n) ((spiralWalk n)[k]).1 ((spiralWalk n)[k]).2 = (k : Int) + 1) ∧
    (n = 3 → generateGoal n = [[1, 2, 3], [8, 0, 4], [7, 6, 5]]) := by
  obtain ⟨h1, h2, h3⟩ := generateGoal_cells n
  refine ⟨h1, nodup_spiralWalk n, fun i j => mem_spiralWalk, h2 (by omega), ?_, h3, ?_⟩
  · intro i j hi hj hz
    by_contra hne
    obtain ⟨k, hk, hkeq⟩ := List.mem_iff_getElem.1 (mem_spiralWalk.2 ⟨hi, hj⟩)
    have hcentre : (spiralWalk n)[k] ≠ (n / 2, n / 2) := by
      rw [hkeq]
      intro e
      exact hne ⟨congrArg Prod.fst e, congrArg Prod.snd e⟩
    have := h3 k hk hcentre
    rw [hkeq] at this
    simp only at this
    omega
  · intro e
    subst e
    decide

/-- C12 (witness) — for `n = 3`: the walk and the board `[[1,2,3],[8,0,4],[7,6,5]]`. -/
theorem generateGoal_spiral_witness :
    spiralWalk 3 = [(0, 0), (0, 1), (0, 2), (1, 2), (2, 2), (2, 1), (2, 0), (1, 0), (1, 1)] ∧
    generateGoal 3 = [[1, 2, 3], [8, 0, 4], [7, 6, 5]] ∧
    cell (generateGoal 3) (3 / 2) (3 / 2) = 0 :=
  ⟨by decide, (generateGoal_spiral 3 (by decide)).2.2.2.2.2.2 rfl,
    (generateGoal_spiral 3 (by decide)).2.2.2.1⟩

/-- C13 (counterexample) — on start `[[1,2,3],[4,0,6],[7,5,8]]`, goal
`[[1,2,3],[4,5,6],[7,8,0]]` every run, for every heuristic choice, returns a node with
`g = 2` whose reconstructed path has 3 boards. -/
theorem solutionPath_length_ne_g :
    ValidBoard 3 [[1, 2, 3], [4, 0, 6], [7, 5, 8]] ∧
    ValidBoard 3 [[1, 2, 3], [4, 5, 6], [7, 8, 0]] ∧
    (∀ (heuristicChoice : Int) (tie : Nat → Nat), ∃ node totalOpened maxInMemory,
      aStarSearch 10 tie [[1, 2, 3], [4, 0, 6], [7, 5, 8]] [[1, 2, 3], [4, 5, 6], [7, 8, 0]]
        heuristicChoice = some (node, totalOpened, maxInMemory) ∧
      node ≠ PuzzleState.nullptr ∧ node.g = 2 ∧ (solutionPath node).length = 3) := by
  have hs : ValidBoard 3 [[1, 2, 3], [4, 0, 6], [7, 5, 8]] :=
    ⟨⟨rfl, by decide⟩, by decide, by decide⟩
  have hg : ValidBoard 3 [[1, 2, 3], [4, 5, 6], [7, 8, 0]] :=
    ⟨⟨rfl, by decide⟩, by decide, by decide⟩
  refine ⟨hs, hg, ?_⟩
  intro ch tie
  obtain ⟨node, a, b, hres, hne, hgv⟩ := runs_two_moves ch tie
  refine ⟨node, a, b, hres, hne, hgv, ?_⟩
  rcases aStarSearch_sound hs hg hres with h | h
  · exact absurd h.1 hne
  · obtain ⟨k, hk, hlen, _⟩ := goodNode_path node h.1
    obtain ⟨_, _, c3, _⟩ := goodNode_chain node h.1
    rw [List.length_map] at c3
    rw [c3, hlen]
    have : (k : Int) = 2 := by rw [← hk, hgv]
    omega

/-- C13 (as amended) — for every solution node returned by `aStarSearch` on valid boards,
the sequence of boards that `printSolutionPath` prints (the parent chain from the root to the
node) has `g + 1` boards: the start board and one board after each move. -/
theorem solutionPath_length (n : Nat) (start goal : Board) (hstart : ValidBoard n start)
    (hgoal : ValidBoard n goal) (heuristicChoice : Int) (tie : Nat → Nat) (fuel : Nat)
    (node : PuzzleState) (totalOpened maxInMemory : Int)
    (hres : aStarSearch fuel tie start goal heuristicChoice =
      some (node, totalOpened, maxInMemory))
    (hnode : node ≠ PuzzleState.nullptr) :
    (((solutionPath node).length : Nat) : Int) = node.g + 1 ∧
    ((solutionPath node).map PuzzleState.board).head? = some start ∧
    ((solutionPath node).map PuzzleState.board).getLast? = some goal := by
  rcases aStarSearch_sound hstart hgoal hres with h | h
  · exact absurd h.1 hnode
  · obtain ⟨k, hk, hlen, _⟩ := goodNode_path node h.1
    obtain ⟨c1, c2, c3, _⟩ := goodNode_chain node h.1
    rw [List.length_map] at c3
    rw [h.2] at c2
    refine ⟨?_, c1, c2⟩
    rw [c3, hlen, hk]
    push_cast
    rfl

set_option maxRecDepth 100000 in
/-- C13 (witness) — a run that returns a node with `g = 2` and a path of 3 boards. -/
theorem solutionPath_length_witness :
    ∃ node : PuzzleState,
      aStarSearch 10 (fun _ => 0) [[1, 2, 3], [4, 0, 6], [7, 5, 8]]
        [[1, 2, 3], [4, 5, 6], [7, 8, 0]] 1 = some (node, 3, 7) ∧
      node.g = 2 ∧ (((solutionPath node).length : Nat) : Int) = node.g + 1 :=
  ⟨PuzzleState.mk [[1, 2, 3], [4, 5, 6], [7, 8, 0]] 3 (2, 2) 2 0 ['D', 'R']
      (PuzzleState.mk [[1, 2, 3], [4, 5, 6], [7, 0, 8]] 3 (2, 1) 1 1 ['D']
        (PuzzleState.mk [[1, 2, 3], [4, 0, 6], [7, 5, 8]] 3 (1, 1) 0 2 [] PuzzleState.nullptr)),
    by rfl, rfl,
    (solutionPath_length 3 [[1, 2, 3], [4, 0, 6], [7, 5, 8]] [[1, 2, 3], [4, 5, 6], [7, 8, 0]]
      ⟨⟨rfl, by decide⟩, by decide, by decide⟩ ⟨⟨rfl, by decide⟩, by decide, by decide⟩
      1 (fun _ => 0) 10 _ 3 7 (by rfl) (by simp)).1⟩

/-- C14 — Linear Conflict dominates Manhattan: for every board `B` and every goal position
map `P`, `manhattanDistance(B, P) ≤ linearConflict(B, P)`. -/
theorem manhattan_le_linearConflict (B : Board) (P : List (Int × (Nat × Nat))) :
    manhattanDistance B P ≤ linearConflict B P :=
  manhattanDistance_le_linearConflict B P

/-- C15 — Hamming is the weakest bound: for every pair of `n × n` boards `B` and `G` that
hold the same distinct values with one 0,
`hammingDistance(B, G) ≤ manhattanDistance(B, buildGoalPositions(G))`. -/
theorem hamming_le_manhattan (n : Nat) (B G : Board) (hB : ValidBoard n B)
    (hG : ValidBoard n G) (hsame : SameValues B G) :
    hammingDistance B G ≤ manhattanDistance B (buildGoalPositions G) :=
  hammingDistance_le_manhattanDistance hB.1 hG (fun v hv => (hsame v).1 hv)

/-- C15 (witness) — a 3 × 3 instance. -/
theorem hamming_le_manhattan_witness :
    hammingDistance [[1, 2, 3], [8, 6, 7], [4, 0, 5]] [[1, 2, 3], [4, 5, 6], [7, 8, 0]] ≤
      manhattanDistance [[1, 2, 3], [8, 6, 7], [4, 0, 5]]
        (buildGoalPositions [[1, 2, 3], [4, 5, 6], [7, 8, 0]]) :=
  hamming_le_manhattan 3 [[1, 2, 3], [8, 6, 7], [4, 0, 5]] [[1, 2, 3], [4, 5, 6], [7, 8, 0]]
    ⟨⟨rfl, by decide⟩, by decide, by decide⟩ ⟨⟨rfl, by decide⟩, by decide, by decide⟩
    (fun _ => List.Perm.mem_iff (by decide))

/-- C16 — Consistency of Manhattan: for every pair of `n × n` boards `B` and `G` with
distinct values and one 0 and every board `B2` obtained from `B` by one legal blank slide,
`manhattanDistance(B, buildGoalPositions(G))` and `manhattanDistance(B2, buildGoalPositions(G))`
differ by at most 1, and `manhattanDistance(G, buildGoalPositions(G)) = 0`. -/
theorem manhattan_consistent (n : Nat) (B G : Board) (hB : ValidBoard n B)
    (hG : ValidBoard n G) (B2 : Board) (hs : Slide n B B2) :
    (manhattanDistance B (buildGoalPositions G) -
      manhattanDistance B2 (buildGoalPositions G)).natAbs ≤ 1 ∧
    manhattanDistance G (buildGoalPositions G) = 0 := by
  have h := manhattanDistance_slide hB.1 hs (buildGoalPositions G)
  refine ⟨?_, manhattanDistance_goal hG⟩
  omega

/-- C16 (witness) — the slide `U` on a 3 × 3 board. -/
theorem manhattan_consistent_witness :
    (manhattanDistance [[1, 2, 3], [8, 6, 7], [4, 0, 5]]
        (buildGoalPositions [[1, 2, 3], [4, 5, 6], [7, 8, 0]]) -
      manhattanDistance [[1, 2, 3], [8, 0, 7], [4, 6, 5]]
        (buildGoalPositions [[1, 2, 3], [4, 5, 6], [7, 8, 0]])).natAbs ≤ 1 ∧
    manhattanDistance [[1, 2, 3], [4, 5, 6], [7, 8, 0]]
      (buildGoalPositions [[1, 2, 3], [4, 5, 6], [7, 8, 0]]) = 0 :=
  manhattan_consistent 3 [[1, 2, 3], [8, 6, 7], [4, 0, 5]] [[1, 2, 3], [4, 5, 6], [7, 8, 0]]
    ⟨⟨rfl, by decide⟩, by decide, by decide⟩ ⟨⟨rfl, by decide⟩, by decide, by decide⟩
    [[1, 2, 3], [8, 0, 7], [4, 6, 5]]
    ⟨'U', (-1, 0), rfl, 2, 1, by decide, by decide, by decide, by decide, by decide, by decide,
      by decide, by decide⟩

end NPuzzle

namespace NPuzzle

/-! ## Claims on the search loop, the neighbours and the key -/

set_option maxRecDepth 1000000 in
set_option maxHeartbeats 4000000 in
/-- C17 (failing input) — On the start board `[[4,8,3],[0,1,5],[7,6,2]]` with the goal
`generateGoal(3) = [[1,2,3],[8,0,4],[7,6,5]]`, a pair of boards that `isSolvable` accepts, and
the default Manhattan heuristic (choice 1), every run of `aStarSearch`, however ties in the
open queue are resolved, discards within its first 11 iterations a neighbour whose key is in
`inOpenSet` and whose `g` is smaller than the `g` of the node of the open queue that has this
key: a cheaper rediscovery of an open board is dropped. -/
theorem discard_cheaper_rediscovery :
    generateGoal 3 = [[1, 2, 3], [8, 0, 4], [7, 6, 5]] ∧
    ValidBoard 3 [[4, 8, 3], [0, 1, 5], [7, 6, 2]] ∧
    ValidBoard 3 [[1, 2, 3], [8, 0, 4], [7, 6, 5]] ∧
    SameValues [[4, 8, 3], [0, 1, 5], [7, 6, 2]] [[1, 2, 3], [8, 0, 4], [7, 6, 5]] ∧
    isSolvable [[4, 8, 3], [0, 1, 5], [7, 6, 2]] [[1, 2, 3], [8, 0, 4], [7, 6, 5]] = true ∧
    (∀ tie : Nat → Nat,
      ∃ e ∈ runDiscards (buildGoalPositions [[1, 2, 3], [8, 0, 4], [7, 6, 5]])
          [[1, 2, 3], [8, 0, 4], [7, 6, 5]] 1 11 tie
          (initialState [[4, 8, 3], [0, 1, 5], [7, 6, 2]] [[1, 2, 3], [8, 0, 4], [7, 6, 5]] 1),
        ∃ x ∈ e.1.openSet, x.toString = e.2.toString ∧ e.2.g < x.g) := by
  refine ⟨by decide, ⟨⟨rfl, by decide⟩, by decide, by decide⟩,
    ⟨⟨rfl, by decide⟩, by decide, by decide⟩, ?_, by decide, ?_⟩
  · intro v
    exact List.Perm.mem_iff (by decide)
  · intro tie
    obtain ⟨e, he, hc⟩ := allRunsCheaper_sound
      (buildGoalPositions [[1, 2, 3], [8, 0, 4], [7, 6, 5]]) [[1, 2, 3], [8, 0, 4], [7, 6, 5]] 1 11
      (initialState [[4, 8, 3], [0, 1, 5], [7, 6, 2]] [[1, 2, 3], [8, 0, 4], [7, 6, 5]] 1)
      (by decide!) tie
    refine ⟨e, he, ?_⟩
    unfold cheaperDiscard at hc
    obtain ⟨x, hx, hd⟩ := List.any_eq_true.1 hc
    exact ⟨x, hx, of_decide_eq_true hd⟩

/-- C18 — Open and Closed stay disjoint and duplicate-free: in every run of `aStarSearch`
on a valid start board, at the top of every iteration of the loop no key is in both
`inOpenSet` and `closedSet`, the keys of the nodes of the open queue are pairwise distinct and
are exactly the members of `inOpenSet`, and `totalOpened` is the number of pops so far; no
board is popped twice; and `totalOpened`, at the top of an iteration and in the returned
triple, is at most the length of any list that holds every board reachable from start. -/
theorem open_closed_invariant (n : Nat) (start goal : Board) (hstart : ValidBoard n start)
    (heuristicChoice : Int) (tie : Nat → Nat) :
    (∀ (k : Nat) (st : SearchState),
      loopState (buildGoalPositions goal) goal heuristicChoice k tie
        (initialState start goal heuristicChoice) = some st →
      (∀ key, key ∈ st.closedSet → key ∉ st.inOpenSet) ∧
      (st.openSet.map PuzzleState.toString).Nodup ∧
      (∀ key, key ∈ st.inOpenSet ↔ ∃ x ∈ st.openSet, x.toString = key) ∧
      st.totalOpened = ((poppedNodes (buildGoalPositions goal) goal heuristicChoice k tie
        (initialState start goal heuristicChoice)).length : Int) ∧
      (∀ bs : List Board, (∀ b, Reachable n start b → b ∈ bs) →
        st.totalOpened ≤ (bs.length : Int))) ∧
    (∀ k : Nat,
      ((poppedNodes (buildGoalPositions goal) goal heuristicChoice k tie
        (initialState start goal heuristicChoice)).map PuzzleState.board).Nodup ∧
      ∀ x ∈ poppedNodes (buildGoalPositions goal) goal heuristicChoice k tie
        (initialState start goal heuristicChoice), Reachable n start x.board) ∧
    (∀ (fuel : Nat) (node : PuzzleState) (totalOpened maxInMemory : Int),
      aStarSearch fuel tie start goal heuristicChoice = some (node, totalOpened, maxInMemory) →
      ∀ bs : List Board, (∀ b, Reachable n start b → b ∈ bs) →
        totalOpened ≤ (bs.length : Int)) := by
  have hinit := inv_initial goal heuristicChoice hstart
  have hzero : (initialState start goal heuristicChoice).totalOpened = 0 := rfl
  refine ⟨?_, ?_, ?_⟩
  · intro k st hst
    have hinv := loopState_inv hstart _ heuristicChoice k tie _ st hinit hst
    have hcount := loopState_totalOpened _ goal heuristicChoice k tie _ st hst
    rw [hzero, zero_add] at hcount
    refine ⟨hinv.base.disjoint, hinv.base.nodupOpen, hinv.base.keysOpen, hcount, ?_⟩
    intro bs hbs
    rw [hcount]
    exact_mod_cast (poppedNodes_boards hstart _ heuristicChoice k tie _ hinit).2.2 bs hbs
  · intro k
    obtain ⟨h1, h2, _⟩ := poppedNodes_boards hstart (buildGoalPositions goal) heuristicChoice k
      tie _ hinit
    exact ⟨h1, h2⟩
  · intro fuel node a b hres bs hbs
    have hcount := aStarLoop_totalOpened _ goal heuristicChoice fuel tie _ _ hres
    rw [hzero, zero_add] at hcount
    simp only at hcount
    rw [hcount]
    exact_mod_cast (poppedNodes_boards hstart _ heuristicChoice fuel tie _ hinit).2.2 bs hbs

set_option maxRecDepth 100000 in
/-- C18 (witness) — on start `[[1,2,3],[4,0,6],[7,5,8]]`, goal `[[1,2,3],[4,5,6],[7,8,0]]`:
the state at the top of the second iteration, and the statement at this instance. -/
theorem open_closed_invariant_witness :
    ValidBoard 3 [[1, 2, 3], [4, 0, 6], [7, 5, 8]] ∧
    (∃ st, loopState (buildGoalPositions [[1, 2, 3], [4, 5, 6], [7, 8, 0]])
        [[1, 2, 3], [4, 5, 6], [7, 8, 0]] 1 1 (fun _ => 0)
        (initialState [[1, 2, 3], [4, 0, 6], [7, 5, 8]] [[1, 2, 3], [4, 5, 6], [7, 8, 0]] 1) =
          some st ∧ st.openSet.length = 4 ∧ st.closedSet.length = 1 ∧ st.totalOpened = 1) ∧
    (∀ k : Nat,
      ((poppedNodes (buildGoalPositions [[1, 2, 3], [4, 5, 6], [7, 8, 0]])
        [[1, 2, 3], [4, 5, 6], [7, 8, 0]] 1 k (fun _ => 0)
        (initialState [[1, 2, 3], [4, 0, 6], [7, 5, 8]] [[1, 2, 3], [4, 5, 6], [7, 8, 0]]
          1)).map PuzzleState.board).Nodup ∧
      ∀ x ∈ poppedNodes (buildGoalPositions [[1, 2, 3], [4, 5, 6], [7, 8, 0]])
        [[1, 2, 3], [4, 5, 6], [7, 8, 0]] 1 k (fun _ => 0)
        (initialState [[1, 2, 3], [4, 0, 6], [7, 5, 8]] [[1, 2, 3], [4, 5, 6], [7, 8, 0]] 1),
        Reachable 3 [[1, 2, 3], [4, 0, 6], [7, 5, 8]] x.board) :=
  ⟨⟨⟨rfl, by decide⟩, by decide, by decide⟩, ⟨_, rfl, by decide, by decide, by decide⟩,
    (open_closed_invariant 3 [[1, 2, 3], [4, 0, 6], [7, 5, 8]] [[1, 2, 3], [4, 5, 6], [7, 8, 0]]
      ⟨⟨rfl, by decide⟩, by decide, by decide⟩ 1 (fun _ => 0)).2.1⟩

/-- C19 — Postcondition of `generateNeighbors`: for every node `S` of size `n ≥ 2` whose
board is `n × n` and has its only 0 at `S.emptyPos = (r, c)`, the result lists, in the order of
the table `directions` (U, D, L, R), one node for each direction whose target cell
`(r + d.1, c + d.2)` is on the board, between 2 and 4 nodes; each node `N` has the target cell
as `emptyPos`, `g = S.g + 1`, the moves of `S` followed by the symbol of the direction,
`S` as parent, the selected heuristic of its board as `h`, and its board is the board of `S`
with the 0 and the content of the target cell exchanged and every other cell unchanged, so
that its only 0 is at the target cell. -/
theorem generateNeighbors_post (n : Nat) (hn : 2 ≤ n) (S : PuzzleState)
    (goalPos : List (Int × (Nat × Nat))) (goal : Board) (heuristicChoice : Int) (r c : Nat)
    (hsize : S.size = n) (hsq : IsSquare n S.board) (hr : r < n) (hc : c < n)
    (hpos : S.emptyPos = ((r : Int), (c : Int))) (hz : cell S.board r c = 0)
    (hone : ∀ i j, i < n → j < n → cell S.board i j = 0 → i = r ∧ j = c) :
    generateNeighbors S goalPos goal heuristicChoice =
      (directions.filter (fun d => decide
        (0 ≤ (r : Int) + d.1.1 ∧ (r : Int) + d.1.1 < (n : Int) ∧
         0 ≤ (c : Int) + d.1.2 ∧ (c : Int) + d.1.2 < (n : Int)))).map
        (fun d => PuzzleState.mk
          (swapCells S.board r c ((r : Int) + d.1.1).toNat ((c : Int) + d.1.2).toNat)
          n ((r : Int) + d.1.1, (c : Int) + d.1.2) (S.g + 1)
          (heuristic heuristicChoice
            (swapCells S.board r c ((r : Int) + d.1.1).toNat ((c : Int) + d.1.2).toNat)
            goalPos goal)
          (S.moves ++ [d.2]) S) ∧
    2 ≤ (generateNeighbors S goalPos goal heuristicChoice).length ∧
    (generateNeighbors S goalPos goal heuristicChoice).length ≤ 4 ∧
    ∀ N ∈ generateNeighbors S goalPos goal heuristicChoice,
      ∃ d ∈ directions, ∃ tr tc : Nat, tr < n ∧ tc < n ∧
        ((tr : Int), (tc : Int)) = ((r : Int) + d.1.1, (c : Int) + d.1.2) ∧
        N.emptyPos = ((tr : Int), (tc : Int)) ∧ N.g = S.g + 1 ∧ N.moves = S.moves ++ [d.2] ∧
        N.parent = S ∧ N.size = n ∧ N.h = heuristic heuristicChoice N.board goalPos goal ∧
        cell N.board tr tc = 0 ∧ cell N.board r c = cell S.board tr tc ∧
        (∀ i j, i < n → j < n → ¬ (i = r ∧ j = c) → ¬ (i = tr ∧ j = tc) →
          cell N.board i j = cell S.board i j) ∧
        (∀ i j, i < n → j < n → cell N.board i j = 0 → i = tr ∧ j = tc) := by
  have heq := generateNeighbors_eq S goalPos goal heuristicChoice
  rw [hpos, hsize] at heq
  simp only [Int.toNat_ofNat] at heq
  have hcount := inBounds_count hn hr hc
  refine ⟨heq, ?_, ?_, ?_⟩
  · rw [heq, List.length_map]
    exact hcount.1
  · rw [heq, List.length_map]
    exact hcount.2
  · intro N hN
    rw [heq, List.mem_map] at hN
    obtain ⟨d, hd, rfl⟩ := hN
    rw [List.mem_filter, decide_eq_true_eq] at hd
    obtain ⟨hdir, b1, b2, b3, b4⟩ := hd
    have htr : ((r : Int) + d.1.1).toNat < n := by omega
    have htc : ((c : Int) + d.1.2).toNat < n := by omega
    have hne : ¬ (r = ((r : Int) + d.1.1).toNat ∧ c = ((c : Int) + d.1.2).toNat) := by
      rintro ⟨e1, e2⟩
      rcases moveDelta_cases (moveDelta_of_mem_directions hdir) with e | e | e | e <;>
        rw [e] at e1 e2 b1 b3 <;> simp only at e1 e2 b1 b3 <;> omega
    have hcells := cell_swapCells hsq hr hc htr htc
    refine ⟨d, hdir, ((r : Int) + d.1.1).toNat, ((c : Int) + d.1.2).toNat, htr, htc, ?_, ?_,
      rfl, rfl, rfl, rfl, rfl, ?_, ?_, ?_, ?_⟩
    · rw [Int.toNat_of_nonneg b1, Int.toNat_of_nonneg b3]
    · show ((r : Int) + d.1.1, (c : Int) + d.1.2) = _
      rw [Int.toNat_of_nonneg b1, Int.toNat_of_nonneg b3]
    · show cell (swapCells S.board r c _ _) _ _ = 0
      rw [hcells]
      simp [hz]
    · show cell (swapCells S.board r c _ _) r c = _
      rw [hcells, if_neg hne]
      simp
    · intro i j _ _ h1 h2
      show cell (swapCells S.board r c _ _) i j = _
      rw [hcells, if_neg h2, if_neg h1]
    · intro i j hi hj h0
      have h0b : cell (swapCells S.board r c ((r : Int) + d.1.1).toNat
          ((c : Int) + d.1.2).toNat) i j = 0 := h0
      rw [hcells] at h0b
      by_cases h2 : i = ((r : Int) + d.1.1).toNat ∧ j = ((c : Int) + d.1.2).toNat
      · exact h2
      · rw [if_neg h2] at h0b
        by_cases h1 : i = r ∧ j = c
        · rw [if_pos h1] at h0b
          have := hone _ _ htr htc h0b
          exact absurd ⟨this.1.symm, this.2.symm⟩ hne
        · rw [if_neg h1] at h0b
          exact absurd (hone i j hi hj h0b) h1

/-- C19 (witness) — the root node of a 3 × 3 board with the 0 in the middle of the left
column: three neighbours, for U, D and R. -/
theorem generateNeighbors_post_witness :
    (generateNeighbors
      (PuzzleState.mk [[4, 8, 3], [0, 1, 5], [7, 6, 2]] 3 (1, 0) 0 0 [] PuzzleState.nullptr)
      (buildGoalPositions [[1, 2, 3], [8, 0, 4], [7, 6, 5]])
      [[1, 2, 3], [8, 0, 4], [7, 6, 5]] 1).map PuzzleState.moves = [['U'], ['D'], ['R']] ∧
    2 ≤ (generateNeighbors
      (PuzzleState.mk [[4, 8, 3], [0, 1, 5], [7, 6, 2]] 3 (1, 0) 0 0 [] PuzzleState.nullptr)
      (buildGoalPositions [[1, 2, 3], [8, 0, 4], [7, 6, 5]])
      [[1, 2, 3], [8, 0, 4], [7, 6, 5]] 1).length :=
  ⟨by decide,
    (generateNeighbors_post 3 (by decide)
      (PuzzleState.mk [[4, 8, 3], [0, 1, 5], [7, 6, 2]] 3 (1, 0) 0 0 [] PuzzleState.nullptr)
      (buildGoalPositions [[1, 2, 3], [8, 0, 4], [7, 6, 5]]) [[1, 2, 3], [8, 0, 4], [7, 6, 5]] 1
      1 0 rfl ⟨rfl, by decide⟩ (by decide) (by decide) rfl (by decide)
      (fun i j hi hj h => by
        interval_cases i <;> interval_cases j <;>
          first | exact ⟨rfl, rfl⟩ | exact absurd h (by decide))).2.1⟩

/-- C20 — The membership key is collision-free on boards of one size: for every two
`n × n` boards `A` and `B` of integers, `PuzzleState::toString` gives the same string for `A`
and `B` if and only if `A` and `B` are equal cell by cell; the key of a node is a function of
its board alone (not of `g`, `h`, `moves` or `parent`). -/
theorem toString_collision_free (n : Nat) (A B : Board) (hA : IsSquare n A)
    (hB : IsSquare n B) :
    (boardToString A = boardToString B ↔
      ∀ i j, i < n → j < n → cell A i j = cell B i j) ∧
    (∀ s t : PuzzleState, s.board = A → t.board = B →
      (s.toString = t.toString ↔ A = B)) ∧
    (∀ (size size2 : Nat) (e e2 : Int × Int) (g g2 h h2 : Int) (m m2 : List Char)
      (p p2 : PuzzleState),
      (PuzzleState.mk A size e g h m p).toString =
        (PuzzleState.mk A size2 e2 g2 h2 m2 p2).toString) := by
  refine ⟨⟨?_, ?_⟩, ?_, ?_⟩
  · intro h i j _ _
    rw [boardToString_injective hA hB h]
  · intro h
    rw [board_ext hA hB h]
  · intro s t hs ht
    show boardToString s.board = boardToString t.board ↔ A = B
    rw [hs, ht]
    exact ⟨boardToString_injective hA hB, fun e => by rw [e]⟩
  · intros
    rfl

/-- C20 (witness) — two 2 × 2 boards with different keys. -/
theorem toString_collision_free_witness :
    boardToString [[1, 2], [3, 0]] = ['1', ',', '2', ',', '3', ',', '0', ','] ∧
    (boardToString [[1, 2], [3, 0]] = boardToString [[12, 3], [0, 0]] ↔
      ∀ i j, i < 2 → j < 2 → cell [[1, 2], [3, 0]] i j = cell [[12, 3], [0, 0]] i j) :=
  ⟨by decide,
    (toString_collision_free 2 [[1, 2], [3, 0]] [[12, 3], [0, 0]] ⟨rfl, by decide⟩
      ⟨rfl, by decide⟩).1⟩

end NPuzzle

namespace NPuzzle

/-! ## The counter `maxInMemory` -/

theorem pushNeighbors_closedSet : ∀ (l : List PuzzleState) (st : SearchState),
    (pushNeighbors st l).closedSet = st.closedSet
  | [], _ => rfl
  | x :: l, st => by
    rw [pushNeighbors_cons, pushNeighbors_closedSet l, pushNeighbors_single]
    split_ifs <;> rfl

theorem memorySize_push (st : SearchState) (x : PuzzleState) :
    memorySize st ≤ memorySize (pushNeighbors st [x]) := by
  rw [pushNeighbors_single]
  split_ifs
  · exact le_refl _
  · exact le_refl _
  · unfold memorySize
    simp only [List.length_append, List.length_singleton]
    push_cast
    omega

theorem memorySize_pushNeighbors : ∀ (l : List PuzzleState) (st : SearchState),
    memorySize st ≤ memorySize (pushNeighbors st l)
  | [], _ => le_refl _
  | x :: l, st => by
    rw [pushNeighbors_cons]
    exact le_trans (memorySize_push st x) (memorySize_pushNeighbors l _)

/-- During the loop over the neighbours the size never exceeds its value at the end. -/
theorem pushSizes_le : ∀ (l : List PuzzleState) (st : SearchState),
    ∀ v ∈ pushSizes st l, v ≤ memorySize (pushNeighbors st l)
  | [], _ => by simp [pushSizes]
  | x :: l, st => by
    intro v hv
    unfold pushSizes at hv
    rw [pushNeighbors_cons]
    rcases List.mem_cons.1 hv with e | hv
    · rw [e]
      exact memorySize_pushNeighbors l _
    · exact pushSizes_le l _ v hv

theorem length_setInsert_le (s : List (List Char)) (k : List Char) :
    (setInsert s k).length ≤ s.length + 1 := by
  unfold setInsert
  split_ifs
  · omega
  · simp

theorem loopSizes_head (goalPos : List (Int × (Nat × Nat))) (goal : Board) (ch : Int)
    (k : Nat) (tie : Nat → Nat) (st : SearchState) :
    memorySize st ∈ loopSizes goalPos goal ch k tie st := by
  cases k with
  | zero => simp [loopSizes]
  | succ k =>
    unfold loopSizes
    exact List.mem_cons_self _ _

/-- The returned `maxInMemory` bounds every size met in the run, and it is the counter at
the start of the loop or one of the sizes met. -/
theorem aStarLoop_maxInMemory (goalPos : List (Int × (Nat × Nat))) (goal : Board) (ch : Int) :
    ∀ (fuel : Nat) (tie : Nat → Nat) (st : SearchState) (r : PuzzleState × Int × Int),
      (st.openSet = [] → memorySize st ≤ st.maxInMemory) →
      aStarLoop goalPos goal ch fuel tie st = some r →
      st.maxInMemory ≤ r.2.2 ∧
      (∀ v ∈ loopSizes goalPos goal ch fuel tie st, v ≤ r.2.2) ∧
      (r.2.2 = st.maxInMemory ∨ r.2.2 ∈ loopSizes goalPos goal ch fuel tie st)
  | 0, _, _, _, _, h => by simp [aStarLoop] at h
  | fuel + 1, tie, st, r, hP, h => by
    unfold aStarLoop at h
    unfold loopSizes
    by_cases hempty : st.openSet.isEmpty = true
    · rw [if_pos hempty] at h
      rw [if_pos hempty]
      simp only [Option.some.injEq] at h
      rw [← h]
      refine ⟨le_refl _, ?_, Or.inl rfl⟩
      intro v hv
      rw [List.mem_singleton.1 hv]
      exact hP (List.isEmpty_iff.1 hempty)
    · rw [if_neg hempty] at h
      rw [if_neg hempty]
      have hne : st.openSet ≠ [] := fun e => hempty (List.isEmpty_iff.2 e)
      have hidx := topIndex_lt hne (tie 0)
      have herase : ((st.openSet.eraseIdx (topIndex st.openSet (tie 0))).length : Int) + 1 =
          (st.openSet.length : Int) := by
        rw [List.length_eraseIdx, if_pos hidx]
        omega
      have hpop : ((st.openSet.eraseIdx (topIndex st.openSet (tie 0))).length : Int) +
          (st.closedSet.length : Int) ≤ memorySize st := by
        unfold memorySize
        omega
      have hexp := expand_eq goalPos goal ch st (topIndex st.openSet (tie 0))
      rw [expandAt_eq] at hexp
      by_cases hgoal : (st.openSet.getD (topIndex st.openSet (tie 0))
          PuzzleState.nullptr).isGoal goal = true
      · rw [if_pos hgoal] at hexp
        rw [hexp] at h
        rw [hexp]
        simp only [Option.some.injEq] at h
        rw [← h]
        simp only
        have hmax : max st.maxInMemory ((st.openSet.length : Int) + (st.closedSet.length : Int)) =
            max st.maxInMemory (memorySize st) := rfl
        rw [hmax]
        refine ⟨le_max_left _ _, ?_, ?_⟩
        · intro v hv
          rcases List.mem_cons.1 hv with e | hv
          · rw [e]
            exact le_max_right _ _
          · rw [List.mem_singleton.1 hv]
            exact le_trans hpop (le_max_right _ _)
        · rcases max_choice st.maxInMemory (memorySize st) with e | e
          · exact Or.inl e
          · exact Or.inr (by rw [e]; exact List.mem_cons_self _ _)
      · rw [if_neg hgoal] at hexp
        rw [hexp] at h
        rw [hexp]
        simp only at h ⊢
        have hafter : memorySize (afterPop st (topIndex st.openSet (tie 0))
            (st.openSet.getD (topIndex st.openSet (tie 0)) PuzzleState.nullptr)) ≤
            memorySize st := by
          have := length_setInsert_le st.closedSet
            (st.openSet.getD (topIndex st.openSet (tie 0)) PuzzleState.nullptr).toString
          unfold memorySize afterPop
          simp only
          omega
        have hmaxeq : (pushNeighbors (afterPop st (topIndex st.openSet (tie 0))
            (st.openSet.getD (topIndex st.openSet (tie 0)) PuzzleState.nullptr))
            (generateNeighbors (st.openSet.getD (topIndex st.openSet (tie 0)) PuzzleState.nullptr)
              goalPos goal ch)).maxInMemory = max st.maxInMemory (memorySize st) := by
          rw [(pushNeighbors_counters _ _).2]
          rfl
        have hP2 : (pushNeighbors (afterPop st (topIndex st.openSet (tie 0))
            (st.openSet.getD (topIndex st.openSet (tie 0)) PuzzleState.nullptr))
            (generateNeighbors (st.openSet.getD (topIndex st.openSet (tie 0)) PuzzleState.nullptr)
              goalPos goal ch)).openSet = [] →
            memorySize (pushNeighbors (afterPop st (topIndex st.openSet (tie 0))
              (st.openSet.getD (topIndex st.openSet (tie 0)) PuzzleState.nullptr))
              (generateNeighbors
                (st.openSet.getD (topIndex st.openSet (tie 0)) PuzzleState.nullptr)
                goalPos goal ch)) ≤
            (pushNeighbors (afterPop st (topIndex st.openSet (tie 0))
              (st.openSet.getD (topIndex st.openSet (tie 0)) PuzzleState.nullptr))
              (generateNeighbors
                (st.openSet.getD (topIndex st.openSet (tie 0)) PuzzleState.nullptr)
                goalPos goal ch)).maxInMemory := by
          intro he
          rw [hmaxeq]
          refine le_trans ?_ (le_max_right _ _)
          have hc := pushNeighbors_closedSet
            (generateNeighbors (st.openSet.getD (topIndex st.openSet (tie 0)) PuzzleState.nullptr)
              goalPos goal ch)
            (afterPop st (topIndex st.openSet (tie 0))
              (st.openSet.getD (topIndex st.openSet (tie 0)) PuzzleState.nullptr))
          have hl := length_setInsert_le st.closedSet
            (st.openSet.getD (topIndex st.openSet (tie 0)) PuzzleState.nullptr).toString
          have hopen : 1 ≤ st.openSet.length := by omega
          unfold memorySize
          rw [he, hc]
          unfold afterPop
          simp only [List.length_nil]
          omega
        obtain ⟨i1, i2, i3⟩ := aStarLoop_maxInMemory goalPos goal ch fuel (fun k => tie (k + 1))
          _ r hP2 h
        rw [hmaxeq] at i1 i3
        have hst : memorySize st ≤ r.2.2 := le_trans (le_max_right _ _) i1
        refine ⟨le_trans (le_max_left _ _) i1, ?_, ?_⟩
        · intro v hv
          rcases List.mem_cons.1 hv with e | hv
          · rw [e]; exact hst
          rcases List.mem_cons.1 hv with e | hv
          · rw [e]; exact le_trans hpop hst
          rcases List.mem_cons.1 hv with e | hv
          · rw [e]; exact le_trans hafter hst
          rcases List.mem_append.1 hv with hv | hv
          · exact le_trans (pushSizes_le _ _ v hv)
              (i2 _ (loopSizes_head goalPos goal ch fuel _ _))
          · exact i2 v hv
        · rcases i3 with e | hmem
          · rcases max_choice st.maxInMemory (memorySize st) with e2 | e2
            · exact Or.inl (e.trans e2)
            · exact Or.inr (by rw [e, e2]; exact List.mem_cons_self _ _)
          · exact Or.inr (List.mem_cons_of_mem _ (List.mem_cons_of_mem _
              (List.mem_cons_of_mem _ (List.mem_append_right _ hmem))))

/-- On success the returned node is the last node popped. -/
theorem aStarLoop_popped_last (goalPos : List (Int × (Nat × Nat))) (goal : Board) (ch : Int) :
    ∀ (fuel : Nat) (tie : Nat → Nat) (st : SearchState) (r : PuzzleState × Int × Int),
      aStarLoop goalPos goal ch fuel tie st = some r → r.1 ≠ PuzzleState.nullptr →
      (poppedNodes goalPos goal ch fuel tie st).getLast? = some r.1
  | 0, _, _, _, h, _ => by simp [aStarLoop] at h
  | fuel + 1, tie, st, r, h, hne => by
    unfold aStarLoop at h
    unfold poppedNodes
    by_cases hempty : st.openSet.isEmpty = true
    · rw [if_pos hempty] at h
      simp only [Option.some.injEq] at h
      rw [← h] at hne
      exact absurd rfl hne
    · rw [if_neg hempty] at h
      rw [if_neg hempty]
      cases hexp : expand goalPos goal ch st (topIndex st.openSet (tie 0)) with
      | inl r2 =>
        rw [hexp] at h
        simp only [Option.some.injEq] at h
        rw [expand_eq, expandAt_eq] at hexp
        split_ifs at hexp
        simp only [Sum.inl.injEq] at hexp
        rw [← h, ← hexp]
        rfl
      | inr st2 =>
        rw [hexp] at h
        simp only
        have ih := aStarLoop_popped_last goalPos goal ch fuel _ st2 r h hne
        cases hl : poppedNodes goalPos goal ch fuel (fun i => tie (i + 1)) st2 with
        | nil =>
          rw [hl] at ih
          simp at ih
        | cons a l =>
          rw [hl] at ih
          rw [List.getLast?_cons_cons]
          exact ih

/-! ## The run on a start board that is the goal -/

theorem topIndex_singleton (x : PuzzleState) (choice : Nat) : topIndex [x] choice = 0 := by
  unfold topIndex topCandidates bestOf
  simp [compareState_irrefl, List.enum]

theorem aStarSearch_start_is_goal (b : Board) (ch : Int) (tie : Nat → Nat) (fuel : Nat) :
    aStarSearch (fuel + 1) tie b b ch =
      some (PuzzleState.mk b b.length (findEmptyPosition b b.length) 0
        (heuristic ch b (buildGoalPositions b) b) [] PuzzleState.nullptr, 1, 1) := by
  unfold aStarSearch initialState aStarLoop
  simp only [List.isEmpty_cons, Bool.false_eq_true, if_false, topIndex_singleton]
  rw [expand_eq, expandAt_eq]
  simp [PuzzleState.isGoal, PuzzleState.board]

end NPuzzle

namespace NPuzzle

/-! ## Claim on the counters of the search -/

/-- C21 — Search counters: for every run of `aStarSearch` that returns (on any boards, valid
or not), the returned `totalOpened` is the number of nodes popped from the open queue, the
last of which is the returned node on success; the returned `maxInMemory` is the maximum of
the values that `openSet.size() + closedSet.size()` takes at the points of the run (before the
start node is pushed, at the top of each iteration, after the pop, after the insertion into
`closedSet` and after each pass of the loop over the neighbours); and when start equals goal
the search returns the root node, with `g = 0` and no moves, `totalOpened = 1` and
`maxInMemory = 1`. -/
theorem search_counters (start goal : Board) (heuristicChoice : Int) (tie : Nat → Nat)
    (fuel : Nat) (node : PuzzleState) (totalOpened maxInMemory : Int)
    (hres : aStarSearch fuel tie start goal heuristicChoice =
      some (node, totalOpened, maxInMemory)) :
    totalOpened = ((poppedNodes (buildGoalPositions goal) goal heuristicChoice fuel tie
      (initialState start goal heuristicChoice)).length : Int) ∧
    (node ≠ PuzzleState.nullptr →
      (poppedNodes (buildGoalPositions goal) goal heuristicChoice fuel tie
        (initialState start goal heuristicChoice)).getLast? = some node) ∧
    (∀ v ∈ (0 : Int) :: loopSizes (buildGoalPositions goal) goal heuristicChoice fuel tie
      (initialState start goal heuristicChoice), v ≤ maxInMemory) ∧
    maxInMemory ∈ loopSizes (buildGoalPositions goal) goal heuristicChoice fuel tie
      (initialState start goal heuristicChoice) ∧
    (start = goal →
      node = PuzzleState.mk start start.length (findEmptyPosition start start.length) 0
        (heuristic heuristicChoice start (buildGoalPositions goal) goal) []
        PuzzleState.nullptr ∧
      node.g = 0 ∧ node.moves = [] ∧ totalOpened = 1 ∧ maxInMemory = 1 ∧
      ∀ (fuel2 : Nat) (tie2 : Nat → Nat),
        aStarSearch (fuel2 + 1) tie2 start goal heuristicChoice = some (node, 1, 1)) := by
  have hzero : (initialState start goal heuristicChoice).totalOpened = 0 := rfl
  have hmax0 : (initialState start goal heuristicChoice).maxInMemory = 0 := rfl
  have hsize : memorySize (initialState start goal heuristicChoice) = 1 := rfl
  have hcount := aStarLoop_totalOpened _ goal heuristicChoice fuel tie _ _ hres
  rw [hzero, zero_add] at hcount
  obtain ⟨m1, m2, m3⟩ := aStarLoop_maxInMemory (buildGoalPositions goal) goal heuristicChoice
    fuel tie (initialState start goal heuristicChoice) _
    (fun he => absurd he (by simp [initialState])) hres
  rw [hmax0] at m1 m3
  simp only at m1 m2 m3 hcount
  have hhead := m2 _ (loopSizes_head (buildGoalPositions goal) goal heuristicChoice fuel tie
    (initialState start goal heuristicChoice))
  rw [hsize] at hhead
  refine ⟨hcount, ?_, ?_, ?_, ?_⟩
  · intro hne
    exact aStarLoop_popped_last _ goal heuristicChoice fuel tie _ _ hres hne
  · intro v hv
    rcases List.mem_cons.1 hv with e | hv
    · rw [e]; exact m1
    · exact m2 v hv
  · rcases m3 with e | hmem
    · omega
    · exact hmem
  · intro e
    subst e
    cases fuel with
    | zero => simp [aStarSearch, aStarLoop] at hres
    | succ f =>
      rw [aStarSearch_start_is_goal] at hres
      simp only [Option.some.injEq, Prod.mk.injEq] at hres
      obtain ⟨h1, h2, h3⟩ := hres
      refine ⟨h1.symm, by rw [← h1]; rfl, by rw [← h1]; rfl, h2.symm, h3.symm, ?_⟩
      intro fuel2 tie2
      rw [aStarSearch_start_is_goal, h1]

set_option maxRecDepth 100000 in
/-- C21 (witness) — the run on start `[[1,2,3],[4,0,6],[7,5,8]]`, goal
`[[1,2,3],[4,5,6],[7,8,0]]` with the Manhattan heuristic: three pops, the sizes met, and the
statement at this run; and the run on a start board that is the goal. -/
theorem search_counters_witness :
    loopSizes (buildGoalPositions [[1, 2, 3], [4, 5, 6], [7, 8, 0]])
      [[1, 2, 3], [4, 5, 6], [7, 8, 0]] 1 10 (fun _ => 0)
      (initialState [[1, 2, 3], [4, 0, 6], [7, 5, 8]] [[1, 2, 3], [4, 5, 6], [7, 8, 0]] 1) =
        [1, 0, 1, 2, 3, 4, 5, 5, 4, 5, 5, 6, 7, 7, 6] ∧
    ((3 : Int) = ((poppedNodes (buildGoalPositions [[1, 2, 3], [4, 5, 6], [7, 8, 0]])
      [[1, 2, 3], [4, 5, 6], [7, 8, 0]] 1 10 (fun _ => 0)
      (initialState [[1, 2, 3], [4, 0, 6], [7, 5, 8]] [[1, 2, 3], [4, 5, 6], [7, 8, 0]]
        1)).length : Int)) ∧
    (7 : Int) ∈ loopSizes (buildGoalPositions [[1, 2, 3], [4, 5, 6], [7, 8, 0]])
      [[1, 2, 3], [4, 5, 6], [7, 8, 0]] 1 10 (fun _ => 0)
      (initialState [[1, 2, 3], [4, 0, 6], [7, 5, 8]] [[1, 2, 3], [4, 5, 6], [7, 8, 0]] 1) ∧
    aStarSearch 1 (fun _ => 0) [[1, 2, 3], [4, 5, 6], [7, 8, 0]]
      [[1, 2, 3], [4, 5, 6], [7, 8, 0]] 1 =
        some (PuzzleState.mk [[1, 2, 3], [4, 5, 6], [7, 8, 0]] 3 (2, 2) 0 0 []
          PuzzleState.nullptr, 1, 1) :=
  ⟨by decide,
    (search_counters [[1, 2, 3], [4, 0, 6], [7, 5, 8]] [[1, 2, 3], [4, 5, 6], [7, 8, 0]] 1
      (fun _ => 0) 10
      (PuzzleState.mk [[1, 2, 3], [4, 5, 6], [7, 8, 0]] 3 (2, 2) 2 0 ['D', 'R']
        (PuzzleState.mk [[1, 2, 3], [4, 5, 6], [7, 0, 8]] 3 (2, 1) 1 1 ['D']
          (PuzzleState.mk [[1, 2, 3], [4, 0, 6], [7, 5, 8]] 3 (1, 1) 0 2 []
            PuzzleState.nullptr)))
      3 7 (by rfl)).1,
    (search_counters [[1, 2, 3], [4, 0, 6], [7, 5, 8]] [[1, 2, 3], [4, 5, 6], [7, 8, 0]] 1
      (fun _ => 0) 10
      (PuzzleState.mk [[1, 2, 3], [4, 5, 6], [7, 8, 0]] 3 (2, 2) 2 0 ['D', 'R']
        (PuzzleState.mk [[1, 2, 3], [4, 5, 6], [7, 0, 8]] 3 (2, 1) 1 1 ['D']
          (PuzzleState.mk [[1, 2, 3], [4, 0, 6], [7, 5, 8]] 3 (1, 1) 0 2 []
            PuzzleState.nullptr)))
      3 7 (by rfl)).2.2.2.1,
    by rfl⟩

end NPuzzle
